import Mathlib

/-!
Verification of the SkyMatrix satellite-image analytics core against its
natural-language specification.  The C++ source (namespace
`SatelliteAnalytics`) is shallowly embedded: machine `int` / `int64_t`
values become `ℤ`, `double` values become `ℚ` (the idealised exact-real
semantics of the floating-point code), matrices become functions
`ℕ → ℕ → ℤ`, and the mutable node arena of `RegionTree` becomes an
explicit list of nodes threaded through the recursion.
-/

set_option linter.unusedVariables false

namespace SatelliteAnalytics

/-- Rectangular region with inclusive bounds, from `Utils.h` (`struct Region`).
Fields are C++ `int`, embedded as `ℤ`. -/
structure Region where
  row1 : ℤ
  col1 : ℤ
  row2 : ℤ
  col2 : ℤ
deriving DecidableEq, Repr

/-- Number of pixels, from `Region::area` in `Utils.h`. -/
def Region.area (r : Region) : ℤ :=
  (r.row2 - r.row1 + 1) * (r.col2 - r.col1 + 1)

/-- Validity check, from `Region::isValid` in `Utils.h`. -/
def Region.isValid (r : Region) : Bool :=
  decide (r.row1 ≤ r.row2 ∧ r.col1 ≤ r.col2)

/-- Point membership, from `Region::contains` in `Utils.h`. -/
def Region.contains (r : Region) (row col : ℤ) : Bool :=
  decide (r.row1 ≤ row ∧ row ≤ r.row2 ∧ r.col1 ≤ col ∧ col ≤ r.col2)

/-- Edge adjacency, from `Region::isAdjacentTo` in `Utils.cpp` lines 17-43:
overlapping regions are rejected first, then horizontal (shared vertical
edge) and vertical (shared horizontal edge) adjacency are tested. -/
def Region.isAdjacentTo (a other : Region) : Bool :=
  let xOverlap := !(decide (a.col2 < other.col1) || decide (other.col2 < a.col1))
  let yOverlap := !(decide (a.row2 < other.row1) || decide (other.row2 < a.row1))
  if xOverlap && yOverlap then
    false
  else if yOverlap && (decide (a.col2 + 1 = other.col1) || decide (other.col2 + 1 = a.col1)) then
    true
  else if xOverlap && (decide (a.row2 + 1 = other.row1) || decide (other.row2 + 1 = a.row1)) then
    true
  else
    false

/-- Propositional characterisation of `Region.isAdjacentTo`. -/
theorem isAdjacentTo_eq_true_iff (a b : Region) :
    a.isAdjacentTo b = true ↔
      (¬ ((b.col1 ≤ a.col2 ∧ a.col1 ≤ b.col2) ∧ (b.row1 ≤ a.row2 ∧ a.row1 ≤ b.row2)) ∧
        (((b.row1 ≤ a.row2 ∧ a.row1 ≤ b.row2) ∧ (a.col2 + 1 = b.col1 ∨ b.col2 + 1 = a.col1)) ∨
         ((b.col1 ≤ a.col2 ∧ a.col1 ≤ b.col2) ∧ (a.row2 + 1 = b.row1 ∨ b.row2 + 1 = a.row1)))) := by
  unfold Region.isAdjacentTo
  simp only [Bool.and_eq_true, Bool.or_eq_true, Bool.not_eq_true', decide_eq_true_eq,
    decide_eq_false_iff_not]
  by_cases hx : b.col1 ≤ a.col2 ∧ a.col1 ≤ b.col2 <;>
    by_cases hy : b.row1 ≤ a.row2 ∧ a.row1 ≤ b.row2 <;>
      simp_all <;> omega

/-- C8: `Region::isAdjacentTo` is symmetric; a valid region is never
adjacent to itself; two regions sharing at least one cell are never
adjacent. -/
theorem adjacency_symm_irrefl_disjoint (A B : Region) :
    (A.isAdjacentTo B = B.isAdjacentTo A) ∧
    (A.isValid = true → A.isAdjacentTo A = false) ∧
    ((∃ r c, A.contains r c = true ∧ B.contains r c = true) → A.isAdjacentTo B = false) := by
  refine ⟨?_, ?_, ?_⟩
  · have hiff : (A.isAdjacentTo B = true) ↔ (B.isAdjacentTo A = true) := by
      rw [isAdjacentTo_eq_true_iff, isAdjacentTo_eq_true_iff]
      omega
    cases hA : A.isAdjacentTo B <;> cases hB : B.isAdjacentTo A <;> simp_all
  · intro hv
    simp only [Region.isValid, decide_eq_true_eq] at hv
    cases h : A.isAdjacentTo A
    · rfl
    · rw [isAdjacentTo_eq_true_iff] at h
      omega
  · rintro ⟨r, c, hA, hB⟩
    simp only [Region.contains, decide_eq_true_eq] at hA hB
    cases h : A.isAdjacentTo B
    · rfl
    · rw [isAdjacentTo_eq_true_iff] at h
      omega

/-- Witness for `adjacency_symm_irrefl_disjoint` at concrete regions. -/
theorem adjacency_symm_irrefl_disjoint_witness :
    ((Region.mk 0 0 1 1).isValid = true →
      (Region.mk 0 0 1 1).isAdjacentTo (Region.mk 0 0 1 1) = false) ∧
    ((∃ r c, (Region.mk 0 0 1 1).contains r c = true ∧
        (Region.mk 0 1 2 3).contains r c = true) →
      (Region.mk 0 0 1 1).isAdjacentTo (Region.mk 0 1 2 3) = false) := by
  refine ⟨?_, ?_⟩
  · exact (adjacency_symm_irrefl_disjoint (Region.mk 0 0 1 1) (Region.mk 0 0 1 1)).2.1
  · exact (adjacency_symm_irrefl_disjoint (Region.mk 0 0 1 1) (Region.mk 0 1 2 3)).2.2

/-- Quadrant split, from `RegionTree::splitRegion` in `RegionTree.cpp` lines
51-66.  Returns (NW, NE, SW, SE).  C++ `int` division truncates toward
zero, which agrees with Lean's `ℤ` floor division on the non-negative
coordinates that arise from raster regions. -/
def splitRegion (region : Region) : Region × Region × Region × Region :=
  let midRow := (region.row1 + region.row2) / 2
  let midCol := (region.col1 + region.col2) / 2
  (Region.mk region.row1 region.col1 midRow midCol,
   Region.mk region.row1 (midCol + 1) midRow region.col2,
   Region.mk (midRow + 1) region.col1 region.row2 midCol,
   Region.mk (midRow + 1) (midCol + 1) region.row2 region.col2)

/-- C7 counterexample: for the 3×3 region (0,0,2,2) — both dimensions odd —
the claim says the NW quadrant receives the smaller half (⌊3/2⌋ = 1) of
each dimension, but `splitRegion` gives NW the larger half (2 rows and 2
columns); the SE quadrant receives the single remaining row/column. -/
theorem split_odd_smaller_half_false :
    ¬ ((splitRegion (Region.mk 0 0 2 2)).1.row2 -
         (splitRegion (Region.mk 0 0 2 2)).1.row1 + 1 = 1 ∧
       (splitRegion (Region.mk 0 0 2 2)).1.col2 -
         (splitRegion (Region.mk 0 0 2 2)).1.col1 + 1 = 1) := by
  decide

/-- C7 (amended): for a valid region with non-negative coordinates the split
point is the floor of the midpoint; the NW/SW quadrants receive the larger
half ⌈w/2⌉ = (w+1)/2 of the column dimension and NE/SE the remainder
w/2, and the NW/NE quadrants receive the larger half of the row dimension
and SW/SE the remainder (for even dimensions both halves coincide). -/
theorem split_region_halves (R : Region) (h1 : 0 ≤ R.row1) (h2 : R.row1 ≤ R.row2)
    (h3 : 0 ≤ R.col1) (h4 : R.col1 ≤ R.col2) :
    (splitRegion R).1.row2 = (R.row1 + R.row2) / 2 ∧
    (splitRegion R).1.col2 = (R.col1 + R.col2) / 2 ∧
    ((splitRegion R).1.col2 - (splitRegion R).1.col1 + 1 = (R.col2 - R.col1 + 1 + 1) / 2) ∧
    ((splitRegion R).2.2.1.col2 - (splitRegion R).2.2.1.col1 + 1
      = (R.col2 - R.col1 + 1 + 1) / 2) ∧
    ((splitRegion R).2.1.col2 - (splitRegion R).2.1.col1 + 1 = (R.col2 - R.col1 + 1) / 2) ∧
    ((splitRegion R).2.2.2.col2 - (splitRegion R).2.2.2.col1 + 1 = (R.col2 - R.col1 + 1) / 2) ∧
    ((splitRegion R).1.row2 - (splitRegion R).1.row1 + 1 = (R.row2 - R.row1 + 1 + 1) / 2) ∧
    ((splitRegion R).2.1.row2 - (splitRegion R).2.1.row1 + 1 = (R.row2 - R.row1 + 1 + 1) / 2) ∧
    ((splitRegion R).2.2.1.row2 - (splitRegion R).2.2.1.row1 + 1 = (R.row2 - R.row1 + 1) / 2) ∧
    ((splitRegion R).2.2.2.row2 - (splitRegion R).2.2.2.row1 + 1
      = (R.row2 - R.row1 + 1) / 2) := by
  simp only [splitRegion, true_and]
  omega

/-- Witness for `split_region_halves` at the 3×3 region. -/
theorem split_region_halves_witness :
    (splitRegion (Region.mk 0 0 2 2)).1.col2 - (splitRegion (Region.mk 0 0 2 2)).1.col1 + 1
      = (2 - 0 + 1 + 1) / 2 := by
  exact (split_region_halves (Region.mk 0 0 2 2) (by decide) (by decide)
    (by decide) (by decide)).2.2.1

/-! ## PrefixSum (`PrefixSum.cpp`) -/

/-- One row of the cumulative table: given the previous row `prev` and the
current raster row `vrow`, entry `j+1` is
`vrow[j] + prev[j+1] + row[j] - prev[j]` — the inner loop of
`PrefixSum::build`. -/
def prefixRow (prev : ℕ → ℤ) (vrow : ℕ → ℤ) : ℕ → ℤ
  | 0 => 0
  | j + 1 => vrow j + prev (j + 1) + prefixRow prev vrow j - prev j

/-- Cumulative table built by the dynamic-programming recurrence of
`PrefixSum::build` (`PrefixSum.cpp` lines 89-106):
`prefix[i][j] = image[i-1][j-1] + prefix[i-1][j] + prefix[i][j-1] - prefix[i-1][j-1]`
with a zero-padded border at row/column 0. -/
def prefixTable (v : ℕ → ℕ → ℤ) : ℕ → ℕ → ℤ
  | 0 => fun _ => 0
  | i + 1 => prefixRow (prefixTable v i) (v i)

/-- State of the `PrefixSum` engine: the `built` flag, the raster
dimensions, and the raster itself (pixel lookup `img r c`).  The two
cumulative tables of the C++ object are determined by `img` through
`prefixTable`, which is exactly the recurrence `build` fills them with. -/
structure PrefixSum where
  built : Bool
  height : ℕ
  width : ℕ
  img : ℕ → ℕ → ℤ

/-- Squared raster, the generator of the `prefixSquares` table. -/
def PrefixSum.imgSquares (ps : PrefixSum) : ℕ → ℕ → ℤ :=
  fun r c => ps.img r c * ps.img r c

/-- Shared body of `PrefixSum::querySum` / `querySumSquares`
(`PrefixSum.cpp` lines 126-175): clamp the bounds to the raster extent,
return 0 for an inverted clamped region, otherwise apply four-point
inclusion–exclusion on the given cumulative table. -/
def queryTable (v : ℕ → ℕ → ℤ) (h w : ℕ) (r1 c1 r2 c2 : ℤ) : ℤ :=
  let r1c := max 0 r1
  let c1c := max 0 c1
  let r2c := min ((h : ℤ) - 1) r2
  let c2c := min ((w : ℤ) - 1) c2
  if r1c > r2c ∨ c1c > c2c then 0
  else
    prefixTable v (r2c.toNat + 1) (c2c.toNat + 1)
      - prefixTable v r1c.toNat (c2c.toNat + 1)
      - prefixTable v (r2c.toNat + 1) c1c.toNat
      + prefixTable v r1c.toNat c1c.toNat

/-- `PrefixSum::querySum(int,int,int,int)` (`PrefixSum.cpp` lines 126-154). -/
def PrefixSum.querySum (ps : PrefixSum) (r1 c1 r2 c2 : ℤ) : ℤ :=
  if ps.built = false then 0
  else queryTable ps.img ps.height ps.width r1 c1 r2 c2

/-- `PrefixSum::querySumSquares(int,int,int,int)` (`PrefixSum.cpp` lines 160-175). -/
def PrefixSum.querySumSquares (ps : PrefixSum) (r1 c1 r2 c2 : ℤ) : ℤ :=
  if ps.built = false then 0
  else queryTable ps.imgSquares ps.height ps.width r1 c1 r2 c2

/-- `PrefixSum::querySum(const Region&)`. -/
def PrefixSum.querySumR (ps : PrefixSum) (region : Region) : ℤ :=
  ps.querySum region.row1 region.col1 region.row2 region.col2

/-- `PrefixSum::querySumSquares(const Region&)`. -/
def PrefixSum.querySumSquaresR (ps : PrefixSum) (region : Region) : ℤ :=
  ps.querySumSquares region.row1 region.col1 region.row2 region.col2

/-- `PrefixSum::queryMean` (`PrefixSum.cpp` lines 215-222). -/
def PrefixSum.queryMean (ps : PrefixSum) (region : Region) : ℚ :=
  if ps.built = false then 0
  else
    let s := ps.querySumR region
    let a := region.area
    if 0 < a then (s : ℚ) / (a : ℚ) else 0

/-- Brute-force summation over a region's cells (the reference computation
of `PrefixSum::verify`, `PrefixSum.cpp` lines 228-248). -/
def bruteSum (v : ℕ → ℕ → ℤ) (R : Region) : ℤ :=
  ∑ r ∈ Finset.Icc R.row1.toNat R.row2.toNat,
    ∑ c ∈ Finset.Icc R.col1.toNat R.col2.toNat, v r c

/-- Brute-force mean of a region. -/
def bruteMean (v : ℕ → ℕ → ℤ) (R : Region) : ℚ :=
  (bruteSum v R : ℚ) / (R.area : ℚ)

/-- The cumulative table holds the sum of the dominated sub-rectangle. -/
theorem prefixTable_eq (v : ℕ → ℕ → ℤ) :
    ∀ i j, prefixTable v i j = ∑ r ∈ Finset.range i, ∑ c ∈ Finset.range j, v r c := by
  intro i
  induction i with
  | zero => intro j; simp [prefixTable]
  | succ i ih =>
    intro j
    induction j with
    | zero => simp [prefixTable, prefixRow]
    | succ j ihj =>
      have hstep : prefixTable v (i + 1) (j + 1)
          = v i j + prefixTable v i (j + 1) + prefixTable v (i + 1) j
            - prefixTable v i j := rfl
      rw [hstep, ih, ihj, ih]
      simp only [Finset.sum_range_succ]
      ring

/-- Four-point inclusion–exclusion recovers the rectangle sum. -/
theorem four_point_sum (v : ℕ → ℕ → ℤ) (r1 c1 r2 c2 : ℕ) (hr : r1 ≤ r2) (hc : c1 ≤ c2) :
    prefixTable v (r2 + 1) (c2 + 1) - prefixTable v r1 (c2 + 1)
      - prefixTable v (r2 + 1) c1 + prefixTable v r1 c1
      = ∑ r ∈ Finset.Icc r1 r2, ∑ c ∈ Finset.Icc c1 c2, v r c := by
  have key : ∀ a b j, a ≤ b → prefixTable v b j - prefixTable v a j
      = ∑ r ∈ Finset.Ico a b, ∑ c ∈ Finset.range j, v r c := by
    intro a b j hab
    rw [prefixTable_eq, prefixTable_eq, Finset.sum_Ico_eq_sub _ hab]
  have h1 := key r1 (r2 + 1) (c2 + 1) (by omega)
  have h2 := key r1 (r2 + 1) c1 (by omega)
  have lhs_eq : prefixTable v (r2 + 1) (c2 + 1) - prefixTable v r1 (c2 + 1)
      - prefixTable v (r2 + 1) c1 + prefixTable v r1 c1
      = (∑ r ∈ Finset.Ico r1 (r2 + 1), ∑ c ∈ Finset.range (c2 + 1), v r c)
        - ∑ r ∈ Finset.Ico r1 (r2 + 1), ∑ c ∈ Finset.range c1, v r c := by
    rw [← h1, ← h2]; ring
  rw [lhs_eq, ← Finset.sum_sub_distrib, Nat.Ico_succ_right]
  refine Finset.sum_congr rfl ?_
  intro r _
  rw [← Nat.Ico_succ_right, Finset.sum_Ico_eq_sub _ (by omega : c1 ≤ c2 + 1)]

/-- In-bounds reduction of `queryTable` to the brute-force sum. -/
theorem queryTable_eq_brute (v : ℕ → ℕ → ℤ) (h w : ℕ) (r1 c1 r2 c2 : ℤ)
    (h1 : 0 ≤ r1) (h2 : r1 ≤ r2) (h3 : r2 < (h : ℤ))
    (h4 : 0 ≤ c1) (h5 : c1 ≤ c2) (h6 : c2 < (w : ℤ)) :
    queryTable v h w r1 c1 r2 c2
      = ∑ r ∈ Finset.Icc r1.toNat r2.toNat, ∑ c ∈ Finset.Icc c1.toNat c2.toNat, v r c := by
  have e1 : max 0 r1 = r1 := by omega
  have e2 : max 0 c1 = c1 := by omega
  have e3 : min ((h : ℤ) - 1) r2 = r2 := by omega
  have e4 : min ((w : ℤ) - 1) c2 = c2 := by omega
  rw [queryTable]
  simp only [e1, e2, e3, e4]
  rw [if_neg (by omega)]
  rw [four_point_sum v r1.toNat c1.toNat r2.toNat c2.toNat (by omega) (by omega)]

/-- C1: on a built index, `querySum` over any region lying within the
raster equals the brute-force sum of the raster's cells over that region,
and `querySumSquares` equals the brute-force sum of squared cells. -/
theorem querySum_eq_bruteforce (ps : PrefixSum) (R : Region) (hb : ps.built = true)
    (h1 : 0 ≤ R.row1) (h2 : R.row1 ≤ R.row2) (h3 : R.row2 < (ps.height : ℤ))
    (h4 : 0 ≤ R.col1) (h5 : R.col1 ≤ R.col2) (h6 : R.col2 < (ps.width : ℤ)) :
    ps.querySumR R = bruteSum ps.img R ∧
    ps.querySumSquaresR R = bruteSum ps.imgSquares R := by
  constructor
  · rw [PrefixSum.querySumR, PrefixSum.querySum, hb]
    simp only [Bool.true_eq_false, if_false]
    rw [queryTable_eq_brute ps.img ps.height ps.width _ _ _ _ h1 h2 h3 h4 h5 h6]
    rfl
  · rw [PrefixSum.querySumSquaresR, PrefixSum.querySumSquares, hb]
    simp only [Bool.true_eq_false, if_false]
    rw [queryTable_eq_brute ps.imgSquares ps.height ps.width _ _ _ _ h1 h2 h3 h4 h5 h6]
    rfl

/-- Witness for `querySum_eq_bruteforce` on a concrete 2×2 raster. -/
theorem querySum_eq_bruteforce_witness :
    (PrefixSum.mk true 2 2 (fun r c => (r : ℤ) + 2 * c)).querySumR (Region.mk 0 0 1 1)
        = bruteSum (fun r c => (r : ℤ) + 2 * c) (Region.mk 0 0 1 1) ∧
      (PrefixSum.mk true 2 2 (fun r c => (r : ℤ) + 2 * c)).querySumSquaresR (Region.mk 0 0 1 1)
        = bruteSum (PrefixSum.mk true 2 2 (fun r c => (r : ℤ) + 2 * c)).imgSquares
            (Region.mk 0 0 1 1) :=
  querySum_eq_bruteforce (PrefixSum.mk true 2 2 (fun r c => (r : ℤ) + 2 * c))
    (Region.mk 0 0 1 1) rfl (by decide) (by decide) (by decide) (by decide) (by decide)
    (by decide)

/-- Clamping `queryTable`'s arguments to the raster extent does not change
its value (the clamp is idempotent). -/
theorem queryTable_clamp (v : ℕ → ℕ → ℤ) (h w : ℕ) (r1 c1 r2 c2 : ℤ) :
    queryTable v h w r1 c1 r2 c2
      = queryTable v h w (max 0 r1) (max 0 c1)
          (min ((h : ℤ) - 1) r2) (min ((w : ℤ) - 1) c2) := by
  rw [queryTable, queryTable]
  have e1 : max 0 (max 0 r1) = max 0 r1 := by omega
  have e2 : max 0 (max 0 c1) = max 0 c1 := by omega
  have e3 : min ((h : ℤ) - 1) (min ((h : ℤ) - 1) r2) = min ((h : ℤ) - 1) r2 := by omega
  have e4 : min ((w : ℤ) - 1) (min ((w : ℤ) - 1) c2) = min ((w : ℤ) - 1) c2 := by omega
  simp only [e1, e2, e3, e4]

/-- Degenerate inputs make `queryTable` return 0. -/
theorem queryTable_degenerate (v : ℕ → ℕ → ℤ) (h w : ℕ) (r1 c1 r2 c2 : ℤ)
    (hd : r1 > r2 ∨ c1 > c2 ∨ r2 < 0 ∨ c2 < 0 ∨ (h : ℤ) ≤ r1 ∨ (w : ℤ) ≤ c1) :
    queryTable v h w r1 c1 r2 c2 = 0 := by
  simp only [queryTable]
  rw [if_pos (by omega)]

/-- C9: `querySum` / `querySumSquares` clamp their bounds to the raster
extent before lookup (querying with raw bounds equals querying with
clamped bounds); an inverted or fully out-of-range region yields 0; and
on an unbuilt index both return 0 — never an error. -/
theorem querySum_clamp_degenerate_unbuilt (ps : PrefixSum) (r1 c1 r2 c2 : ℤ) :
    (ps.querySum r1 c1 r2 c2
        = ps.querySum (max 0 r1) (max 0 c1)
            (min ((ps.height : ℤ) - 1) r2) (min ((ps.width : ℤ) - 1) c2) ∧
      ps.querySumSquares r1 c1 r2 c2
        = ps.querySumSquares (max 0 r1) (max 0 c1)
            (min ((ps.height : ℤ) - 1) r2) (min ((ps.width : ℤ) - 1) c2)) ∧
    ((r1 > r2 ∨ c1 > c2 ∨ r2 < 0 ∨ c2 < 0 ∨ (ps.height : ℤ) ≤ r1 ∨ (ps.width : ℤ) ≤ c1) →
      ps.querySum r1 c1 r2 c2 = 0 ∧ ps.querySumSquares r1 c1 r2 c2 = 0) ∧
    (ps.built = false →
      ps.querySum r1 c1 r2 c2 = 0 ∧ ps.querySumSquares r1 c1 r2 c2 = 0) := by
  refine ⟨⟨?_, ?_⟩, ?_, ?_⟩
  · rw [PrefixSum.querySum, PrefixSum.querySum]
    cases hb : ps.built
    · simp
    · simp only [Bool.true_eq_false, if_false]
      exact queryTable_clamp ps.img ps.height ps.width r1 c1 r2 c2
  · rw [PrefixSum.querySumSquares, PrefixSum.querySumSquares]
    cases hb : ps.built
    · simp
    · simp only [Bool.true_eq_false, if_false]
      exact queryTable_clamp ps.imgSquares ps.height ps.width r1 c1 r2 c2
  · intro hd
    rw [PrefixSum.querySum, PrefixSum.querySumSquares]
    cases hb : ps.built
    · simp
    · simp only [Bool.true_eq_false, if_false]
      exact ⟨queryTable_degenerate _ _ _ _ _ _ _ hd, queryTable_degenerate _ _ _ _ _ _ _ hd⟩
  · intro hb
    rw [PrefixSum.querySum, PrefixSum.querySumSquares, hb]
    simp

/-- Witness for `querySum_clamp_degenerate_unbuilt`: a fully out-of-bounds
query on a built 2×2 index, and any query on an unbuilt index, yield 0. -/
theorem querySum_clamp_degenerate_unbuilt_witness :
    ((5 > (7 : ℤ) ∨ (0 : ℤ) > 0 ∨ (7 : ℤ) < 0 ∨ (0 : ℤ) < 0 ∨ ((2 : ℕ) : ℤ) ≤ 5 ∨
        ((2 : ℕ) : ℤ) ≤ 0) →
      (PrefixSum.mk true 2 2 (fun _ _ => 3)).querySum 5 0 7 0 = 0 ∧
        (PrefixSum.mk true 2 2 (fun _ _ => 3)).querySumSquares 5 0 7 0 = 0) ∧
    ((PrefixSum.mk false 2 2 (fun _ _ => 3)).built = false →
      (PrefixSum.mk false 2 2 (fun _ _ => 3)).querySum 0 0 1 1 = 0 ∧
        (PrefixSum.mk false 2 2 (fun _ _ => 3)).querySumSquares 0 0 1 1 = 0) := by
  constructor
  · exact (querySum_clamp_degenerate_unbuilt
      (PrefixSum.mk true 2 2 (fun _ _ => 3)) 5 0 7 0).2.1
  · exact (querySum_clamp_degenerate_unbuilt
      (PrefixSum.mk false 2 2 (fun _ _ => 3)) 0 0 1 1).2.2

/-! ## RegionTree (`RegionTree.cpp`) -/

/-- Node of the hierarchical region tree, from `RegionTree.h`
(`struct RegionTreeNode`).  Children are stored as indices into the flat
node collection, `-1` meaning "no child"; `anomalyScore` / `isAnomaly`
are filled in later by the anomaly detector.  The cached `stats` field of
the C++ node is omitted: it is a derived O(1) projection of the prefix
index that no verified operation reads. -/
structure RegionTreeNode where
  id : ℕ
  bounds : Region
  depth : ℕ
  parent : ℤ
  childNW : ℤ
  childNE : ℤ
  childSW : ℤ
  childSE : ℤ
  anomalyScore : ℚ
  isAnomaly : Bool
deriving DecidableEq

/-- Leaf test, from `RegionTreeNode::isLeaf` in `RegionTree.h`: all four
child slots hold the sentinel `-1`. -/
def RegionTreeNode.isLeaf (n : RegionTreeNode) : Bool :=
  decide (n.childNW = -1 ∧ n.childNE = -1 ∧ n.childSW = -1 ∧ n.childSE = -1)

/-- `RegionTree::buildRecursive` (`RegionTree.cpp` lines 75-130), embedded
functionally: the call that would append into the mutable node arena
starting at index `startIdx` instead returns the list of nodes it
creates, with ids equal to their arena indices.  The minimum region size
`ms` is positive, as required by the specification (§6); this also makes
the recursion well-founded. -/
def buildRec (ms : ℕ) (hms : 0 < ms) (region : Region) (depth : ℕ) (parentIdx : ℤ)
    (startIdx : ℕ) : List RegionTreeNode :=
  if _h : region.row2 - region.row1 + 1 ≤ (ms : ℤ) ∨
      region.col2 - region.col1 + 1 ≤ (ms : ℤ) then
    [⟨startIdx, region, depth, parentIdx, -1, -1, -1, -1, 0, false⟩]
  else
    let q := splitRegion region
    let iNW := startIdx + 1
    let lNW := if q.1.isValid then buildRec ms hms q.1 (depth + 1) (startIdx : ℤ) iNW else []
    let iNE := iNW + lNW.length
    let lNE := if q.2.1.isValid then buildRec ms hms q.2.1 (depth + 1) (startIdx : ℤ) iNE else []
    let iSW := iNE + lNE.length
    let lSW :=
      if q.2.2.1.isValid then buildRec ms hms q.2.2.1 (depth + 1) (startIdx : ℤ) iSW else []
    let iSE := iSW + lSW.length
    let lSE :=
      if q.2.2.2.isValid then buildRec ms hms q.2.2.2 (depth + 1) (startIdx : ℤ) iSE else []
    ⟨startIdx, region, depth, parentIdx,
      if q.1.isValid then (iNW : ℤ) else -1,
      if q.2.1.isValid then (iNE : ℤ) else -1,
      if q.2.2.1.isValid then (iSW : ℤ) else -1,
      if q.2.2.2.isValid then (iSE : ℤ) else -1,
      0, false⟩ :: (lNW ++ lNE ++ lSW ++ lSE)
termination_by ((region.row2 - region.row1) + (region.col2 - region.col1)).toNat
decreasing_by
  all_goals simp only [splitRegion] at *
  all_goals omega

/-- `RegionTree::build` (`RegionTree.cpp` lines 132-161): refuses an
unbuilt index (leaving no tree), otherwise builds recursively from the
full-raster root region. -/
def RegionTree.build (ps : PrefixSum) (ms : ℕ) (hms : 0 < ms) : List RegionTreeNode :=
  if ps.built = false then []
  else buildRec ms hms (Region.mk 0 0 ((ps.height : ℤ) - 1) ((ps.width : ℤ) - 1)) 0 (-1) 0

/-- Specification-side mirror of the recursion: the list of leaf regions
produced below a given region. -/
def leafRegions (ms : ℕ) (hms : 0 < ms) (region : Region) : List Region :=
  if _h : region.row2 - region.row1 + 1 ≤ (ms : ℤ) ∨
      region.col2 - region.col1 + 1 ≤ (ms : ℤ) then
    [region]
  else
    let q := splitRegion region
    (if q.1.isValid then leafRegions ms hms q.1 else [])
      ++ (if q.2.1.isValid then leafRegions ms hms q.2.1 else [])
      ++ (if q.2.2.1.isValid then leafRegions ms hms q.2.2.1 else [])
      ++ (if q.2.2.2.isValid then leafRegions ms hms q.2.2.2 else [])
termination_by ((region.row2 - region.row1) + (region.col2 - region.col1)).toNat
decreasing_by
  all_goals simp only [splitRegion] at *
  all_goals omega

/-- In the recursive (split) case all four quadrants are valid. -/
theorem quadrants_valid {ms : ℕ} {R : Region}
    (hg : ¬(R.row2 - R.row1 + 1 ≤ (ms : ℤ) ∨ R.col2 - R.col1 + 1 ≤ (ms : ℤ)))
    (hms : 0 < ms) :
    (splitRegion R).1.isValid = true ∧ (splitRegion R).2.1.isValid = true ∧
      (splitRegion R).2.2.1.isValid = true ∧ (splitRegion R).2.2.2.isValid = true := by
  simp only [splitRegion, Region.isValid, decide_eq_true_eq]
  omega

/-- Strong induction along the quadrant-split recursion of `RegionTree`. -/
theorem region_split_induction (ms : ℕ) (hms : 0 < ms) (P : Region → Prop)
    (base : ∀ R : Region,
      (R.row2 - R.row1 + 1 ≤ (ms : ℤ) ∨ R.col2 - R.col1 + 1 ≤ (ms : ℤ)) → P R)
    (step : ∀ R : Region,
      ¬(R.row2 - R.row1 + 1 ≤ (ms : ℤ) ∨ R.col2 - R.col1 + 1 ≤ (ms : ℤ)) →
      P (splitRegion R).1 → P (splitRegion R).2.1 →
      P (splitRegion R).2.2.1 → P (splitRegion R).2.2.2 → P R) :
    ∀ R, P R := by
  have key : ∀ n (R : Region), ((R.row2 - R.row1) + (R.col2 - R.col1)).toNat < n → P R := by
    intro n
    induction n with
    | zero => intro R h; exact absurd h (Nat.not_lt_zero _)
    | succ n ih =>
      intro R hR
      by_cases hg : (R.row2 - R.row1 + 1 ≤ (ms : ℤ) ∨ R.col2 - R.col1 + 1 ≤ (ms : ℤ))
      · exact base R hg
      · refine step R hg (ih _ ?_) (ih _ ?_) (ih _ ?_) (ih _ ?_) <;>
          (simp only [splitRegion]; omega)
  exact fun R => key (((R.row2 - R.row1) + (R.col2 - R.col1)).toNat + 1) R (by omega)

/-- The head node produced by the split case is not a leaf. -/
theorem split_head_not_leaf (s : ℕ) (R : Region) (d : ℕ) (p : ℤ) (c2 c3 c4 : ℤ) :
    RegionTreeNode.isLeaf ⟨s, R, d, p, ((s + 1 : ℕ) : ℤ), c2, c3, c4, 0, false⟩ = false := by
  simp only [RegionTreeNode.isLeaf, decide_eq_false_iff_not]
  intro h
  omega

/-- The leaves of the node list produced by `buildRecursive`, in creation
order, carry exactly the regions `leafRegions` computes. -/
theorem buildRec_leaves_eq (ms : ℕ) (hms : 0 < ms) :
    ∀ (R : Region) (d : ℕ) (p : ℤ) (s : ℕ),
      ((buildRec ms hms R d p s).filter (fun n => n.isLeaf)).map (fun n => n.bounds)
        = leafRegions ms hms R := by
  refine region_split_induction ms hms
    (fun R => ∀ (d : ℕ) (p : ℤ) (s : ℕ),
      ((buildRec ms hms R d p s).filter (fun n => n.isLeaf)).map (fun n => n.bounds)
        = leafRegions ms hms R) ?_ ?_
  · intro R hg d p s
    rw [buildRec.eq_def, dif_pos hg, leafRegions.eq_def, dif_pos hg]
    simp [RegionTreeNode.isLeaf]
  · intro R hg ih1 ih2 ih3 ih4 d p s
    obtain ⟨hv1, hv2, hv3, hv4⟩ := quadrants_valid hg hms
    rw [buildRec.eq_def, dif_neg hg, leafRegions.eq_def, dif_neg hg]
    simp only [hv1, hv2, hv3, hv4, if_true]
    rw [List.filter_cons]
    rw [split_head_not_leaf]
    simp only [Bool.false_eq_true, if_false, List.filter_append, List.map_append]
    rw [ih1, ih2, ih3, ih4]

/-- Every node produced by `buildRecursive` on a valid region has valid
bounds lying within that region. -/
theorem buildRec_bounds_sub (ms : ℕ) (hms : 0 < ms) :
    ∀ (R : Region), R.isValid = true → ∀ (d : ℕ) (p : ℤ) (s : ℕ),
      ∀ n ∈ buildRec ms hms R d p s,
        n.bounds.isValid = true ∧ R.row1 ≤ n.bounds.row1 ∧ n.bounds.row2 ≤ R.row2 ∧
          R.col1 ≤ n.bounds.col1 ∧ n.bounds.col2 ≤ R.col2 := by
  refine region_split_induction ms hms
    (fun R => R.isValid = true → ∀ (d : ℕ) (p : ℤ) (s : ℕ),
      ∀ n ∈ buildRec ms hms R d p s,
        n.bounds.isValid = true ∧ R.row1 ≤ n.bounds.row1 ∧ n.bounds.row2 ≤ R.row2 ∧
          R.col1 ≤ n.bounds.col1 ∧ n.bounds.col2 ≤ R.col2) ?_ ?_
  · intro R hg hv d p s n hn
    rw [buildRec.eq_def, dif_pos hg] at hn
    simp only [List.mem_singleton] at hn
    subst hn
    exact ⟨hv, le_refl _, le_refl _, le_refl _, le_refl _⟩
  · intro R hg ih1 ih2 ih3 ih4 hv d p s n hn
    obtain ⟨hv1, hv2, hv3, hv4⟩ := quadrants_valid hg hms
    rw [buildRec.eq_def, dif_neg hg] at hn
    simp only [hv1, hv2, hv3, hv4, if_true, List.mem_cons, List.mem_append, or_assoc] at hn
    have hq1 : R.row1 ≤ (splitRegion R).1.row1 ∧ (splitRegion R).1.row2 ≤ R.row2 ∧
        R.col1 ≤ (splitRegion R).1.col1 ∧ (splitRegion R).1.col2 ≤ R.col2 := by
      simp only [splitRegion]; omega
    have hq2 : R.row1 ≤ (splitRegion R).2.1.row1 ∧ (splitRegion R).2.1.row2 ≤ R.row2 ∧
        R.col1 ≤ (splitRegion R).2.1.col1 ∧ (splitRegion R).2.1.col2 ≤ R.col2 := by
      simp only [splitRegion]; omega
    have hq3 : R.row1 ≤ (splitRegion R).2.2.1.row1 ∧ (splitRegion R).2.2.1.row2 ≤ R.row2 ∧
        R.col1 ≤ (splitRegion R).2.2.1.col1 ∧ (splitRegion R).2.2.1.col2 ≤ R.col2 := by
      simp only [splitRegion]; omega
    have hq4 : R.row1 ≤ (splitRegion R).2.2.2.row1 ∧ (splitRegion R).2.2.2.row2 ≤ R.row2 ∧
        R.col1 ≤ (splitRegion R).2.2.2.col1 ∧ (splitRegion R).2.2.2.col2 ≤ R.col2 := by
      simp only [splitRegion]; omega
    rcases hn with hn | hn | hn | hn | hn
    · subst hn
      exact ⟨by simpa [Region.isValid] using (by
          simp only [Region.isValid, decide_eq_true_eq]; omega :
            R.isValid = true), le_refl _, le_refl _, le_refl _, le_refl _⟩
    · obtain ⟨a, b, c, dd, e⟩ := ih1 hv1 _ _ _ n hn
      exact ⟨a, by omega, by omega, by omega, by omega⟩
    · obtain ⟨a, b, c, dd, e⟩ := ih2 hv2 _ _ _ n hn
      exact ⟨a, by omega, by omega, by omega, by omega⟩
    · obtain ⟨a, b, c, dd, e⟩ := ih3 hv3 _ _ _ n hn
      exact ⟨a, by omega, by omega, by omega, by omega⟩
    · obtain ⟨a, b, c, dd, e⟩ := ih4 hv4 _ _ _ n hn
      exact ⟨a, by omega, by omega, by omega, by omega⟩

/-- The leaf regions below a region partition it: any cell of the region
is contained in exactly one leaf region, and cells outside it in none. -/
theorem leafRegions_partition (ms : ℕ) (hms : 0 < ms) :
    ∀ (R : Region) (r c : ℤ),
      (leafRegions ms hms R).countP (fun L => L.contains r c)
        = if R.contains r c = true then 1 else 0 := by
  refine region_split_induction ms hms
    (fun R => ∀ (r c : ℤ),
      (leafRegions ms hms R).countP (fun L => L.contains r c)
        = if R.contains r c = true then 1 else 0) ?_ ?_
  · intro R hg r c
    rw [leafRegions.eq_def, dif_pos hg]
    simp [List.countP_cons]
  · intro R hg ih1 ih2 ih3 ih4 r c
    obtain ⟨hv1, hv2, hv3, hv4⟩ := quadrants_valid hg hms
    rw [leafRegions.eq_def, dif_neg hg]
    simp only [hv1, hv2, hv3, hv4, if_true, List.countP_append]
    rw [ih1, ih2, ih3, ih4]
    simp only [splitRegion, Region.contains, decide_eq_true_eq]
    split_ifs <;> omega

/-- C2: after `RegionTree::build` on a built index, the leaf nodes' bounds
exactly partition the root region (0,0,height-1,width-1): every raster
pixel is contained in exactly one leaf region, and every leaf region is a
valid rectangle lying inside the raster. -/
theorem tree_leaves_partition (ps : PrefixSum) (ms : ℕ) (hms : 0 < ms)
    (hb : ps.built = true) (hh : 0 < ps.height) (hw : 0 < ps.width) :
    (∀ r c : ℤ, 0 ≤ r → r < (ps.height : ℤ) → 0 ≤ c → c < (ps.width : ℤ) →
      ((RegionTree.build ps ms hms).filter (fun n => n.isLeaf)).countP
          (fun n => n.bounds.contains r c) = 1) ∧
    (∀ n ∈ (RegionTree.build ps ms hms).filter (fun n => n.isLeaf),
      n.bounds.isValid = true ∧ 0 ≤ n.bounds.row1 ∧
        n.bounds.row2 ≤ (ps.height : ℤ) - 1 ∧ 0 ≤ n.bounds.col1 ∧
        n.bounds.col2 ≤ (ps.width : ℤ) - 1) := by
  have hroot : (Region.mk 0 0 ((ps.height : ℤ) - 1) ((ps.width : ℤ) - 1)).isValid = true := by
    simp only [Region.isValid, decide_eq_true_eq]
    omega
  constructor
  · intro r c hr0 hrh hc0 hcw
    rw [RegionTree.build, hb]
    simp only [Bool.true_eq_false, if_false]
    have hcount : ∀ (l : List RegionTreeNode),
        (l.filter (fun n => n.isLeaf)).countP (fun n => n.bounds.contains r c)
          = ((l.filter (fun n => n.isLeaf)).map (fun n => n.bounds)).countP
              (fun L => L.contains r c) := by
      intro l
      rw [List.countP_map]
      rfl
    rw [hcount, buildRec_leaves_eq ms hms, leafRegions_partition ms hms]
    rw [if_pos]
    simp only [Region.contains, decide_eq_true_eq]
    omega
  · intro n hn
    rw [RegionTree.build, hb] at hn
    simp only [Bool.true_eq_false, if_false] at hn
    rw [List.mem_filter] at hn
    have := buildRec_bounds_sub ms hms _ hroot 0 (-1) 0 n hn.1
    simpa using this

/-- Witness for `tree_leaves_partition`: 2×2 raster, minimum region size 1,
pixel (0,0). -/
theorem tree_leaves_partition_witness :
    ((RegionTree.build (PrefixSum.mk true 2 2 (fun _ _ => 0)) 1 (by norm_num)).filter
        (fun n => n.isLeaf)).countP
      (fun n => n.bounds.contains 0 0) = 1 := by
  exact (tree_leaves_partition (PrefixSum.mk true 2 2 (fun _ _ => 0)) 1 (by norm_num) rfl
    (by norm_num) (by norm_num)).1 0 0 (by norm_num) (by norm_num) (by norm_num) (by norm_num)

/-! ## AnomalyDetector (`AnomalyDetector.cpp`) -/

/-- On a built index, `queryMean` of a valid in-raster region is the
brute-force mean. -/
theorem queryMean_eq_bruteMean (ps : PrefixSum) (R : Region) (hb : ps.built = true)
    (h1 : 0 ≤ R.row1) (h2 : R.row1 ≤ R.row2) (h3 : R.row2 < (ps.height : ℤ))
    (h4 : 0 ≤ R.col1) (h5 : R.col1 ≤ R.col2) (h6 : R.col2 < (ps.width : ℤ)) :
    ps.queryMean R = bruteMean ps.img R := by
  rw [PrefixSum.queryMean, hb]
  simp only [Bool.true_eq_false, if_false]
  have harea : 0 < R.area := by
    rw [Region.area]
    have : 0 < R.row2 - R.row1 + 1 := by omega
    have : 0 < R.col2 - R.col1 + 1 := by omega
    positivity
  rw [if_pos harea,
    (querySum_eq_bruteforce ps R hb h1 h2 h3 h4 h5 h6).1, bruteMean]

/-- Detector state, from `AnomalyDetector.h`: the global statistics copied
out of the prefix index by `initialize` (the standard deviation is a
square root, so the embedding keeps these as parameters) and the anomaly
threshold. -/
structure AnomalyDetector where
  globalMean : ℚ
  globalStdDev : ℚ
  threshold : ℚ

/-- `AnomalyDetector::computeScore` (`AnomalyDetector.cpp` lines 60-83):
0 on an unbuilt index, 0 when the global standard deviation is below
`1e-10`, otherwise `|mean(region) - globalMean| / globalStdDev`. -/
def AnomalyDetector.computeScore (det : AnomalyDetector) (ps : PrefixSum)
    (region : Region) : ℚ :=
  if ps.built = false then 0
  else if det.globalStdDev < 1 / 10000000000 then 0
  else |ps.queryMean region - det.globalMean| / det.globalStdDev

/-- `AnomalyDetector::isAnomalous(double)` (`AnomalyDetector.cpp` line 89). -/
def AnomalyDetector.isAnomalousScore (det : AnomalyDetector) (score : ℚ) : Bool :=
  decide (score > det.threshold)

/-- Per-node body of the detection loop: set `anomalyScore` and
`isAnomaly` from `computeScore` (`AnomalyDetector.cpp` lines 112-116). -/
def AnomalyDetector.detectFun (det : AnomalyDetector) (ps : PrefixSum)
    (n : RegionTreeNode) : RegionTreeNode :=
  let score := det.computeScore ps n.bounds
  { n with anomalyScore := score, isAnomaly := det.isAnomalousScore score }

theorem detectFun_bounds (det : AnomalyDetector) (ps : PrefixSum) (n : RegionTreeNode) :
    (det.detectFun ps n).bounds = n.bounds := rfl

theorem detectFun_score (det : AnomalyDetector) (ps : PrefixSum) (n : RegionTreeNode) :
    (det.detectFun ps n).anomalyScore = det.computeScore ps n.bounds := rfl

theorem detectFun_flag (det : AnomalyDetector) (ps : PrefixSum) (n : RegionTreeNode) :
    (det.detectFun ps n).isAnomaly
      = det.isAnomalousScore (det.computeScore ps n.bounds) := rfl

theorem detectFun_children (det : AnomalyDetector) (ps : PrefixSum) (n : RegionTreeNode) :
    (det.detectFun ps n).childNW = n.childNW ∧ (det.detectFun ps n).childNE = n.childNE ∧
      (det.detectFun ps n).childSW = n.childSW ∧ (det.detectFun ps n).childSE = n.childSE :=
  ⟨rfl, rfl, rfl, rfl⟩

theorem detectFun_isLeaf (det : AnomalyDetector) (ps : PrefixSum) (n : RegionTreeNode) :
    (det.detectFun ps n).isLeaf = n.isLeaf := rfl

theorem detectFun_id (det : AnomalyDetector) (ps : PrefixSum) (n : RegionTreeNode) :
    (det.detectFun ps n).id = n.id := rfl

/-- `AnomalyDetector::detectInTree` (`AnomalyDetector.cpp` lines 93-137):
a no-op on an unbuilt index, otherwise a single pass over all nodes
setting `anomalyScore` and `isAnomaly` (the aggregate statistics it also
accumulates are not modelled — no verified operation reads them). -/
def AnomalyDetector.detectInTree (det : AnomalyDetector) (ps : PrefixSum)
    (nodes : List RegionTreeNode) : List RegionTreeNode :=
  if ps.built = false then nodes
  else nodes.map (det.detectFun ps)

/-- Score formula for every node of a detected tree (shared lemma). -/
theorem detect_score_formula (ps : PrefixSum) (det : AnomalyDetector) (ms : ℕ)
    (hms : 0 < ms) (hb : ps.built = true) (hh : 0 < ps.height) (hw : 0 < ps.width) :
    ∀ n ∈ det.detectInTree ps (RegionTree.build ps ms hms),
      (n.anomalyScore = if det.globalStdDev < 1 / 10000000000 then 0
        else |bruteMean ps.img n.bounds - det.globalMean| / det.globalStdDev) ∧
      n.isAnomaly = decide (n.anomalyScore > det.threshold) := by
  intro n hn
  rw [AnomalyDetector.detectInTree, hb] at hn
  simp only [Bool.true_eq_false, if_false] at hn
  obtain ⟨m, hm, rfl⟩ := List.mem_map.mp hn
  have hroot : (Region.mk 0 0 ((ps.height : ℤ) - 1) ((ps.width : ℤ) - 1)).isValid = true := by
    simp only [Region.isValid, decide_eq_true_eq]
    omega
  rw [RegionTree.build, hb] at hm
  simp only [Bool.true_eq_false, if_false] at hm
  obtain ⟨hval, hr1, hr2, hc1, hc2⟩ := buildRec_bounds_sub ms hms _ hroot 0 (-1) 0 m hm
  simp only [Region.isValid, decide_eq_true_eq] at hval
  have hb1 : (0 : ℤ) ≤ m.bounds.row1 := by simpa using hr1
  have hb2 : m.bounds.row2 ≤ (ps.height : ℤ) - 1 := by simpa using hr2
  have hb3 : (0 : ℤ) ≤ m.bounds.col1 := by simpa using hc1
  have hb4 : m.bounds.col2 ≤ (ps.width : ℤ) - 1 := by simpa using hc2
  constructor
  · rw [detectFun_score, detectFun_bounds]
    rw [AnomalyDetector.computeScore, hb]
    simp only [Bool.true_eq_false, if_false]
    rw [queryMean_eq_bruteMean ps m.bounds hb hb1 hval.1 (by omega) hb3 hval.2 (by omega)]
  · rw [detectFun_flag, detectFun_score]
    rfl

/-- C3: after `detectInTree` on a built index and tree, every node carries
`anomalyScore = |mean(bounds) - globalMean| / globalStdDev` — with the
mean the true (brute-force) mean of the raster over the node's bounds —
defined as 0 when `globalStdDev < 1e-10`, and
`isAnomaly = (anomalyScore > threshold)`. -/
theorem detect_scores_consistent (ps : PrefixSum) (det : AnomalyDetector) (ms : ℕ)
    (hms : 0 < ms) (hb : ps.built = true) (hh : 0 < ps.height) (hw : 0 < ps.width) :
    ∀ n ∈ det.detectInTree ps (RegionTree.build ps ms hms),
      (n.anomalyScore = if det.globalStdDev < 1 / 10000000000 then 0
        else |bruteMean ps.img n.bounds - det.globalMean| / det.globalStdDev) ∧
      n.isAnomaly = decide (n.anomalyScore > det.threshold) :=
  detect_score_formula ps det ms hms hb hh hw

/-- Witness for `detect_scores_consistent`: 1×1 constant raster, detector
with zero standard deviation (score degenerates to 0). -/
theorem detect_scores_consistent_witness :
    (RegionTreeNode.mk 0 (Region.mk 0 0 0 0) 0 (-1) (-1) (-1) (-1) (-1) 0
          false).anomalyScore
        = (if (AnomalyDetector.mk 0 0 2).globalStdDev < 1 / 10000000000 then 0
          else |bruteMean (fun _ _ => 5)
                (RegionTreeNode.mk 0 (Region.mk 0 0 0 0) 0 (-1) (-1) (-1) (-1) (-1) 0
                  false).bounds
              - (AnomalyDetector.mk 0 0 2).globalMean| / (AnomalyDetector.mk 0 0 2).globalStdDev) ∧
      (RegionTreeNode.mk 0 (Region.mk 0 0 0 0) 0 (-1) (-1) (-1) (-1) (-1) 0
          false).isAnomaly
        = decide ((RegionTreeNode.mk 0 (Region.mk 0 0 0 0) 0 (-1) (-1) (-1) (-1) (-1) 0
            false).anomalyScore > (AnomalyDetector.mk 0 0 2).threshold) := by
  refine detect_scores_consistent (PrefixSum.mk true 1 1 (fun _ _ => 5))
    (AnomalyDetector.mk 0 0 2) 1 (by norm_num) rfl (by norm_num) (by norm_num) _ ?_
  simp [AnomalyDetector.detectInTree, AnomalyDetector.detectFun, RegionTree.build, buildRec,
    AnomalyDetector.computeScore, AnomalyDetector.isAnomalousScore]

/-! ## QueryEngine: bounded heap top-K (`QueryEngine.cpp`)

`AnomalyRegion` (in `Utils.h`) defines `operator<` as `score >` and
`operator>` as `score <` — both inverted.  `topKAnomalies` builds
`std::priority_queue<AnomalyRegion, vector, std::greater<AnomalyRegion>>`;
`std::greater` calls the inverted `operator>`, so the comparator is the
natural "score less-than" and the queue is a *max*-heap on score:
`minHeap.top()` is the element of maximal score.  The embedding models
the queue as a list kept sorted by ascending score whose last element is
`top()`; among equal scores the order is a canonical choice standing in
for the unspecified heap tie order. -/

/-- `AnomalyRegion` from `Utils.h`. -/
structure AnomalyRegion where
  region : Region
  anomalyScore : ℚ
  nodeId : ℕ
deriving DecidableEq

/-- Insertion into the score-ascending list modelling the priority queue. -/
def heapPush : List AnomalyRegion → AnomalyRegion → List AnomalyRegion
  | [], ar => [ar]
  | x :: xs, ar =>
      if ar.anomalyScore < x.anomalyScore then ar :: x :: xs else x :: heapPush xs ar

/-- `top()` of the queue: the maximal-score element (see section comment). -/
def heapTop (h : List AnomalyRegion) : Option AnomalyRegion := h.getLast?

/-- `pop()` of the queue: removes the maximal-score element. -/
def heapPop (h : List AnomalyRegion) : List AnomalyRegion := h.dropLast

/-- The extraction loop of `topKAnomalies` (`QueryEngine.cpp` lines
243-246), with fuel bounding the iteration count: repeatedly read `top()`
and `pop()` until empty. -/
def heapDrainAux : ℕ → List AnomalyRegion → List AnomalyRegion
  | 0, _ => []
  | _ + 1, [] => []
  | fuel + 1, x :: xs => (x :: xs).getLast (by simp) :: heapDrainAux fuel (x :: xs).dropLast

/-- Heap extraction: the loop runs exactly `length` times. -/
def heapDrain (h : List AnomalyRegion) : List AnomalyRegion := heapDrainAux h.length h

theorem heapDrainAux_eq_reverse :
    ∀ (n : ℕ) (h : List AnomalyRegion), h.length ≤ n → heapDrainAux n h = h.reverse := by
  intro n
  induction n with
  | zero =>
    intro h hh
    have hnil : h = [] := List.length_eq_zero.mp (by omega)
    subst hnil
    rfl
  | succ n ih =>
    intro h hh
    match h with
    | [] => simp [heapDrainAux]
    | x :: xs =>
      rw [heapDrainAux]
      rw [ih (x :: xs).dropLast (by simp at hh ⊢; omega)]
      conv_rhs => rw [← @List.dropLast_append_getLast _ (x :: xs) (by simp)]
      rw [List.reverse_append]
      simp

/-- Draining the queue lists its elements in descending score order, i.e.
reverses the ascending list. -/
theorem heapDrain_eq_reverse (h : List AnomalyRegion) : heapDrain h = h.reverse :=
  heapDrainAux_eq_reverse h.length h (le_refl _)

/-- One step of the bounded-heap loop of `QueryEngine::topKAnomalies`
(`QueryEngine.cpp` lines 223-240): skip non-leaves when `leafOnly`;
insert while the heap has fewer than `k` elements; otherwise compare with
`top()` and replace it when the candidate's score is greater.  Reading
`top()` of an empty queue is undefined behaviour in C++ (reachable only
for `k ≤ 0`); this unchecked model leaves the heap unchanged there, and
`topKStepChecked` flags it. -/
def topKStep (k : ℤ) (leafOnly : Bool) (heap : List AnomalyRegion)
    (n : RegionTreeNode) : List AnomalyRegion :=
  if leafOnly && !n.isLeaf then heap
  else
    let ar : AnomalyRegion := ⟨n.bounds, n.anomalyScore, n.id⟩
    if (heap.length : ℤ) < k then heapPush heap ar
    else
      match heapTop heap with
      | none => heap
      | some tp =>
          if ar.anomalyScore > tp.anomalyScore then heapPush (heapPop heap) ar else heap

/-- `QueryEngine::topKAnomalies` (`QueryEngine.cpp` lines 178-255): fold
the bounded-heap step over all nodes of the tree, then extract the heap
contents and reverse them. -/
def topKAnomalies (nodes : List RegionTreeNode) (k : ℤ) (leafOnly : Bool) :
    List AnomalyRegion :=
  (heapDrain (nodes.foldl (topKStep k leafOnly) [])).reverse

/-- Guarded variant of `topKStep`: `none` marks the undefined behaviour of
reading `top()` of an empty queue. -/
def topKStepChecked (k : ℤ) (leafOnly : Bool) (st : Option (List AnomalyRegion))
    (n : RegionTreeNode) : Option (List AnomalyRegion) :=
  match st with
  | none => none
  | some heap =>
    if leafOnly && !n.isLeaf then some heap
    else
      let ar : AnomalyRegion := ⟨n.bounds, n.anomalyScore, n.id⟩
      if (heap.length : ℤ) < k then some (heapPush heap ar)
      else
        match heapTop heap with
        | none => none
        | some tp =>
            some (if ar.anomalyScore > tp.anomalyScore then heapPush (heapPop heap) ar
              else heap)

/-- `topKAnomalies` with the undefined heap access made observable. -/
def topKAnomaliesChecked (nodes : List RegionTreeNode) (k : ℤ) (leafOnly : Bool) :
    Option (List AnomalyRegion) :=
  (nodes.foldl (topKStepChecked k leafOnly) (some [])).map
    (fun h => (heapDrain h).reverse)

theorem topKStepChecked_eq (k : ℤ) (hk : 1 ≤ k) (leafOnly : Bool)
    (heap : List AnomalyRegion) (n : RegionTreeNode) :
    topKStepChecked k leafOnly (some heap) n = some (topKStep k leafOnly heap n) := by
  rw [topKStepChecked, topKStep]
  by_cases h1 : (leafOnly && !n.isLeaf) = true
  · simp [h1]
  · simp only [h1, Bool.false_eq_true, if_false]
    by_cases h2 : (heap.length : ℤ) < k
    · simp [h2]
    · have hne : heap ≠ [] := by
        intro he
        rw [he] at h2
        simp at h2
        omega
      have : ∃ tp, heapTop heap = some tp := by
        rw [heapTop]
        cases hg : heap.getLast?
        · rw [List.getLast?_eq_none_iff] at hg
          exact absurd hg hne
        · exact ⟨_, rfl⟩
      obtain ⟨tp, htp⟩ := this
      simp [h2, htp]

theorem topKChecked_fold_eq (k : ℤ) (hk : 1 ≤ k) (leafOnly : Bool) :
    ∀ (nodes : List RegionTreeNode) (heap : List AnomalyRegion),
      nodes.foldl (topKStepChecked k leafOnly) (some heap)
        = some (nodes.foldl (topKStep k leafOnly) heap) := by
  intro nodes
  induction nodes with
  | nil => intro heap; rfl
  | cons n ns ih =>
    intro heap
    rw [List.foldl_cons, List.foldl_cons, topKStepChecked_eq k hk, ih]

instance : Inhabited RegionTreeNode :=
  ⟨⟨0, ⟨0, 0, 0, 0⟩, 0, -1, -1, -1, -1, -1, 0, false⟩⟩

/-- Children pushed onto the breadth-first queue, in NW/NE/SW/SE order,
skipping the `-1` sentinel (`QueryEngine.cpp` lines 316-322). -/
def childList (n : RegionTreeNode) : List ℤ :=
  (if 0 ≤ n.childNW then [n.childNW] else [])
    ++ (if 0 ≤ n.childNE then [n.childNE] else [])
    ++ (if 0 ≤ n.childSW then [n.childSW] else [])
    ++ (if 0 ≤ n.childSE then [n.childSE] else [])

/-- Breadth-first loop of `QueryEngine::topKWithPruning` (`QueryEngine.cpp`
lines 287-323).  The C++ `while (!toVisit.empty())` loop is embedded with
explicit fuel; `none` means either the fuel ran out (the C++ loop would
still be running) or `top()` was read on an empty heap (undefined
behaviour, reachable only for `k ≤ 0`).  A node is pruned when the heap
is full and its score is below `top()`; leaves are inserted with the same
bounded-heap policy as `topKAnomalies`. -/
def pruneLoop (nodes : List RegionTreeNode) (k : ℤ) :
    ℕ → List ℤ → List AnomalyRegion → Option (List AnomalyRegion)
  | 0, _, _ => none
  | _ + 1, [], heap => some heap
  | fuel + 1, idx :: queue, heap =>
    if idx < 0 ∨ (nodes.length : ℤ) ≤ idx then pruneLoop nodes k fuel queue heap
    else
      let n := nodes.getD idx.toNat default
      if (heap.length : ℤ) ≥ k then
        match heapTop heap with
        | none => none
        | some tp =>
          if n.anomalyScore < tp.anomalyScore ∧ n.isLeaf = false then
            pruneLoop nodes k fuel queue heap
          else if n.isLeaf then
            pruneLoop nodes k fuel queue
              (if n.anomalyScore > tp.anomalyScore then
                heapPush (heapPop heap) ⟨n.bounds, n.anomalyScore, n.id⟩
              else heap)
          else
            pruneLoop nodes k fuel (queue ++ childList n) heap
      else
        if n.isLeaf then
          pruneLoop nodes k fuel queue (heapPush heap ⟨n.bounds, n.anomalyScore, n.id⟩)
        else
          pruneLoop nodes k fuel (queue ++ childList n) heap

/-- `QueryEngine::topKWithPruning` (`QueryEngine.cpp` lines 257-336):
breadth-first traversal from the root (index 0) with pruning, then heap
extraction as in `topKAnomalies`.  The fuel `nodes.length + 1` is enough
for every tree arena (each node is enqueued at most once). -/
def topKWithPruning (nodes : List RegionTreeNode) (k : ℤ) :
    Option (List AnomalyRegion) :=
  (pruneLoop nodes k (nodes.length + 1) [0] []).map (fun h => (heapDrain h).reverse)

theorem one_pos' : 0 < 1 := Nat.one_pos

/-- Concrete 2×2 raster with pixel values 1, 2 / 3, 2. -/
def exampleRaster4 : PrefixSum :=
  PrefixSum.mk true 2 2
    (fun r c => if r = 0 then (if c = 0 then 1 else 2) else (if c = 0 then 3 else 2))

/-- The scored tree over `exampleRaster4` with `minRegionSize = 1` and a
detector whose stored global mean is 0 and standard deviation 1, so every
leaf's score is its pixel value. -/
def exampleTree4 : List RegionTreeNode :=
  (AnomalyDetector.mk 0 1 2).detectInTree exampleRaster4
    (RegionTree.build exampleRaster4 1 one_pos')

/-- C4 (evaluation at the failing input): the four leaves of
`exampleTree4` carry scores 1, 2, 3, 2 in arena order, yet
`topKAnomalies(2, leafOnly)` returns scores `[1, 3]` — not sorted
non-increasingly, and missing score 2 which belongs to the true top-2
`[3, 2]`.  Cause: `AnomalyRegion` inverts both `operator<` and
`operator>`, so `std::greater` turns the intended min-heap into a
max-heap: `top()` is the maximum, the eviction test replaces the *best*
element, and extraction+reverse yields ascending order. -/
theorem topk_minheap_inverted :
    ((exampleTree4.filter (fun n => n.isLeaf)).map (fun n => n.anomalyScore)
        = [1, 2, 3, 2]) ∧
      ((topKAnomalies exampleTree4 2 true).map (fun a => a.anomalyScore) = [1, 3]) ∧
      ¬ ((topKAnomalies exampleTree4 2 true).map
          (fun a => a.anomalyScore)).Sorted (· ≥ ·) ∧
      (2 : ℚ) ∉ (topKAnomalies exampleTree4 2 true).map (fun a => a.anomalyScore) := by
  have hb : RegionTree.build exampleRaster4 1 one_pos' =
      [⟨0, ⟨0, 0, 1, 1⟩, 0, -1, 1, 2, 3, 4, 0, false⟩,
       ⟨1, ⟨0, 0, 0, 0⟩, 1, 0, -1, -1, -1, -1, 0, false⟩,
       ⟨2, ⟨0, 1, 0, 1⟩, 1, 0, -1, -1, -1, -1, 0, false⟩,
       ⟨3, ⟨1, 0, 1, 0⟩, 1, 0, -1, -1, -1, -1, 0, false⟩,
       ⟨4, ⟨1, 1, 1, 1⟩, 1, 0, -1, -1, -1, -1, 0, false⟩] := by
    simp [RegionTree.build, exampleRaster4, buildRec, splitRegion, Region.isValid]
  have ht : exampleTree4 =
      [⟨0, ⟨0, 0, 1, 1⟩, 0, -1, 1, 2, 3, 4, 2, false⟩,
       ⟨1, ⟨0, 0, 0, 0⟩, 1, 0, -1, -1, -1, -1, 1, false⟩,
       ⟨2, ⟨0, 1, 0, 1⟩, 1, 0, -1, -1, -1, -1, 2, false⟩,
       ⟨3, ⟨1, 0, 1, 0⟩, 1, 0, -1, -1, -1, -1, 3, true⟩,
       ⟨4, ⟨1, 1, 1, 1⟩, 1, 0, -1, -1, -1, -1, 2, false⟩] := by
    rw [exampleTree4, hb]
    simp [AnomalyDetector.detectInTree, AnomalyDetector.detectFun,
      AnomalyDetector.computeScore, AnomalyDetector.isAnomalousScore, PrefixSum.queryMean,
      PrefixSum.querySumR, PrefixSum.querySum, queryTable, prefixTable, prefixRow,
      Region.area, exampleRaster4]
    norm_num
  rw [ht]
  decide

/-! ### Tree-shape of the node arena

`Subtree all s e` states that positions `[s, e)` of the arena `all` form
a subtree rooted at `s` whose child links point at the four consecutive
child blocks — the shape `buildRecursive` produces.  It drives the
termination and safety arguments for the breadth-first traversal. -/

inductive Subtree (all : List RegionTreeNode) : ℕ → ℕ → Prop where
  | leaf (s : ℕ) (hs : s < all.length)
      (hleaf : (all.getD s default).isLeaf = true) :
      Subtree all s (s + 1)
  | split (s e1 e2 e3 e4 : ℕ) (hs : s < all.length)
      (hleaf : (all.getD s default).isLeaf = false)
      (hNW : (all.getD s default).childNW = ((s + 1 : ℕ) : ℤ))
      (hNE : (all.getD s default).childNE = (e1 : ℤ))
      (hSW : (all.getD s default).childSW = (e2 : ℤ))
      (hSE : (all.getD s default).childSE = (e3 : ℤ))
      (t1 : Subtree all (s + 1) e1) (t2 : Subtree all e1 e2)
      (t3 : Subtree all e2 e3) (t4 : Subtree all e3 e4) :
      Subtree all s e4

theorem subtree_bounds {all : List RegionTreeNode} {s e : ℕ}
    (h : Subtree all s e) : s < e ∧ s < all.length ∧ e ≤ all.length := by
  induction h with
  | leaf s hs hleaf => omega
  | split s e1 e2 e3 e4 hs hleaf hNW hNE hSW hSE t1 t2 t3 t4 ih1 ih2 ih3 ih4 => omega

theorem slice_getD (all sub : List RegionTreeNode) (s i : ℕ)
    (hsl : (all.drop s).take sub.length = sub) (hi : i < sub.length) :
    all.getD (s + i) default = sub.getD i default := by
  have h1 : all.getD (s + i) default = (all.drop s).getD i default := by
    rw [List.getD_eq_getElem?_getD, List.getD_eq_getElem?_getD, List.getElem?_drop]
  rw [h1, ← hsl, List.getD_eq_getElem?_getD, List.getD_eq_getElem?_getD,
    List.getElem?_take_of_lt hi]

theorem slice_length_le (all sub : List RegionTreeNode) (s : ℕ)
    (h0 : 0 < sub.length)
    (hsl : (all.drop s).take sub.length = sub) : s + sub.length ≤ all.length := by
  have := congrArg List.length hsl
  simp only [List.length_take, List.length_drop] at this
  omega

theorem slice_cons (all : List RegionTreeNode) (x : RegionTreeNode)
    (r : List RegionTreeNode) (s : ℕ)
    (hsl : (all.drop s).take (x :: r).length = x :: r) :
    (all.drop (s + 1)).take r.length = r := by
  cases hd : all.drop s with
  | nil => rw [hd] at hsl; simp at hsl
  | cons y ys =>
    rw [hd] at hsl
    simp only [List.length_cons, List.take_succ_cons, List.cons.injEq] at hsl
    have : all.drop (s + 1) = ys := by
      have : (all.drop s).drop 1 = all.drop (s + 1) := by
        rw [List.drop_drop]
      rw [← this, hd]
      rfl
    rw [this, hsl.2]

theorem slice_append (all : List RegionTreeNode) (u v : List RegionTreeNode) (t : ℕ)
    (hsl : (all.drop t).take (u ++ v).length = u ++ v) :
    ((all.drop t).take u.length = u) ∧ ((all.drop (t + u.length)).take v.length = v) := by
  have hlen : u.length + v.length ≤ (all.drop t).length := by
    have := congrArg List.length hsl
    simp only [List.length_take, List.length_append] at this
    omega
  rw [List.length_append, List.take_add] at hsl
  have h1 : ((all.drop t).take u.length).length = u.length := by
    simp only [List.length_take]
    omega
  obtain ⟨hu, hv⟩ := List.append_inj hsl (by omega)
  refine ⟨hu, ?_⟩
  rw [List.drop_drop] at hv
  exact hv

theorem buildRec_base_form (ms : ℕ) (hms : 0 < ms) (R : Region) (d : ℕ) (p : ℤ) (s : ℕ)
    (hg : R.row2 - R.row1 + 1 ≤ (ms : ℤ) ∨ R.col2 - R.col1 + 1 ≤ (ms : ℤ)) :
    buildRec ms hms R d p s = [⟨s, R, d, p, -1, -1, -1, -1, 0, false⟩] := by
  rw [buildRec.eq_def, dif_pos hg]

theorem buildRec_split_form (ms : ℕ) (hms : 0 < ms) (R : Region) (d : ℕ) (p : ℤ) (s : ℕ)
    (hg : ¬(R.row2 - R.row1 + 1 ≤ (ms : ℤ) ∨ R.col2 - R.col1 + 1 ≤ (ms : ℤ))) :
    buildRec ms hms R d p s =
      ⟨s, R, d, p,
        ((s + 1 : ℕ) : ℤ),
        ((s + 1 + (buildRec ms hms (splitRegion R).1 (d + 1) (s : ℤ) (s + 1)).length : ℕ) : ℤ),
        ((s + 1 + (buildRec ms hms (splitRegion R).1 (d + 1) (s : ℤ) (s + 1)).length
          + (buildRec ms hms (splitRegion R).2.1 (d + 1) (s : ℤ)
              (s + 1 + (buildRec ms hms (splitRegion R).1 (d + 1) (s : ℤ)
                (s + 1)).length)).length : ℕ) : ℤ),
        ((s + 1 + (buildRec ms hms (splitRegion R).1 (d + 1) (s : ℤ) (s + 1)).length
          + (buildRec ms hms (splitRegion R).2.1 (d + 1) (s : ℤ)
              (s + 1 + (buildRec ms hms (splitRegion R).1 (d + 1) (s : ℤ)
                (s + 1)).length)).length
          + (buildRec ms hms (splitRegion R).2.2.1 (d + 1) (s : ℤ)
              (s + 1 + (buildRec ms hms (splitRegion R).1 (d + 1) (s : ℤ) (s + 1)).length
                + (buildRec ms hms (splitRegion R).2.1 (d + 1) (s : ℤ)
                    (s + 1 + (buildRec ms hms (splitRegion R).1 (d + 1) (s : ℤ)
                      (s + 1)).length)).length)).length : ℕ) : ℤ),
        0, false⟩
      :: (buildRec ms hms (splitRegion R).1 (d + 1) (s : ℤ) (s + 1)
        ++ buildRec ms hms (splitRegion R).2.1 (d + 1) (s : ℤ)
            (s + 1 + (buildRec ms hms (splitRegion R).1 (d + 1) (s : ℤ) (s + 1)).length)
        ++ buildRec ms hms (splitRegion R).2.2.1 (d + 1) (s : ℤ)
            (s + 1 + (buildRec ms hms (splitRegion R).1 (d + 1) (s : ℤ) (s + 1)).length
              + (buildRec ms hms (splitRegion R).2.1 (d + 1) (s : ℤ)
                  (s + 1 + (buildRec ms hms (splitRegion R).1 (d + 1) (s : ℤ)
                    (s + 1)).length)).length)
        ++ buildRec ms hms (splitRegion R).2.2.2 (d + 1) (s : ℤ)
            (s + 1 + (buildRec ms hms (splitRegion R).1 (d + 1) (s : ℤ) (s + 1)).length
              + (buildRec ms hms (splitRegion R).2.1 (d + 1) (s : ℤ)
                  (s + 1 + (buildRec ms hms (splitRegion R).1 (d + 1) (s : ℤ)
                    (s + 1)).length)).length
              + (buildRec ms hms (splitRegion R).2.2.1 (d + 1) (s : ℤ)
                  (s + 1 + (buildRec ms hms (splitRegion R).1 (d + 1) (s : ℤ) (s + 1)).length
                    + (buildRec ms hms (splitRegion R).2.1 (d + 1) (s : ℤ)
                        (s + 1 + (buildRec ms hms (splitRegion R).1 (d + 1) (s : ℤ)
                          (s + 1)).length)).length)).length)) := by
  obtain ⟨hv1, hv2, hv3, hv4⟩ := quadrants_valid hg hms
  rw [buildRec.eq_def, dif_neg hg]
  simp only [hv1, hv2, hv3, hv4, if_true]

/-- A (pointwise-transformed) copy of a `buildRecursive` arena slice has
the `Subtree` shape, provided the transformation preserves the child
links — as the detector's scoring pass does. -/
theorem buildRec_subtree (ms : ℕ) (hms : 0 < ms) (all : List RegionTreeNode)
    (f : RegionTreeNode → RegionTreeNode)
    (hf : ∀ n, (f n).childNW = n.childNW ∧ (f n).childNE = n.childNE ∧
      (f n).childSW = n.childSW ∧ (f n).childSE = n.childSE) :
    ∀ (R : Region) (d : ℕ) (p : ℤ) (s : ℕ),
      (all.drop s).take ((buildRec ms hms R d p s).map f).length
          = (buildRec ms hms R d p s).map f →
      Subtree all s (s + (buildRec ms hms R d p s).length) := by
  have hfleaf : ∀ n, (f n).isLeaf = n.isLeaf := by
    intro n
    obtain ⟨a, b, c, d⟩ := hf n
    simp [RegionTreeNode.isLeaf, a, b, c, d]
  refine region_split_induction ms hms
    (fun R => ∀ (d : ℕ) (p : ℤ) (s : ℕ),
      (all.drop s).take ((buildRec ms hms R d p s).map f).length
          = (buildRec ms hms R d p s).map f →
      Subtree all s (s + (buildRec ms hms R d p s).length)) ?_ ?_
  · intro R hg d p s hsl
    rw [buildRec_base_form ms hms R d p s hg] at hsl ⊢
    have hget := slice_getD all ([⟨s, R, d, p, -1, -1, -1, -1, 0, false⟩].map f) s 0 hsl
      (by simp)
    have hlen := slice_length_le all ([⟨s, R, d, p, -1, -1, -1, -1, 0, false⟩].map f) s
      (by simp) hsl
    simp only [List.length_cons, List.length_nil, List.length_map] at *
    have hs : s < all.length := by omega
    have hleaf : (all.getD s default).isLeaf = true := by
      rw [Nat.add_zero] at hget
      rw [hget]
      simp only [List.map_cons, List.map_nil, List.getD_cons_zero]
      rw [hfleaf]
      simp [RegionTreeNode.isLeaf]
    exact Subtree.leaf s hs hleaf
  · intro R hg ih1 ih2 ih3 ih4 d p s hsl
    rw [buildRec_split_form ms hms R d p s hg] at hsl ⊢
    generalize hA : buildRec ms hms (splitRegion R).1 (d + 1) (s : ℤ) (s + 1) = A at *
    generalize hB : buildRec ms hms (splitRegion R).2.1 (d + 1) (s : ℤ)
      (s + 1 + A.length) = B at *
    generalize hC : buildRec ms hms (splitRegion R).2.2.1 (d + 1) (s : ℤ)
      (s + 1 + A.length + B.length) = C at *
    generalize hD : buildRec ms hms (splitRegion R).2.2.2 (d + 1) (s : ℤ)
      (s + 1 + A.length + B.length + C.length) = D at *
    set h0 : RegionTreeNode := ⟨s, R, d, p,
      ((s + 1 : ℕ) : ℤ), ((s + 1 + A.length : ℕ) : ℤ),
      ((s + 1 + A.length + B.length : ℕ) : ℤ),
      ((s + 1 + A.length + B.length + C.length : ℕ) : ℤ), 0, false⟩ with hh0
    have hget : all.getD s default = f h0 := by
      have := slice_getD all ((h0 :: (A ++ B ++ C ++ D)).map f) s 0 hsl (by simp)
      simpa using this
    have hs : s < all.length := by
      have := slice_length_le all ((h0 :: (A ++ B ++ C ++ D)).map f) s (by simp) hsl
      simp only [List.length_map, List.length_cons] at this
      omega
    have hsl1 : (all.drop (s + 1)).take ((A ++ B ++ C ++ D).map f).length
        = (A ++ B ++ C ++ D).map f := by
      have := slice_cons all (f h0) ((A ++ B ++ C ++ D).map f) s (by simpa using hsl)
      simpa using this
    simp only [List.map_append] at hsl1
    obtain ⟨hslU, hslD⟩ := slice_append all (A.map f ++ B.map f ++ C.map f) (D.map f)
      (s + 1) hsl1
    obtain ⟨hslU2, hslC⟩ := slice_append all (A.map f ++ B.map f) (C.map f) (s + 1) hslU
    obtain ⟨hslA, hslB⟩ := slice_append all (A.map f) (B.map f) (s + 1) hslU2
    have eB : s + 1 + (A.map f).length = s + 1 + A.length := by simp
    have eC : s + 1 + (A.map f ++ B.map f).length = s + 1 + A.length + B.length := by
      simp [List.length_append]
      omega
    have eD : s + 1 + (A.map f ++ B.map f ++ C.map f).length
        = s + 1 + A.length + B.length + C.length := by
      simp [List.length_append]
      omega
    rw [eB] at hslB
    rw [eC] at hslC
    rw [eD] at hslD
    have t1 : Subtree all (s + 1) (s + 1 + A.length) := by
      have := ih1 (d + 1) (s : ℤ) (s + 1) (by rw [hA]; exact hslA)
      rwa [hA] at this
    have t2 : Subtree all (s + 1 + A.length) (s + 1 + A.length + B.length) := by
      have := ih2 (d + 1) (s : ℤ) (s + 1 + A.length) (by rw [hB]; exact hslB)
      rwa [hB] at this
    have t3 : Subtree all (s + 1 + A.length + B.length)
        (s + 1 + A.length + B.length + C.length) := by
      have := ih3 (d + 1) (s : ℤ) (s + 1 + A.length + B.length) (by rw [hC]; exact hslC)
      rwa [hC] at this
    have t4 : Subtree all (s + 1 + A.length + B.length + C.length)
        (s + 1 + A.length + B.length + C.length + D.length) := by
      have := ih4 (d + 1) (s : ℤ) (s + 1 + A.length + B.length + C.length)
        (by rw [hD]; exact hslD)
      rwa [hD] at this
    have hleaf : (all.getD s default).isLeaf = false := by
      rw [hget, hfleaf, hh0]
      exact split_head_not_leaf s R d p _ _ _
    have hNW : (all.getD s default).childNW = ((s + 1 : ℕ) : ℤ) := by
      rw [hget, (hf h0).1]
    have hNE : (all.getD s default).childNE = ((s + 1 + A.length : ℕ) : ℤ) := by
      rw [hget, (hf h0).2.1]
    have hSW : (all.getD s default).childSW = ((s + 1 + A.length + B.length : ℕ) : ℤ) := by
      rw [hget, (hf h0).2.2.1]
    have hSE : (all.getD s default).childSE
        = ((s + 1 + A.length + B.length + C.length : ℕ) : ℤ) := by
      rw [hget, (hf h0).2.2.2]
    have hgoal : s + (h0 :: (A ++ B ++ C ++ D)).length
        = s + 1 + A.length + B.length + C.length + D.length := by
      simp [List.length_append]
      omega
    rw [hgoal]
    exact Subtree.split s (s + 1 + A.length) (s + 1 + A.length + B.length)
      (s + 1 + A.length + B.length + C.length)
      (s + 1 + A.length + B.length + C.length + D.length) hs hleaf hNW hNE hSW hSE
      t1 t2 t3 t4

theorem heapTop_of_length_ge {heap : List AnomalyRegion} {k : ℤ} (hk : 1 ≤ k)
    (hlen : (heap.length : ℤ) ≥ k) : ∃ tp, heapTop heap = some tp := by
  have hne : heap ≠ [] := by
    intro he
    rw [he] at hlen
    simp at hlen
    omega
  rw [heapTop]
  cases hg : heap.getLast?
  · rw [List.getLast?_eq_none_iff] at hg
    exact absurd hg hne
  · exact ⟨_, rfl⟩

/-- With positive `k`, the breadth-first pruning loop over a well-shaped
arena terminates within fuel exceeding the total size of the queued
subtrees, and never reads `top()` of an empty heap. -/
theorem pruneLoop_some (all : List RegionTreeNode) (k : ℤ) (hk : 1 ≤ k) :
    ∀ (fuel : ℕ) (ents : List (ℕ × ℕ)) (heap : List AnomalyRegion),
      (∀ pr ∈ ents, Subtree all pr.1 pr.2) →
      (ents.map (fun pr => pr.2 - pr.1)).sum < fuel →
      ∃ h, pruneLoop all k fuel (ents.map (fun pr => ((pr.1 : ℕ) : ℤ))) heap = some h := by
  intro fuel
  induction fuel with
  | zero => intro ents heap _ hsum; exact absurd hsum (Nat.not_lt_zero _)
  | succ fuel ih =>
    intro ents heap hsub hsum
    match ents with
    | [] => exact ⟨heap, rfl⟩
    | (s, e) :: rest =>
      have hst : Subtree all s e := hsub (s, e) (List.mem_cons_self _ _)
      obtain ⟨hse, hsl, hel⟩ := subtree_bounds hst
      simp only [List.map_cons]
      rw [pruneLoop]
      rw [if_neg (by omega)]
      simp only [Int.toNat_natCast]
      have hsum' : ((rest.map (fun pr => pr.2 - pr.1)).sum) + (e - s)
          = ((((s, e) :: rest).map (fun pr => pr.2 - pr.1)).sum) := by
        simp [List.sum_cons]
        omega
      cases hst with
      | leaf _ hs hleaf =>
        by_cases hlen : (heap.length : ℤ) ≥ k
        · obtain ⟨tp, htp⟩ := heapTop_of_length_ge hk hlen
          rw [if_pos hlen, htp]
          simp only
          rw [if_neg (by rw [hleaf]; simp)]
          rw [if_pos hleaf]
          exact ih rest _ (fun pr hpr => hsub pr (List.mem_cons_of_mem _ hpr)) (by omega)
        · rw [if_neg hlen, if_pos hleaf]
          exact ih rest _ (fun pr hpr => hsub pr (List.mem_cons_of_mem _ hpr)) (by omega)
      | split _ e1 e2 e3 _ hs hleaf hNW hNE hSW hSE t1 t2 t3 t4 =>
        obtain ⟨h1, _, _⟩ := subtree_bounds t1
        obtain ⟨h2, _, _⟩ := subtree_bounds t2
        obtain ⟨h3, _, _⟩ := subtree_bounds t3
        obtain ⟨h4, _, _⟩ := subtree_bounds t4
        have hcl : childList (all.getD s default)
            = [((s + 1 : ℕ) : ℤ), (e1 : ℤ), (e2 : ℤ), (e3 : ℤ)] := by
          rw [childList, hNW, hNE, hSW, hSE]
          rw [if_pos (by positivity), if_pos (by positivity), if_pos (by positivity),
            if_pos (by positivity)]
          rfl
        have hq : (rest.map (fun pr => ((pr.1 : ℕ) : ℤ))) ++ childList (all.getD s default)
            = ((rest ++ [(s + 1, e1), (e1, e2), (e2, e3), (e3, e)]).map
                (fun pr => ((pr.1 : ℕ) : ℤ))) := by
          rw [hcl, List.map_append]
          rfl
        have hsub' : ∀ pr ∈ rest ++ [(s + 1, e1), (e1, e2), (e2, e3), (e3, e)],
            Subtree all pr.1 pr.2 := by
          intro pr hpr
          rcases List.mem_append.mp hpr with hpr | hpr
          · exact hsub pr (List.mem_cons_of_mem _ hpr)
          · simp only [List.mem_cons, List.mem_singleton] at hpr
            rcases hpr with rfl | rfl | rfl | rfl | h
            · exact t1
            · exact t2
            · exact t3
            · exact t4
            · simp at h
        have hsum'' : ((rest ++ [(s + 1, e1), (e1, e2), (e2, e3), (e3, e)]).map
            (fun pr => pr.2 - pr.1)).sum < fuel := by
          rw [List.map_append, List.sum_append]
          simp only [List.map_cons, List.map_nil, List.sum_cons, List.sum_nil]
          omega
        by_cases hlen : (heap.length : ℤ) ≥ k
        · obtain ⟨tp, htp⟩ := heapTop_of_length_ge hk hlen
          rw [if_pos hlen, htp]
          simp only
          by_cases hcond : ((all.getD s default).anomalyScore < tp.anomalyScore ∧
              (all.getD s default).isLeaf = false)
          · rw [if_pos hcond]
            exact ih rest _ (fun pr hpr => hsub pr (List.mem_cons_of_mem _ hpr)) (by omega)
          · rw [if_neg hcond, if_neg (by rw [hleaf]; simp)]
            rw [hq]
            exact ih _ _ hsub' hsum''
        · rw [if_neg hlen, if_neg (by rw [hleaf]; simp)]
          rw [hq]
          exact ih _ _ hsub' hsum''

theorem topKStepChecked_none (k : ℤ) (leafOnly : Bool) (n : RegionTreeNode) :
    topKStepChecked k leafOnly none n = none := rfl

theorem foldl_topKStepChecked_none (k : ℤ) (leafOnly : Bool) :
    ∀ nodes : List RegionTreeNode,
      nodes.foldl (topKStepChecked k leafOnly) none = none := by
  intro nodes
  induction nodes with
  | nil => rfl
  | cons n ns ih => rw [List.foldl_cons, topKStepChecked_none, ih]

theorem topKChecked_fold_none (k : ℤ) (hk : k ≤ 0) (leafOnly : Bool) :
    ∀ nodes : List RegionTreeNode,
      (∃ n ∈ nodes, (leafOnly = true → n.isLeaf = true)) →
      nodes.foldl (topKStepChecked k leafOnly) (some []) = none := by
  intro nodes
  induction nodes with
  | nil => rintro ⟨n, hn, _⟩; simp at hn
  | cons m ns ih =>
    rintro ⟨n, hn, hcand⟩
    rw [List.foldl_cons]
    by_cases hm : (leafOnly && !m.isLeaf) = true
    · have hmn : n ≠ m := by
        rintro rfl
        rcases Bool.and_eq_true _ _ |>.mp hm with ⟨hlo, hnl⟩
        rw [hcand hlo] at hnl
        simp at hnl
      rw [show topKStepChecked k leafOnly (some []) m = some [] by
        rw [topKStepChecked]; simp [hm]]
      have hn' : n ∈ ns := by
        rcases List.mem_cons.mp hn with h | h
        · exact absurd h hmn
        · exact h
      exact ih ⟨n, hn', hcand⟩
    · rw [show topKStepChecked k leafOnly (some []) m = none by
        rw [topKStepChecked]
        simp only [hm, Bool.false_eq_true, if_false]
        rw [if_neg (by simp; omega)]
        rfl]
      exact foldl_topKStepChecked_none k leafOnly ns

/-- C10: in `topKAnomalies` and `topKWithPruning`, under the precondition
`k ≥ 1` the branch reading `minHeap.top()` runs only with a non-empty
heap, so the access is safe: the checked model never hits the
empty-`top()` marker and agrees with the unchecked one, and the pruned
traversal completes.  The guard really depends on `k ≥ 1`: for `k ≤ 0`
the heap-full test `size >= k` succeeds on the empty heap and `top()` is
read on it (the checked models return the error marker `none`). -/
theorem topk_heap_top_guarded (ps : PrefixSum) (det : AnomalyDetector) (ms : ℕ)
    (hms : 0 < ms) (hb : ps.built = true) (k : ℤ) (leafOnly : Bool) :
    (1 ≤ k →
      topKAnomaliesChecked (det.detectInTree ps (RegionTree.build ps ms hms)) k leafOnly
        = some (topKAnomalies (det.detectInTree ps (RegionTree.build ps ms hms)) k
            leafOnly)) ∧
    (1 ≤ k →
      (topKWithPruning (det.detectInTree ps (RegionTree.build ps ms hms)) k).isSome
        = true) ∧
    (k ≤ 0 →
      (∃ n ∈ det.detectInTree ps (RegionTree.build ps ms hms),
        (leafOnly = true → n.isLeaf = true)) →
      topKAnomaliesChecked (det.detectInTree ps (RegionTree.build ps ms hms)) k leafOnly
        = none) ∧
    (k ≤ 0 → det.detectInTree ps (RegionTree.build ps ms hms) ≠ [] →
      topKWithPruning (det.detectInTree ps (RegionTree.build ps ms hms)) k = none) := by
  refine ⟨?_, ?_, ?_, ?_⟩
  · intro hk
    rw [topKAnomaliesChecked, topKAnomalies, topKChecked_fold_eq k hk]
    rfl
  · intro hk
    have hN : det.detectInTree ps (RegionTree.build ps ms hms)
        = (buildRec ms hms
            (Region.mk 0 0 ((ps.height : ℤ) - 1) ((ps.width : ℤ) - 1)) 0 (-1) 0).map
          (det.detectFun ps) := by
      rw [AnomalyDetector.detectInTree, RegionTree.build, hb]
      simp
    have htree : Subtree (det.detectInTree ps (RegionTree.build ps ms hms)) 0
        (0 + (buildRec ms hms
          (Region.mk 0 0 ((ps.height : ℤ) - 1) ((ps.width : ℤ) - 1)) 0 (-1) 0).length) := by
      refine buildRec_subtree ms hms _ (det.detectFun ps) (detectFun_children det ps)
        _ 0 (-1) 0 ?_
      rw [hN]
      simp [List.take_length]
    obtain ⟨h, hh⟩ := pruneLoop_some (det.detectInTree ps (RegionTree.build ps ms hms)) k
      hk ((det.detectInTree ps (RegionTree.build ps ms hms)).length + 1)
      [(0, (buildRec ms hms
        (Region.mk 0 0 ((ps.height : ℤ) - 1) ((ps.width : ℤ) - 1)) 0 (-1) 0).length)]
      [] (by
        intro pr hpr
        simp only [List.mem_singleton] at hpr
        subst hpr
        simpa using htree)
      (by
        simp only [List.map_cons, List.map_nil, List.sum_cons, List.sum_nil]
        have : (det.detectInTree ps (RegionTree.build ps ms hms)).length
            = (buildRec ms hms
              (Region.mk 0 0 ((ps.height : ℤ) - 1) ((ps.width : ℤ) - 1)) 0 (-1) 0).length := by
          rw [hN, List.length_map]
        omega)
    rw [topKWithPruning]
    rw [show ([0] : List ℤ)
        = [(0, (buildRec ms hms
            (Region.mk 0 0 ((ps.height : ℤ) - 1) ((ps.width : ℤ) - 1)) 0 (-1)
            0).length)].map (fun pr : ℕ × ℕ => ((pr.1 : ℕ) : ℤ)) by simp]
    rw [hh]
    rfl
  · intro hk hex
    rw [topKAnomaliesChecked, topKChecked_fold_none k hk _ _ hex]
    rfl
  · intro hk hne
    rw [topKWithPruning]
    cases hL : det.detectInTree ps (RegionTree.build ps ms hms) with
    | nil => exact absurd hL hne
    | cons x xs =>
      rw [pruneLoop]
      rw [if_neg (by simp)]
      rw [if_pos (by simp; omega)]
      rfl

/-- Witness for `topk_heap_top_guarded` at a 1×1 raster with `k = 1`. -/
theorem topk_heap_top_guarded_witness :
    (topKAnomaliesChecked
        ((AnomalyDetector.mk 0 0 2).detectInTree (PrefixSum.mk true 1 1 (fun _ _ => 5))
          (RegionTree.build (PrefixSum.mk true 1 1 (fun _ _ => 5)) 1 one_pos')) 1 true
      = some (topKAnomalies
          ((AnomalyDetector.mk 0 0 2).detectInTree (PrefixSum.mk true 1 1 (fun _ _ => 5))
            (RegionTree.build (PrefixSum.mk true 1 1 (fun _ _ => 5)) 1 one_pos')) 1 true)) ∧
    ((topKWithPruning
        ((AnomalyDetector.mk 0 0 2).detectInTree (PrefixSum.mk true 1 1 (fun _ _ => 5))
          (RegionTree.build (PrefixSum.mk true 1 1 (fun _ _ => 5)) 1 one_pos')) 1).isSome
      = true) := by
  constructor
  · exact (topk_heap_top_guarded (PrefixSum.mk true 1 1 (fun _ _ => 5))
      (AnomalyDetector.mk 0 0 2) 1 one_pos' rfl 1 true).1 (by norm_num)
  · exact (topk_heap_top_guarded (PrefixSum.mk true 1 1 (fun _ _ => 5))
      (AnomalyDetector.mk 0 0 2) 1 one_pos' rfl 1 true).2.1 (by norm_num)

/-! ### Aggregation of the leaf partition (towards the pruned top-K claim) -/

theorem leafRegions_ne_nil (ms : ℕ) (hms : 0 < ms) :
    ∀ R : Region, leafRegions ms hms R ≠ [] := by
  refine region_split_induction ms hms (fun R => leafRegions ms hms R ≠ []) ?_ ?_
  · intro R hg
    rw [leafRegions.eq_def, dif_pos hg]
    simp
  · intro R hg ih1 _ _ _
    obtain ⟨hv1, _, _, _⟩ := quadrants_valid hg hms
    rw [leafRegions.eq_def, dif_neg hg]
    simp only [hv1, if_true]
    intro hcontra
    obtain ⟨h123, _⟩ := List.append_eq_nil.mp hcontra
    obtain ⟨h12, _⟩ := List.append_eq_nil.mp h123
    obtain ⟨hone, _⟩ := List.append_eq_nil.mp h12
    exact ih1 hone

theorem leafRegions_mem (ms : ℕ) (hms : 0 < ms) (R : Region) (hval : R.isValid = true) :
    ∀ L ∈ leafRegions ms hms R, L.isValid = true ∧ R.row1 ≤ L.row1 ∧ L.row2 ≤ R.row2 ∧
      R.col1 ≤ L.col1 ∧ L.col2 ≤ R.col2 := by
  intro L hL
  rw [← buildRec_leaves_eq ms hms R 0 (-1) 0] at hL
  obtain ⟨n, hn, rfl⟩ := List.mem_map.mp hL
  exact buildRec_bounds_sub ms hms R hval 0 (-1) 0 n (List.mem_filter.mp hn).1

/-- Brute-force sums are additive over the quadrant split. -/
theorem bruteSum_quadrants (v : ℕ → ℕ → ℤ) (R : Region) (h1 : 0 ≤ R.row1)
    (h2 : R.row1 < R.row2) (h3 : 0 ≤ R.col1) (h4 : R.col1 < R.col2) :
    bruteSum v R = bruteSum v (splitRegion R).1 + bruteSum v (splitRegion R).2.1
      + bruteSum v (splitRegion R).2.2.1 + bruteSum v (splitRegion R).2.2.2 := by
  have hmr : R.row1 ≤ (R.row1 + R.row2) / 2 ∧ (R.row1 + R.row2) / 2 < R.row2 := by omega
  have hmc : R.col1 ≤ (R.col1 + R.col2) / 2 ∧ (R.col1 + R.col2) / 2 < R.col2 := by omega
  have rowsplit : ∀ (G : ℕ → ℤ),
      (∑ r ∈ Finset.Icc R.row1.toNat R.row2.toNat, G r)
        = (∑ r ∈ Finset.Icc R.row1.toNat ((R.row1 + R.row2) / 2).toNat, G r)
          + ∑ r ∈ Finset.Icc (((R.row1 + R.row2) / 2).toNat + 1) R.row2.toNat, G r := by
    intro G
    rw [← Nat.Ico_succ_right, ← Nat.Ico_succ_right, ← Nat.Ico_succ_right]
    rw [← Finset.sum_Ico_consecutive G (by omega : R.row1.toNat ≤ ((R.row1 + R.row2) / 2).toNat + 1)
      (by omega : ((R.row1 + R.row2) / 2).toNat + 1 ≤ R.row2.toNat + 1)]
  have colsplit : ∀ (r : ℕ),
      (∑ c ∈ Finset.Icc R.col1.toNat R.col2.toNat, v r c)
        = (∑ c ∈ Finset.Icc R.col1.toNat ((R.col1 + R.col2) / 2).toNat, v r c)
          + ∑ c ∈ Finset.Icc (((R.col1 + R.col2) / 2).toNat + 1) R.col2.toNat, v r c := by
    intro r
    rw [← Nat.Ico_succ_right, ← Nat.Ico_succ_right, ← Nat.Ico_succ_right]
    rw [← Finset.sum_Ico_consecutive _ (by omega : R.col1.toNat ≤ ((R.col1 + R.col2) / 2).toNat + 1)
      (by omega : ((R.col1 + R.col2) / 2).toNat + 1 ≤ R.col2.toNat + 1)]
  rw [bruteSum]
  rw [rowsplit]
  rw [Finset.sum_congr rfl (fun r _ => colsplit r),
    Finset.sum_congr rfl (fun r _ => colsplit r)]
  rw [Finset.sum_add_distrib, Finset.sum_add_distrib]
  have e1 : bruteSum v (splitRegion R).1
      = ∑ r ∈ Finset.Icc R.row1.toNat ((R.row1 + R.row2) / 2).toNat,
          ∑ c ∈ Finset.Icc R.col1.toNat ((R.col1 + R.col2) / 2).toNat, v r c := by
    rw [bruteSum]
    rfl
  have e2 : bruteSum v (splitRegion R).2.1
      = ∑ r ∈ Finset.Icc R.row1.toNat ((R.row1 + R.row2) / 2).toNat,
          ∑ c ∈ Finset.Icc (((R.col1 + R.col2) / 2).toNat + 1) R.col2.toNat, v r c := by
    rw [bruteSum]
    have : ((R.col1 + R.col2) / 2 + 1).toNat = ((R.col1 + R.col2) / 2).toNat + 1 := by omega
    simp only [splitRegion]
    rw [this]
  have e3 : bruteSum v (splitRegion R).2.2.1
      = ∑ r ∈ Finset.Icc (((R.row1 + R.row2) / 2).toNat + 1) R.row2.toNat,
          ∑ c ∈ Finset.Icc R.col1.toNat ((R.col1 + R.col2) / 2).toNat, v r c := by
    rw [bruteSum]
    have : ((R.row1 + R.row2) / 2 + 1).toNat = ((R.row1 + R.row2) / 2).toNat + 1 := by omega
    simp only [splitRegion]
    rw [this]
  have e4 : bruteSum v (splitRegion R).2.2.2
      = ∑ r ∈ Finset.Icc (((R.row1 + R.row2) / 2).toNat + 1) R.row2.toNat,
          ∑ c ∈ Finset.Icc (((R.col1 + R.col2) / 2).toNat + 1) R.col2.toNat, v r c := by
    rw [bruteSum]
    have ha : ((R.row1 + R.row2) / 2 + 1).toNat = ((R.row1 + R.row2) / 2).toNat + 1 := by omega
    have hb : ((R.col1 + R.col2) / 2 + 1).toNat = ((R.col1 + R.col2) / 2).toNat + 1 := by omega
    simp only [splitRegion]
    rw [ha, hb]
  rw [e1, e2, e3, e4]
  ring

/-- Area is additive over the quadrant split. -/
theorem area_quadrants (R : Region) (h2 : R.row1 < R.row2) (h4 : R.col1 < R.col2) :
    R.area = (splitRegion R).1.area + (splitRegion R).2.1.area
      + (splitRegion R).2.2.1.area + (splitRegion R).2.2.2.area := by
  simp only [Region.area, splitRegion]
  have hr : R.row2 - R.row1 + 1
      = ((R.row1 + R.row2) / 2 - R.row1 + 1) + (R.row2 - ((R.row1 + R.row2) / 2 + 1) + 1) := by
    omega
  have hc : R.col2 - R.col1 + 1
      = ((R.col1 + R.col2) / 2 - R.col1 + 1) + (R.col2 - ((R.col1 + R.col2) / 2 + 1) + 1) := by
    omega
  rw [hr, hc]
  ring

/-- The brute-force sum and area of a region decompose over its leaf
regions. -/
theorem leafRegions_sums (ms : ℕ) (hms : 0 < ms) (v : ℕ → ℕ → ℤ) :
    ∀ R : Region, 0 ≤ R.row1 → R.row1 ≤ R.row2 → 0 ≤ R.col1 → R.col1 ≤ R.col2 →
      ((leafRegions ms hms R).map (fun L => bruteSum v L)).sum = bruteSum v R ∧
      ((leafRegions ms hms R).map (fun L => L.area)).sum = R.area := by
  refine region_split_induction ms hms
    (fun R => 0 ≤ R.row1 → R.row1 ≤ R.row2 → 0 ≤ R.col1 → R.col1 ≤ R.col2 →
      ((leafRegions ms hms R).map (fun L => bruteSum v L)).sum = bruteSum v R ∧
      ((leafRegions ms hms R).map (fun L => L.area)).sum = R.area) ?_ ?_
  · intro R hg h1 h2 h3 h4
    rw [leafRegions.eq_def, dif_pos hg]
    simp
  · intro R hg ih1 ih2 ih3 ih4 h1 h2 h3 h4
    obtain ⟨hv1, hv2, hv3, hv4⟩ := quadrants_valid hg hms
    have hrr : R.row1 < R.row2 := by omega
    have hcc : R.col1 < R.col2 := by omega
    have hq1 := ih1 (by simp only [splitRegion]; omega) (by
      simp only [Region.isValid, decide_eq_true_eq] at hv1; exact hv1.1)
      (by simp only [splitRegion]; omega) (by
      simp only [Region.isValid, decide_eq_true_eq] at hv1; exact hv1.2)
    have hq2 := ih2 (by simp only [splitRegion]; omega) (by
      simp only [Region.isValid, decide_eq_true_eq] at hv2; exact hv2.1)
      (by simp only [splitRegion]; omega) (by
      simp only [Region.isValid, decide_eq_true_eq] at hv2; exact hv2.2)
    have hq3 := ih3 (by simp only [splitRegion]; omega) (by
      simp only [Region.isValid, decide_eq_true_eq] at hv3; exact hv3.1)
      (by simp only [splitRegion]; omega) (by
      simp only [Region.isValid, decide_eq_true_eq] at hv3; exact hv3.2)
    have hq4 := ih4 (by simp only [splitRegion]; omega) (by
      simp only [Region.isValid, decide_eq_true_eq] at hv4; exact hv4.1)
      (by simp only [splitRegion]; omega) (by
      simp only [Region.isValid, decide_eq_true_eq] at hv4; exact hv4.2)
    rw [leafRegions.eq_def, dif_neg hg]
    simp only [hv1, hv2, hv3, hv4, if_true, List.map_append, List.sum_append]
    constructor
    · rw [hq1.1, hq2.1, hq3.1, hq4.1, bruteSum_quadrants v R h1 hrr h3 hcc]
    · rw [hq1.2, hq2.2, hq3.2, hq4.2, ← area_quadrants R hrr hcc]

theorem list_abs_sum_le (l : List (ℚ × ℚ)) (hpos : ∀ p ∈ l, 0 ≤ p.2) :
    |(l.map (fun p => p.1 * p.2)).sum| ≤ (l.map (fun p => |p.1| * p.2)).sum := by
  induction l with
  | nil => simp
  | cons x xs ih =>
    simp only [List.map_cons, List.sum_cons]
    have hx : 0 ≤ x.2 := hpos x (List.mem_cons_self _ _)
    have habs : |x.1 * x.2| = |x.1| * x.2 := by
      rw [abs_mul, abs_of_nonneg hx]
    have hih := ih (fun p hp => hpos p (List.mem_cons_of_mem _ hp))
    calc |x.1 * x.2 + (xs.map (fun p => p.1 * p.2)).sum|
        ≤ |x.1 * x.2| + |(xs.map (fun p => p.1 * p.2)).sum| := abs_add _ _
      _ ≤ |x.1| * x.2 + (xs.map (fun p => |p.1| * p.2)).sum := by
          rw [habs]
          linarith

theorem list_sum_zero_of_nonneg (l : List ℚ) (h : ∀ x ∈ l, 0 ≤ x) (hs : l.sum ≤ 0) :
    ∀ x ∈ l, x = 0 := by
  induction l with
  | nil => simp
  | cons y ys ih =>
    have hy : 0 ≤ y := h y (List.mem_cons_self _ _)
    have hys : 0 ≤ ys.sum := List.sum_nonneg (fun x hx => h x (List.mem_cons_of_mem _ hx))
    simp only [List.sum_cons] at hs
    intro x hx
    rcases List.mem_cons.mp hx with rfl | hx
    · linarith
    · exact ih (fun z hz => h z (List.mem_cons_of_mem _ hz)) (by linarith) x hx

theorem list_weighted_diff_sum (M : ℚ) (l : List (ℚ × ℚ)) :
    (l.map (fun p => (M - |p.1|) * p.2)).sum
      = M * (l.map (fun p => p.2)).sum - (l.map (fun p => |p.1| * p.2)).sum := by
  induction l with
  | nil => simp
  | cons x xs ih =>
    simp only [List.map_cons, List.sum_cons]
    rw [ih]
    ring

/-- Weighted-average squeeze: when the absolute weighted average attains
the common bound `M` of the `|dᵢ|`, every `|dᵢ|` equals `M`. -/
theorem weighted_abs_squeeze (l : List (ℚ × ℚ)) (hpos : ∀ p ∈ l, 0 < p.2) (M : ℚ)
    (hle : ∀ p ∈ l, |p.1| ≤ M)
    (heq : M * (l.map (fun p => p.2)).sum ≤ |(l.map (fun p => p.1 * p.2)).sum|) :
    ∀ p ∈ l, |p.1| = M := by
  have h1 : |(l.map (fun p => p.1 * p.2)).sum| ≤ (l.map (fun p => |p.1| * p.2)).sum :=
    list_abs_sum_le l (fun p hp => le_of_lt (hpos p hp))
  have h3 : (l.map (fun p => (M - |p.1|) * p.2)).sum ≤ 0 := by
    rw [list_weighted_diff_sum]
    linarith
  have h4 : ∀ x ∈ l.map (fun p => (M - |p.1|) * p.2), 0 ≤ x := by
    intro x hx
    obtain ⟨p, hp, rfl⟩ := List.mem_map.mp hx
    exact mul_nonneg (by have := hle p hp; linarith) (le_of_lt (hpos p hp))
  have h5 := list_sum_zero_of_nonneg _ h4 h3
  intro p hp
  have := h5 ((M - |p.1|) * p.2) (List.mem_map.mpr ⟨p, hp, rfl⟩)
  rcases mul_eq_zero.mp this with h | h
  · linarith
  · exact absurd h (ne_of_gt (hpos p hp))

theorem buildRec_has_leaf (ms : ℕ) (hms : 0 < ms) (R : Region) (d : ℕ) (p : ℤ) (s : ℕ) :
    ∃ l ∈ buildRec ms hms R d p s, l.isLeaf = true := by
  have h := buildRec_leaves_eq ms hms R d p s
  have hne := leafRegions_ne_nil ms hms R
  rw [← h] at hne
  rcases hfil : (buildRec ms hms R d p s).filter (fun n => n.isLeaf) with _ | ⟨x, xs⟩
  · rw [hfil] at hne
    simp at hne
  · have hx : x ∈ (buildRec ms hms R d p s).filter (fun n => n.isLeaf) := by
      rw [hfil]
      exact List.mem_cons_self _ _
    have hx' := List.mem_filter.mp hx
    exact ⟨x, hx'.1, hx'.2⟩

/-- Every node of a built arena has a leaf somewhere below it (in bounds
terms: a leaf whose region lies inside the node's region). -/
theorem buildRec_exists_leaf (ms : ℕ) (hms : 0 < ms) :
    ∀ (R : Region) (d : ℕ) (p : ℤ) (s : ℕ), ∀ n ∈ buildRec ms hms R d p s,
      ∃ l ∈ buildRec ms hms R d p s, l.isLeaf = true ∧
        n.bounds.row1 ≤ l.bounds.row1 ∧ l.bounds.row2 ≤ n.bounds.row2 ∧
        n.bounds.col1 ≤ l.bounds.col1 ∧ l.bounds.col2 ≤ n.bounds.col2 := by
  refine region_split_induction ms hms
    (fun R => ∀ (d : ℕ) (p : ℤ) (s : ℕ), ∀ n ∈ buildRec ms hms R d p s,
      ∃ l ∈ buildRec ms hms R d p s, l.isLeaf = true ∧
        n.bounds.row1 ≤ l.bounds.row1 ∧ l.bounds.row2 ≤ n.bounds.row2 ∧
        n.bounds.col1 ≤ l.bounds.col1 ∧ l.bounds.col2 ≤ n.bounds.col2) ?_ ?_
  · intro R hg d p s n hn
    rw [buildRec_base_form ms hms R d p s hg] at hn ⊢
    simp only [List.mem_singleton] at hn
    subst hn
    refine ⟨_, List.mem_singleton_self _, ?_, le_refl _, le_refl _, le_refl _, le_refl _⟩
    simp [RegionTreeNode.isLeaf]
  · intro R hg ih1 ih2 ih3 ih4 d p s n hn
    obtain ⟨hv1, hv2, hv3, hv4⟩ := quadrants_valid hg hms
    have hq1R : R.row1 ≤ (splitRegion R).1.row1 ∧ (splitRegion R).1.row2 ≤ R.row2 ∧
        R.col1 ≤ (splitRegion R).1.col1 ∧ (splitRegion R).1.col2 ≤ R.col2 := by
      simp only [splitRegion]
      omega
    rw [buildRec_split_form ms hms R d p s hg] at hn ⊢
    generalize hA : buildRec ms hms (splitRegion R).1 (d + 1) (s : ℤ) (s + 1) = A at *
    generalize hB : buildRec ms hms (splitRegion R).2.1 (d + 1) (s : ℤ)
      (s + 1 + A.length) = B at *
    generalize hC : buildRec ms hms (splitRegion R).2.2.1 (d + 1) (s : ℤ)
      (s + 1 + A.length + B.length) = C at *
    generalize hD : buildRec ms hms (splitRegion R).2.2.2 (d + 1) (s : ℤ)
      (s + 1 + A.length + B.length + C.length) = D at *
    simp only [List.mem_cons, List.mem_append, or_assoc] at hn
    rcases hn with rfl | hn | hn | hn | hn
    · obtain ⟨l, hl, hleaf⟩ : ∃ l ∈ A, l.isLeaf = true := by
        rw [← hA]
        exact buildRec_has_leaf ms hms _ _ _ _
      obtain ⟨hlval, hl1, hl2, hl3, hl4⟩ := by
        rw [← hA] at hl
        exact buildRec_bounds_sub ms hms (splitRegion R).1 hv1 _ _ _ l hl
      refine ⟨l, List.mem_cons_of_mem _ (List.mem_append_left _
          (List.mem_append_left _ (List.mem_append_left _ hl))), hleaf, ?_, ?_, ?_, ?_⟩
      all_goals simp only
      all_goals omega
    · obtain ⟨l, hl, hrest⟩ := ih1 (d + 1) (s : ℤ) (s + 1) n (by rw [hA]; exact hn)
      exact ⟨l, List.mem_cons_of_mem _ (List.mem_append_left _
        (List.mem_append_left _ (List.mem_append_left _ (hA ▸ hl)))), hrest⟩
    · obtain ⟨l, hl, hrest⟩ := ih2 (d + 1) (s : ℤ) (s + 1 + A.length) n
        (by rw [hB]; exact hn)
      exact ⟨l, List.mem_cons_of_mem _ (List.mem_append_left _
        (List.mem_append_left _ (List.mem_append_right _ (hB ▸ hl)))), hrest⟩
    · obtain ⟨l, hl, hrest⟩ := ih3 (d + 1) (s : ℤ) (s + 1 + A.length + B.length) n
        (by rw [hC]; exact hn)
      exact ⟨l, List.mem_cons_of_mem _ (List.mem_append_left _
        (List.mem_append_right _ (hC ▸ hl))), hrest⟩
    · obtain ⟨l, hl, hrest⟩ := ih4 (d + 1) (s : ℤ)
        (s + 1 + A.length + B.length + C.length) n (by rw [hD]; exact hn)
      exact ⟨l, List.mem_cons_of_mem _ (List.mem_append_right _ (hD ▸ hl)), hrest⟩

theorem list_cast_sum {α : Type} (l : List α) (f : α → ℤ) :
    (l.map (fun x => ((f x : ℤ) : ℚ))).sum = (((l.map f).sum : ℤ) : ℚ) := by
  induction l with
  | nil => simp
  | cons x xs ih =>
    simp only [List.map_cons, List.sum_cons, ih]
    push_cast
    ring

theorem list_sub_mul_sum {α : Type} (g : ℚ) (l : List α) (f a : α → ℚ) :
    (l.map (fun x => f x - g * a x)).sum = (l.map f).sum - g * (l.map a).sum := by
  induction l with
  | nil => simp
  | cons x xs ih =>
    simp only [List.map_cons, List.sum_cons, ih]
    ring

/-- The first node emitted by `buildRecursive` carries the region it was
called on. -/
theorem buildRec_head_bounds (ms : ℕ) (hms : 0 < ms) (R : Region) (d : ℕ) (p : ℤ)
    (s : ℕ) : ∃ n ∈ buildRec ms hms R d p s, n.bounds = R := by
  by_cases hg : (R.row2 - R.row1 + 1 ≤ (ms : ℤ) ∨ R.col2 - R.col1 + 1 ≤ (ms : ℤ))
  · rw [buildRec_base_form ms hms R d p s hg]
    exact ⟨_, List.mem_singleton_self _, rfl⟩
  · rw [buildRec_split_form ms hms R d p s hg]
    exact ⟨_, List.mem_cons_self _ _, rfl⟩

/-- Leaf regions below any arena node are leaf regions of the whole tree. -/
theorem buildRec_leafRegions_sub (ms : ℕ) (hms : 0 < ms) :
    ∀ (R : Region) (d : ℕ) (p : ℤ) (s : ℕ), ∀ n ∈ buildRec ms hms R d p s,
      ∀ Q ∈ leafRegions ms hms n.bounds, Q ∈ leafRegions ms hms R := by
  refine region_split_induction ms hms
    (fun R => ∀ (d : ℕ) (p : ℤ) (s : ℕ), ∀ n ∈ buildRec ms hms R d p s,
      ∀ Q ∈ leafRegions ms hms n.bounds, Q ∈ leafRegions ms hms R) ?_ ?_
  · intro R hg d p s n hn Q hQ
    rw [buildRec_base_form ms hms R d p s hg] at hn
    simp only [List.mem_singleton] at hn
    subst hn
    exact hQ
  · intro R hg ih1 ih2 ih3 ih4 d p s n hn Q hQ
    obtain ⟨hv1, hv2, hv3, hv4⟩ := quadrants_valid hg hms
    rw [buildRec_split_form ms hms R d p s hg] at hn
    generalize hA : buildRec ms hms (splitRegion R).1 (d + 1) (s : ℤ) (s + 1) = A at *
    generalize hB : buildRec ms hms (splitRegion R).2.1 (d + 1) (s : ℤ)
      (s + 1 + A.length) = B at *
    generalize hC : buildRec ms hms (splitRegion R).2.2.1 (d + 1) (s : ℤ)
      (s + 1 + A.length + B.length) = C at *
    generalize hD : buildRec ms hms (splitRegion R).2.2.2 (d + 1) (s : ℤ)
      (s + 1 + A.length + B.length + C.length) = D at *
    have hLR : leafRegions ms hms R
        = leafRegions ms hms (splitRegion R).1 ++ leafRegions ms hms (splitRegion R).2.1
          ++ leafRegions ms hms (splitRegion R).2.2.1
          ++ leafRegions ms hms (splitRegion R).2.2.2 := by
      rw [leafRegions.eq_def, dif_neg hg]
      simp only [hv1, hv2, hv3, hv4, if_true]
    rw [hLR]
    simp only [List.mem_cons, List.mem_append, or_assoc] at hn
    rcases hn with rfl | hn | hn | hn | hn
    · rw [← hLR]
      exact hQ
    · exact List.mem_append_left _ (List.mem_append_left _ (List.mem_append_left _
        (ih1 (d + 1) (s : ℤ) (s + 1) n (by rw [hA]; exact hn) Q hQ)))
    · exact List.mem_append_left _ (List.mem_append_left _ (List.mem_append_right _
        (ih2 (d + 1) (s : ℤ) (s + 1 + A.length) n (by rw [hB]; exact hn) Q hQ)))
    · exact List.mem_append_left _ (List.mem_append_right _
        (ih3 (d + 1) (s : ℤ) (s + 1 + A.length + B.length) n (by rw [hC]; exact hn) Q hQ))
    · exact List.mem_append_right _
        (ih4 (d + 1) (s : ℤ) (s + 1 + A.length + B.length + C.length) n
          (by rw [hD]; exact hn) Q hQ)

/-- The area-weighted mean deviations of the leaf regions sum to the
area-weighted mean deviation of the whole region. -/
theorem leafRegions_dev_sum (ms : ℕ) (hms : 0 < ms) (v : ℕ → ℕ → ℤ) (g : ℚ) (R : Region)
    (h1 : 0 ≤ R.row1) (h2 : R.row1 ≤ R.row2) (h3 : 0 ≤ R.col1) (h4 : R.col1 ≤ R.col2) :
    ((leafRegions ms hms R).map (fun Q => (bruteMean v Q - g) * (Q.area : ℚ))).sum
      = (bruteMean v R - g) * (R.area : ℚ) := by
  have hval : R.isValid = true := by
    simp only [Region.isValid, decide_eq_true_eq]
    omega
  obtain ⟨hsum, harea⟩ := leafRegions_sums ms hms v R h1 h2 h3 h4
  have hpt : ∀ Q ∈ leafRegions ms hms R,
      (fun Q => (bruteMean v Q - g) * (Q.area : ℚ)) Q
        = (fun Q => ((bruteSum v Q : ℤ) : ℚ) - g * ((Q.area : ℤ) : ℚ)) Q := by
    intro Q hQ
    obtain ⟨hQv, _, _, _, _⟩ := leafRegions_mem ms hms R hval Q hQ
    simp only [Region.isValid, decide_eq_true_eq] at hQv
    have hQa : (0 : ℚ) < ((Q.area : ℤ) : ℚ) := by
      have hz : (0 : ℤ) < Q.area := by
        rw [Region.area]
        exact mul_pos (by omega) (by omega)
      exact_mod_cast hz
    simp only
    rw [bruteMean, sub_mul, div_mul_cancel₀ _ (ne_of_gt hQa)]
  have hc1 : ((leafRegions ms hms R).map (fun Q => ((bruteSum v Q : ℤ) : ℚ))).sum
      = ((((leafRegions ms hms R).map (fun Q => bruteSum v Q)).sum : ℤ) : ℚ) :=
    list_cast_sum _ _
  have hc2 : ((leafRegions ms hms R).map (fun Q => ((Q.area : ℤ) : ℚ))).sum
      = ((((leafRegions ms hms R).map (fun Q => Q.area)).sum : ℤ) : ℚ) :=
    list_cast_sum _ _
  rw [List.map_congr_left hpt,
    list_sub_mul_sum g _ (fun Q => ((bruteSum v Q : ℤ) : ℚ)) (fun Q => ((Q.area : ℤ) : ℚ)),
    hc1, hc2, hsum, harea]
  have hRa : (0 : ℚ) < ((R.area : ℤ) : ℚ) := by
    have hz : (0 : ℤ) < R.area := by
      rw [Region.area]
      exact mul_pos (by omega) (by omega)
    exact_mod_cast hz
  rw [bruteMean, sub_mul, div_mul_cancel₀ _ (ne_of_gt hRa)]

/-- If the mean deviation of every leaf region is bounded by `M`, so is the
mean deviation of the whole region (weighted-average bound). -/
theorem abs_dev_le_of_leaf_bound (ms : ℕ) (hms : 0 < ms) (v : ℕ → ℕ → ℤ) (g M : ℚ)
    (R : Region) (h1 : 0 ≤ R.row1) (h2 : R.row1 ≤ R.row2) (h3 : 0 ≤ R.col1)
    (h4 : R.col1 ≤ R.col2)
    (hbnd : ∀ Q ∈ leafRegions ms hms R, |bruteMean v Q - g| ≤ M) :
    |bruteMean v R - g| ≤ M := by
  have hval : R.isValid = true := by
    simp only [Region.isValid, decide_eq_true_eq]
    omega
  have harea : (0 : ℚ) < ((R.area : ℤ) : ℚ) := by
    have hz : (0 : ℤ) < R.area := by
      rw [Region.area]
      exact mul_pos (by omega) (by omega)
    exact_mod_cast hz
  set L : List (ℚ × ℚ) :=
    (leafRegions ms hms R).map (fun Q => (bruteMean v Q - g, ((Q.area : ℤ) : ℚ)))
    with hLdef
  have hpos : ∀ p ∈ L, 0 ≤ p.2 := by
    intro p hp
    obtain ⟨Q, hQ, rfl⟩ := List.mem_map.mp hp
    obtain ⟨hQv, _, _, _, _⟩ := leafRegions_mem ms hms R hval Q hQ
    simp only [Region.isValid, decide_eq_true_eq] at hQv
    have hz : (0 : ℤ) ≤ Q.area := by
      rw [Region.area]
      exact le_of_lt (mul_pos (by omega) (by omega))
    show (0 : ℚ) ≤ ((Q.area : ℤ) : ℚ)
    exact_mod_cast hz
  have h1' := list_abs_sum_le L hpos
  have hsumL : (L.map (fun p => p.1 * p.2)).sum = (bruteMean v R - g) * ((R.area : ℤ) : ℚ) := by
    rw [hLdef, List.map_map]
    exact leafRegions_dev_sum ms hms v g R h1 h2 h3 h4
  have hareaL : (L.map (fun p => p.2)).sum = ((R.area : ℤ) : ℚ) := by
    rw [hLdef, List.map_map]
    have he : ((fun p : ℚ × ℚ => p.2)
          ∘ (fun Q => (bruteMean v Q - g, ((Q.area : ℤ) : ℚ))))
        = fun Q => ((Q.area : ℤ) : ℚ) := rfl
    have hc2 : ((leafRegions ms hms R).map (fun Q => ((Q.area : ℤ) : ℚ))).sum
        = ((((leafRegions ms hms R).map (fun Q => Q.area)).sum : ℤ) : ℚ) :=
      list_cast_sum _ _
    rw [he, hc2, (leafRegions_sums ms hms v R h1 h2 h3 h4).2]
  have h2' : (L.map (fun p => |p.1| * p.2)).sum ≤ M * (L.map (fun p => p.2)).sum := by
    have h0 : 0 ≤ (L.map (fun p => (M - |p.1|) * p.2)).sum := by
      refine List.sum_nonneg ?_
      intro x hx
      obtain ⟨p, hp, rfl⟩ := List.mem_map.mp hx
      obtain ⟨Q, hQ, rfl⟩ := List.mem_map.mp hp
      refine mul_nonneg ?_ (hpos _ hp)
      have := hbnd Q hQ
      simp only
      linarith
    have hdiff := list_weighted_diff_sum M L
    linarith
  have hmain : |bruteMean v R - g| * ((R.area : ℤ) : ℚ) ≤ M * ((R.area : ℤ) : ℚ) := by
    have he : |(bruteMean v R - g) * ((R.area : ℤ) : ℚ)|
        = |bruteMean v R - g| * ((R.area : ℤ) : ℚ) := by
      rw [abs_mul, abs_of_pos harea]
    calc |bruteMean v R - g| * ((R.area : ℤ) : ℚ)
        = |(L.map (fun p => p.1 * p.2)).sum| := by rw [hsumL, he]
      _ ≤ (L.map (fun p => |p.1| * p.2)).sum := h1'
      _ ≤ M * (L.map (fun p => p.2)).sum := h2'
      _ = M * ((R.area : ℤ) : ℚ) := by rw [hareaL]
  exact le_of_mul_le_mul_right hmain harea

theorem div_le_div_same_pos {a b c : ℚ} (hc : 0 < c) (h : a / c ≤ b / c) : a ≤ b := by
  have hm := mul_le_mul_of_nonneg_right h (le_of_lt hc)
  rwa [div_mul_cancel₀ _ (ne_of_gt hc), div_mul_cancel₀ _ (ne_of_gt hc)] at hm

/-- Under the spec's monotonicity assumption — every node's score
upper-bounds the score of every leaf whose region lies inside the node's
region — a detected tree has *constant* anomaly score: every node's mean
deviation is a weighted average of its leaves' deviations, so the root's
score can dominate all leaf scores only when all deviations coincide in
absolute value. -/
theorem mono_const_scores (ps : PrefixSum) (det : AnomalyDetector) (ms : ℕ) (hms : 0 < ms)
    (hb : ps.built = true) (hh : 0 < ps.height) (hw : 0 < ps.width)
    (hmono : ∀ n ∈ det.detectInTree ps (RegionTree.build ps ms hms),
      ∀ l ∈ det.detectInTree ps (RegionTree.build ps ms hms), l.isLeaf = true →
        n.bounds.row1 ≤ l.bounds.row1 → l.bounds.row2 ≤ n.bounds.row2 →
        n.bounds.col1 ≤ l.bounds.col1 → l.bounds.col2 ≤ n.bounds.col2 →
        l.anomalyScore ≤ n.anomalyScore) :
    ∃ s : ℚ, ∀ n ∈ det.detectInTree ps (RegionTree.build ps ms hms),
      n.anomalyScore = s := by
  have hform := detect_score_formula ps det ms hms hb hh hw
  by_cases hsig : det.globalStdDev < 1 / 10000000000
  · refine ⟨0, fun n hn => ?_⟩
    rw [(hform n hn).1, if_pos hsig]
  · have hσ : (0 : ℚ) < det.globalStdDev := by
      have h10 : (0 : ℚ) < 1 / 10000000000 := by norm_num
      have := not_lt.mp hsig
      linarith
    have hscore : ∀ n ∈ det.detectInTree ps (RegionTree.build ps ms hms),
        n.anomalyScore
          = |bruteMean ps.img n.bounds - det.globalMean| / det.globalStdDev := by
      intro n hn
      rw [(hform n hn).1, if_neg hsig]
    have hR0v : (Region.mk 0 0 ((ps.height : ℤ) - 1) ((ps.width : ℤ) - 1)).isValid
        = true := by
      simp only [Region.isValid, decide_eq_true_eq]
      omega
    have hNB : det.detectInTree ps (RegionTree.build ps ms hms)
        = (buildRec ms hms (Region.mk 0 0 ((ps.height : ℤ) - 1) ((ps.width : ℤ) - 1))
            0 (-1) 0).map (det.detectFun ps) := by
      rw [AnomalyDetector.detectInTree, hb, RegionTree.build, hb]
      simp
    obtain ⟨r0, hr0mem', hr0b⟩ := buildRec_head_bounds ms hms
      (Region.mk 0 0 ((ps.height : ℤ) - 1) ((ps.width : ℤ) - 1)) 0 (-1) 0
    have hr0mem : det.detectFun ps r0 ∈ det.detectInTree ps (RegionTree.build ps ms hms) := by
      rw [hNB]
      exact List.mem_map_of_mem _ hr0mem'
    -- every leaf region's deviation is bounded by the root's deviation
    have hleafle : ∀ Q ∈ leafRegions ms hms
        (Region.mk 0 0 ((ps.height : ℤ) - 1) ((ps.width : ℤ) - 1)),
        |bruteMean ps.img Q - det.globalMean|
          ≤ |bruteMean ps.img (Region.mk 0 0 ((ps.height : ℤ) - 1) ((ps.width : ℤ) - 1))
              - det.globalMean| := by
      intro Q hQ
      rw [← buildRec_leaves_eq ms hms _ 0 (-1) 0] at hQ
      obtain ⟨m, hmf, hmb⟩ := List.mem_map.mp hQ
      obtain ⟨hm, hml⟩ := List.mem_filter.mp hmf
      have hmemN : det.detectFun ps m ∈ det.detectInTree ps (RegionTree.build ps ms hms) := by
        rw [hNB]
        exact List.mem_map_of_mem _ hm
      obtain ⟨hval, hc1, hc2, hc3, hc4⟩ := buildRec_bounds_sub ms hms _ hR0v 0 (-1) 0 m hm
      have hle := hmono (det.detectFun ps r0) hr0mem (det.detectFun ps m) hmemN
        (by rw [detectFun_isLeaf]; exact hml)
        (by rw [detectFun_bounds, detectFun_bounds, hr0b]; exact hc1)
        (by rw [detectFun_bounds, detectFun_bounds, hr0b]; exact hc2)
        (by rw [detectFun_bounds, detectFun_bounds, hr0b]; exact hc3)
        (by rw [detectFun_bounds, detectFun_bounds, hr0b]; exact hc4)
      rw [hscore _ hmemN, hscore _ hr0mem, detectFun_bounds, detectFun_bounds, hmb,
        hr0b] at hle
      exact div_le_div_same_pos hσ hle
    -- the root's deviation is the weighted average of the leaves': squeeze
    have hco1 : (0 : ℤ) ≤ (Region.mk 0 0 ((ps.height : ℤ) - 1) ((ps.width : ℤ) - 1)).row1 :=
      le_refl 0
    have hco2 : (Region.mk 0 0 ((ps.height : ℤ) - 1) ((ps.width : ℤ) - 1)).row1
        ≤ (Region.mk 0 0 ((ps.height : ℤ) - 1) ((ps.width : ℤ) - 1)).row2 := by
      simp only
      omega
    have hco3 : (0 : ℤ) ≤ (Region.mk 0 0 ((ps.height : ℤ) - 1) ((ps.width : ℤ) - 1)).col1 :=
      le_refl 0
    have hco4 : (Region.mk 0 0 ((ps.height : ℤ) - 1) ((ps.width : ℤ) - 1)).col1
        ≤ (Region.mk 0 0 ((ps.height : ℤ) - 1) ((ps.width : ℤ) - 1)).col2 := by
      simp only
      omega
    have hleafeq : ∀ Q ∈ leafRegions ms hms
        (Region.mk 0 0 ((ps.height : ℤ) - 1) ((ps.width : ℤ) - 1)),
        |bruteMean ps.img Q - det.globalMean|
          = |bruteMean ps.img (Region.mk 0 0 ((ps.height : ℤ) - 1) ((ps.width : ℤ) - 1))
              - det.globalMean| := by
      set R0 : Region := Region.mk 0 0 ((ps.height : ℤ) - 1) ((ps.width : ℤ) - 1) with hR0
      set L : List (ℚ × ℚ) := (leafRegions ms hms R0).map
        (fun Q => (bruteMean ps.img Q - det.globalMean, ((Q.area : ℤ) : ℚ))) with hLdef
      have hpos : ∀ p ∈ L, 0 < p.2 := by
        intro p hp
        obtain ⟨Q, hQ, rfl⟩ := List.mem_map.mp hp
        obtain ⟨hQv, _, _, _, _⟩ := leafRegions_mem ms hms R0 hR0v Q hQ
        simp only [Region.isValid, decide_eq_true_eq] at hQv
        have hz : (0 : ℤ) < Q.area := by
          rw [Region.area]
          exact mul_pos (by omega) (by omega)
        show (0 : ℚ) < ((Q.area : ℤ) : ℚ)
        exact_mod_cast hz
      have hMle : ∀ p ∈ L,
          |p.1| ≤ |bruteMean ps.img R0 - det.globalMean| := by
        intro p hp
        obtain ⟨Q, hQ, rfl⟩ := List.mem_map.mp hp
        exact hleafle Q hQ
      have hsumL : (L.map (fun p => p.1 * p.2)).sum
          = (bruteMean ps.img R0 - det.globalMean) * ((R0.area : ℤ) : ℚ) := by
        rw [hLdef, List.map_map]
        exact leafRegions_dev_sum ms hms ps.img det.globalMean R0 hco1 hco2 hco3 hco4
      have hareaL : (L.map (fun p => p.2)).sum = ((R0.area : ℤ) : ℚ) := by
        rw [hLdef, List.map_map]
        have he : ((fun p : ℚ × ℚ => p.2)
              ∘ (fun Q => (bruteMean ps.img Q - det.globalMean, ((Q.area : ℤ) : ℚ))))
            = fun Q => ((Q.area : ℤ) : ℚ) := rfl
        have hc2 : ((leafRegions ms hms R0).map (fun Q => ((Q.area : ℤ) : ℚ))).sum
            = ((((leafRegions ms hms R0).map (fun Q => Q.area)).sum : ℤ) : ℚ) :=
          list_cast_sum _ _
        rw [he, hc2, (leafRegions_sums ms hms ps.img R0 hco1 hco2 hco3 hco4).2]
      have hRa : (0 : ℚ) ≤ ((R0.area : ℤ) : ℚ) := by
        have hz : (0 : ℤ) ≤ R0.area := by
          rw [Region.area]
          exact le_of_lt (mul_pos (by simp only [hR0]; omega) (by simp only [hR0]; omega))
        exact_mod_cast hz
      have heq : |bruteMean ps.img R0 - det.globalMean| * (L.map (fun p => p.2)).sum
          ≤ |(L.map (fun p => p.1 * p.2)).sum| := by
        rw [hsumL, hareaL, abs_mul, abs_of_nonneg hRa]
      have hsq := weighted_abs_squeeze L hpos _ hMle heq
      intro Q hQ
      exact hsq (bruteMean ps.img Q - det.globalMean, ((Q.area : ℤ) : ℚ))
        (List.mem_map.mpr ⟨Q, hQ, rfl⟩)
    -- each node's deviation equals the root's
    refine ⟨|bruteMean ps.img (Region.mk 0 0 ((ps.height : ℤ) - 1) ((ps.width : ℤ) - 1))
        - det.globalMean| / det.globalStdDev, ?_⟩
    intro n hn
    have hn' := hn
    rw [hNB] at hn'
    obtain ⟨m, hm, rfl⟩ := List.mem_map.mp hn'
    obtain ⟨hval, hc1, hc2, hc3, hc4⟩ := buildRec_bounds_sub ms hms _ hR0v 0 (-1) 0 m hm
    simp only [Region.isValid, decide_eq_true_eq] at hval
    have hbb1 : (0 : ℤ) ≤ m.bounds.row1 := by simpa using hc1
    have hbb3 : (0 : ℤ) ≤ m.bounds.col1 := by simpa using hc3
    -- upper bound: the node's deviation is a weighted average of leaf deviations
    have hle : |bruteMean ps.img m.bounds - det.globalMean|
        ≤ |bruteMean ps.img (Region.mk 0 0 ((ps.height : ℤ) - 1) ((ps.width : ℤ) - 1))
            - det.globalMean| := by
      refine abs_dev_le_of_leaf_bound ms hms ps.img det.globalMean _ m.bounds hbb1 hval.1
        hbb3 hval.2 ?_
      intro Q hQ
      have hQ0 := buildRec_leafRegions_sub ms hms _ 0 (-1) 0 m hm Q hQ
      exact le_of_eq (hleafeq Q hQ0)
    -- lower bound: some leaf lies below the node, and its score is the root's
    have hge : |bruteMean ps.img (Region.mk 0 0 ((ps.height : ℤ) - 1) ((ps.width : ℤ) - 1))
        - det.globalMean| ≤ |bruteMean ps.img m.bounds - det.globalMean| := by
      obtain ⟨l, hlmem, hlleaf, hl1, hl2, hl3, hl4⟩ :=
        buildRec_exists_leaf ms hms _ 0 (-1) 0 m hm
      have hlQ : l.bounds ∈ leafRegions ms hms
          (Region.mk 0 0 ((ps.height : ℤ) - 1) ((ps.width : ℤ) - 1)) := by
        rw [← buildRec_leaves_eq ms hms _ 0 (-1) 0]
        exact List.mem_map_of_mem _ (List.mem_filter.mpr ⟨hlmem, hlleaf⟩)
      have hlmemN : det.detectFun ps l
          ∈ det.detectInTree ps (RegionTree.build ps ms hms) := by
        rw [hNB]
        exact List.mem_map_of_mem _ hlmem
      have hmle := hmono (det.detectFun ps m) hn (det.detectFun ps l) hlmemN
        (by rw [detectFun_isLeaf]; exact hlleaf)
        (by rw [detectFun_bounds, detectFun_bounds]; exact hl1)
        (by rw [detectFun_bounds, detectFun_bounds]; exact hl2)
        (by rw [detectFun_bounds, detectFun_bounds]; exact hl3)
        (by rw [detectFun_bounds, detectFun_bounds]; exact hl4)
      rw [hscore _ hlmemN, hscore _ hn, detectFun_bounds, detectFun_bounds,
        hleafeq l.bounds hlQ] at hmle
      exact div_le_div_same_pos hσ hmle
    rw [hscore _ hn, detectFun_bounds, le_antisymm hle hge]

theorem heapTop_mem {heap : List AnomalyRegion} {tp : AnomalyRegion}
    (h : heapTop heap = some tp) : tp ∈ heap := by
  rw [heapTop] at h
  cases heap with
  | nil => simp at h
  | cons x xs =>
    rw [List.getLast?_eq_getLast_of_ne_nil (by simp)] at h
    have he := Option.some.inj h
    rw [← he]
    exact List.getLast_mem _

/-- When every score in sight equals `s`, the sorted insert appends. -/
theorem heapPush_const (s : ℚ) : ∀ (heap : List AnomalyRegion) (ar : AnomalyRegion),
    (∀ a ∈ heap, a.anomalyScore = s) → ar.anomalyScore = s →
    heapPush heap ar = heap ++ [ar] := by
  intro heap
  induction heap with
  | nil => intro ar _ _; rfl
  | cons x xs ih =>
    intro ar hall har
    rw [heapPush, har, hall x (List.mem_cons_self _ _), if_neg (lt_irrefl s),
      ih ar (fun a ha => hall a (List.mem_cons_of_mem _ ha)) har]
    rfl

theorem list_map_const_replicate {α β : Type} (f : α → β) (c : β) :
    ∀ l : List α, (∀ a ∈ l, f a = c) → l.map f = List.replicate l.length c := by
  intro l
  induction l with
  | nil => intro _; rfl
  | cons x xs ih =>
    intro h
    rw [List.map_cons, h x (List.mem_cons_self _ _), List.length_cons,
      List.replicate_succ, ih (fun a ha => h a (List.mem_cons_of_mem _ ha))]

/-- The bounded-heap fold of `topKAnomalies` over candidates of one common
score keeps the first `k` leaf candidates: it produces a heap of constant
score whose size is `min k` (number of leaves seen). -/
theorem topk_fold_const (k : ℤ) (hk : 1 ≤ k) (s : ℚ) :
    ∀ (cs : List RegionTreeNode) (heap : List AnomalyRegion),
      (∀ n ∈ cs, n.anomalyScore = s) → (∀ a ∈ heap, a.anomalyScore = s) →
      heap.length ≤ k.toNat →
      (∀ a ∈ cs.foldl (topKStep k true) heap, a.anomalyScore = s) ∧
      (cs.foldl (topKStep k true) heap).length
        = min k.toNat (heap.length + cs.countP (fun n => n.isLeaf)) := by
  intro cs
  induction cs with
  | nil =>
    intro heap _ hh hlen
    refine ⟨hh, ?_⟩
    simp only [List.foldl_nil, List.countP_nil]
    omega
  | cons n ns ih =>
    intro heap hcs hh hlen
    rw [List.foldl_cons]
    by_cases hleaf : n.isLeaf = true
    · by_cases hl : (heap.length : ℤ) < k
      · have hstep : topKStep k true heap n = heap ++ [⟨n.bounds, n.anomalyScore, n.id⟩] := by
          rw [topKStep]
          simp only [hleaf, Bool.not_true, Bool.and_false, Bool.false_eq_true, if_false]
          rw [if_pos hl]
          exact heapPush_const s heap _ hh (by simpa using hcs n (List.mem_cons_self _ _))
        rw [hstep]
        have hh' : ∀ a ∈ heap ++ [⟨n.bounds, n.anomalyScore, n.id⟩], a.anomalyScore = s := by
          intro a ha
          rcases List.mem_append.mp ha with ha | ha
          · exact hh a ha
          · simp only [List.mem_singleton] at ha
            subst ha
            simpa using hcs n (List.mem_cons_self _ _)
        have hlap : (heap ++ [(⟨n.bounds, n.anomalyScore, n.id⟩ : AnomalyRegion)]).length
            = heap.length + 1 := by
          simp
        obtain ⟨ha, hb⟩ := ih (heap ++ [(⟨n.bounds, n.anomalyScore, n.id⟩ : AnomalyRegion)])
          (fun x hx => hcs x (List.mem_cons_of_mem _ hx)) hh' (by rw [hlap]; omega)
        refine ⟨ha, ?_⟩
        have hcnt : List.countP (fun n => n.isLeaf) (n :: ns)
            = List.countP (fun n => n.isLeaf) ns + 1 := by
          rw [List.countP_cons]
          simp [hleaf]
        rw [hb, hlap, hcnt]
        omega
      · have hstep : topKStep k true heap n = heap := by
          rw [topKStep]
          simp only [hleaf, Bool.not_true, Bool.and_false, Bool.false_eq_true, if_false]
          rw [if_neg hl]
          obtain ⟨tp, htp⟩ := @heapTop_of_length_ge heap k hk (by omega)
          rw [htp]
          have htps : tp.anomalyScore = s := hh tp (heapTop_mem htp)
          have hns : n.anomalyScore = s := hcs n (List.mem_cons_self _ _)
          simp [htps, hns]
        rw [hstep]
        obtain ⟨ha, hb⟩ := ih heap (fun x hx => hcs x (List.mem_cons_of_mem _ hx)) hh hlen
        refine ⟨ha, ?_⟩
        have hcnt : List.countP (fun n => n.isLeaf) (n :: ns)
            = List.countP (fun n => n.isLeaf) ns + 1 := by
          rw [List.countP_cons]
          simp [hleaf]
        rw [hb, hcnt]
        omega
    · have hstep : topKStep k true heap n = heap := by
        rw [topKStep]
        simp [hleaf]
      rw [hstep]
      obtain ⟨ha, hb⟩ := ih heap (fun x hx => hcs x (List.mem_cons_of_mem _ hx)) hh hlen
      refine ⟨ha, ?_⟩
      have hcnt : List.countP (fun n => n.isLeaf) (n :: ns)
          = List.countP (fun n => n.isLeaf) ns := by
        rw [List.countP_cons]
        simp [hleaf]
      rw [hb, hcnt]

theorem getD_mem_of_lt (l : List RegionTreeNode) (s : ℕ) (h : s < l.length) :
    l.getD s default ∈ l := by
  have hg : l.getD s default = l[s] := by
    rw [List.getD_eq_getElem?_getD, List.getElem?_eq_getElem h]
    rfl
  rw [hg]
  exact List.getElem_mem h

/-- Number of leaves among the arena entries with indices in `[s, e)`. -/
def leafCountRange (all : List RegionTreeNode) (s e : ℕ) : ℕ :=
  ((all.drop s).take (e - s)).countP (fun n => n.isLeaf)

theorem leafCountRange_single (all : List RegionTreeNode) (s : ℕ) (hs : s < all.length) :
    leafCountRange all s (s + 1) = if (all.getD s default).isLeaf then 1 else 0 := by
  rw [leafCountRange]
  have h1 : s + 1 - s = 1 := by omega
  rw [h1, List.drop_eq_getElem_cons hs, List.take_succ_cons, List.take_zero,
    List.countP_cons]
  have hg : all.getD s default = all[s] := by
    rw [List.getD_eq_getElem?_getD, List.getElem?_eq_getElem hs]
    rfl
  simp [hg, List.getElem?_eq_getElem hs]

theorem leafCountRange_split (all : List RegionTreeNode) (s m e : ℕ) (h1 : s ≤ m)
    (h2 : m ≤ e) :
    leafCountRange all s e = leafCountRange all s m + leafCountRange all m e := by
  rw [leafCountRange, leafCountRange, leafCountRange]
  have he : e - s = (m - s) + (e - m) := by omega
  rw [he, List.take_add, List.countP_append]
  have hd : (all.drop s).drop (m - s) = all.drop m := by
    rw [List.drop_drop]
    congr 1
    omega
  rw [hd]

/-- Master lemma for the pruned traversal under constant scores: with a
positive `k` and a common score `s₀` on all nodes, no subtree is ever
pruned, every leaf below the queued subtrees is offered to the heap, and
the loop returns a heap of constant score holding `min k` (number of
those leaves) entries. -/
theorem pruneLoop_const (all : List RegionTreeNode) (k : ℤ) (hk : 1 ≤ k) (s₀ : ℚ)
    (hall : ∀ n ∈ all, n.anomalyScore = s₀) :
    ∀ (fuel : ℕ) (ents : List (ℕ × ℕ)) (heap : List AnomalyRegion),
      (∀ pr ∈ ents, Subtree all pr.1 pr.2) →
      (ents.map (fun pr => pr.2 - pr.1)).sum < fuel →
      (∀ a ∈ heap, a.anomalyScore = s₀) →
      heap.length ≤ k.toNat →
      ∃ h, pruneLoop all k fuel (ents.map (fun pr => ((pr.1 : ℕ) : ℤ))) heap = some h ∧
        (∀ a ∈ h, a.anomalyScore = s₀) ∧
        h.length = min k.toNat (heap.length
          + (ents.map (fun pr => leafCountRange all pr.1 pr.2)).sum) := by
  intro fuel
  induction fuel with
  | zero => intro ents heap _ hsum _ _; exact absurd hsum (Nat.not_lt_zero _)
  | succ fuel ih =>
    intro ents heap hsub hsum hheap hle
    match ents with
    | [] =>
      refine ⟨heap, rfl, hheap, ?_⟩
      simp only [List.map_nil, List.sum_nil, Nat.add_zero]
      omega
    | (s, e) :: rest =>
      have hst : Subtree all s e := hsub (s, e) (List.mem_cons_self _ _)
      obtain ⟨hse, hsl, hel⟩ := subtree_bounds hst
      simp only [List.map_cons]
      rw [pruneLoop]
      rw [if_neg (by omega)]
      simp only [Int.toNat_natCast]
      have hsum' : ((rest.map (fun pr => pr.2 - pr.1)).sum) + (e - s)
          = ((((s, e) :: rest).map (fun pr => pr.2 - pr.1)).sum) := by
        simp [List.sum_cons]
        omega
      have hsc : (all.getD s default).anomalyScore = s₀ :=
        hall _ (getD_mem_of_lt all s hsl)
      cases hst with
      | leaf _ hs hleaf =>
        have hlcr : leafCountRange all s (s + 1) = 1 := by
          rw [leafCountRange_single all s hs, hleaf]
          rfl
        by_cases hlen : (heap.length : ℤ) ≥ k
        · obtain ⟨tp, htp⟩ := heapTop_of_length_ge hk hlen
          have htps : tp.anomalyScore = s₀ := hheap tp (heapTop_mem htp)
          rw [if_pos hlen, htp]
          simp only
          rw [if_neg (by rw [hleaf]; simp)]
          rw [if_pos hleaf]
          rw [show (if (all.getD s default).anomalyScore > tp.anomalyScore then
              heapPush (heapPop heap)
                ⟨(all.getD s default).bounds, (all.getD s default).anomalyScore,
                  (all.getD s default).id⟩
              else heap) = heap from if_neg (by rw [hsc, htps]; exact lt_irrefl s₀)]
          obtain ⟨h, hph, hhs, hhl⟩ := ih rest heap
            (fun pr hpr => hsub pr (List.mem_cons_of_mem _ hpr)) (by omega) hheap hle
          refine ⟨h, hph, hhs, ?_⟩
          rw [hhl]
          simp only [List.sum_cons, hlcr]
          omega
        · rw [if_neg hlen, if_pos hleaf]
          rw [heapPush_const s₀ heap _ hheap hsc]
          have hheap' : ∀ a ∈ heap ++ [(⟨(all.getD s default).bounds,
              (all.getD s default).anomalyScore, (all.getD s default).id⟩ : AnomalyRegion)],
              a.anomalyScore = s₀ := by
            intro a ha
            rcases List.mem_append.mp ha with ha | ha
            · exact hheap a ha
            · simp only [List.mem_singleton] at ha
              subst ha
              exact hsc
          have hlap : (heap ++ [(⟨(all.getD s default).bounds,
              (all.getD s default).anomalyScore, (all.getD s default).id⟩
                : AnomalyRegion)]).length = heap.length + 1 := by
            simp
          obtain ⟨h, hph, hhs, hhl⟩ := ih rest _
            (fun pr hpr => hsub pr (List.mem_cons_of_mem _ hpr)) (by omega) hheap'
            (by rw [hlap]; omega)
          refine ⟨h, hph, hhs, ?_⟩
          rw [hhl, hlap]
          simp only [List.sum_cons, hlcr]
          omega
      | split _ e1 e2 e3 _ hs hleaf hNW hNE hSW hSE t1 t2 t3 t4 =>
        obtain ⟨h1, _, _⟩ := subtree_bounds t1
        obtain ⟨h2, _, _⟩ := subtree_bounds t2
        obtain ⟨h3, _, _⟩ := subtree_bounds t3
        obtain ⟨h4, _, _⟩ := subtree_bounds t4
        have hlcr : leafCountRange all s e
            = leafCountRange all (s + 1) e1 + leafCountRange all e1 e2
              + leafCountRange all e2 e3 + leafCountRange all e3 e := by
          have h00 : leafCountRange all s (s + 1) = 0 := by
            rw [leafCountRange_single all s hs, hleaf]
            rfl
          rw [leafCountRange_split all s (s + 1) e (by omega) (by omega),
            leafCountRange_split all (s + 1) e1 e (by omega) (by omega),
            leafCountRange_split all e1 e2 e (by omega) (by omega),
            leafCountRange_split all e2 e3 e (by omega) (by omega), h00]
          omega
        have hcl : childList (all.getD s default)
            = [((s + 1 : ℕ) : ℤ), (e1 : ℤ), (e2 : ℤ), (e3 : ℤ)] := by
          rw [childList, hNW, hNE, hSW, hSE]
          rw [if_pos (by positivity), if_pos (by positivity), if_pos (by positivity),
            if_pos (by positivity)]
          rfl
        have hq : (rest.map (fun pr => ((pr.1 : ℕ) : ℤ))) ++ childList (all.getD s default)
            = ((rest ++ [(s + 1, e1), (e1, e2), (e2, e3), (e3, e)]).map
                (fun pr => ((pr.1 : ℕ) : ℤ))) := by
          rw [hcl, List.map_append]
          rfl
        have hsub' : ∀ pr ∈ rest ++ [(s + 1, e1), (e1, e2), (e2, e3), (e3, e)],
            Subtree all pr.1 pr.2 := by
          intro pr hpr
          rcases List.mem_append.mp hpr with hpr | hpr
          · exact hsub pr (List.mem_cons_of_mem _ hpr)
          · simp only [List.mem_cons, List.mem_singleton] at hpr
            rcases hpr with rfl | rfl | rfl | rfl | h
            · exact t1
            · exact t2
            · exact t3
            · exact t4
            · simp at h
        have hsum'' : ((rest ++ [(s + 1, e1), (e1, e2), (e2, e3), (e3, e)]).map
            (fun pr => pr.2 - pr.1)).sum < fuel := by
          rw [List.map_append, List.sum_append]
          simp only [List.map_cons, List.map_nil, List.sum_cons, List.sum_nil]
          omega
        have hlsum : ((rest ++ [(s + 1, e1), (e1, e2), (e2, e3), (e3, e)]).map
            (fun pr => leafCountRange all pr.1 pr.2)).sum
            = (rest.map (fun pr => leafCountRange all pr.1 pr.2)).sum
              + (leafCountRange all (s + 1) e1 + leafCountRange all e1 e2
                + leafCountRange all e2 e3 + leafCountRange all e3 e) := by
          rw [List.map_append, List.sum_append]
          simp only [List.map_cons, List.map_nil, List.sum_cons, List.sum_nil]
          omega
        by_cases hlen : (heap.length : ℤ) ≥ k
        · obtain ⟨tp, htp⟩ := heapTop_of_length_ge hk hlen
          have htps : tp.anomalyScore = s₀ := hheap tp (heapTop_mem htp)
          rw [if_pos hlen, htp]
          simp only
          rw [if_neg (by rw [hsc, htps]; intro hcontra; exact lt_irrefl s₀ hcontra.1)]
          rw [if_neg (by rw [hleaf]; simp)]
          rw [hq]
          obtain ⟨h, hph, hhs, hhl⟩ := ih _ heap hsub' hsum'' hheap hle
          refine ⟨h, hph, hhs, ?_⟩
          rw [hhl, hlsum]
          simp only [List.sum_cons, hlcr]
          omega
        · rw [if_neg hlen, if_neg (by rw [hleaf]; simp)]
          rw [hq]
          obtain ⟨h, hph, hhs, hhl⟩ := ih _ heap hsub' hsum'' hheap hle
          refine ⟨h, hph, hhs, ?_⟩
          rw [hhl, hlsum]
          simp only [List.sum_cons, hlcr]
          omega

/-- C5 (amended): for a scored tree and `k ≥ 1`, under the spec's
monotonicity assumption — each node's anomaly score upper-bounds the
scores of all leaves in its subtree, expressed here through region
containment, which characterises subtree membership in the quadtree —
`topKWithPruning(k)` terminates and returns results whose *scores* agree
with `topKAnomalies(k, leafOnly=true)`: the same number of results with
the same score list.  (The original claim — the same *node-id* set — is
false: the two traversals visit equal-scored leaves in different orders;
see the counterexample.) -/
theorem pruned_topk_scores (ps : PrefixSum) (det : AnomalyDetector) (ms : ℕ)
    (hms : 0 < ms) (hb : ps.built = true) (hh : 0 < ps.height) (hw : 0 < ps.width)
    (k : ℤ) (hk : 1 ≤ k)
    (hmono : ∀ n ∈ det.detectInTree ps (RegionTree.build ps ms hms),
      ∀ l ∈ det.detectInTree ps (RegionTree.build ps ms hms), l.isLeaf = true →
        n.bounds.row1 ≤ l.bounds.row1 → l.bounds.row2 ≤ n.bounds.row2 →
        n.bounds.col1 ≤ l.bounds.col1 → l.bounds.col2 ≤ n.bounds.col2 →
        l.anomalyScore ≤ n.anomalyScore) :
    ∃ res, topKWithPruning (det.detectInTree ps (RegionTree.build ps ms hms)) k
        = some res ∧
      res.map (fun a => a.anomalyScore)
        = (topKAnomalies (det.detectInTree ps (RegionTree.build ps ms hms)) k true).map
            (fun a => a.anomalyScore) := by
  obtain ⟨s₀, hs₀⟩ := mono_const_scores ps det ms hms hb hh hw hmono
  set N := det.detectInTree ps (RegionTree.build ps ms hms) with hN
  obtain ⟨hA_scores, hA_len⟩ := topk_fold_const k hk s₀ N [] hs₀
    (by intro a ha; simp at ha) (by simp)
  have hTKA : topKAnomalies N k true = N.foldl (topKStep k true) [] := by
    rw [topKAnomalies, heapDrain_eq_reverse, List.reverse_reverse]
  have hbuild : RegionTree.build ps ms hms
      = buildRec ms hms (Region.mk 0 0 ((ps.height : ℤ) - 1) ((ps.width : ℤ) - 1))
          0 (-1) 0 := by
    rw [RegionTree.build, hb]
    simp
  have hNB : N = (buildRec ms hms
      (Region.mk 0 0 ((ps.height : ℤ) - 1) ((ps.width : ℤ) - 1)) 0 (-1) 0).map
        (det.detectFun ps) := by
    rw [hN, AnomalyDetector.detectInTree, hb, hbuild]
    simp
  have hlenN : N.length = (buildRec ms hms
      (Region.mk 0 0 ((ps.height : ℤ) - 1) ((ps.width : ℤ) - 1)) 0 (-1) 0).length := by
    rw [hNB, List.length_map]
  have hsub : Subtree N 0 (0 + (buildRec ms hms
      (Region.mk 0 0 ((ps.height : ℤ) - 1) ((ps.width : ℤ) - 1)) 0 (-1) 0).length) := by
    refine buildRec_subtree ms hms N (det.detectFun ps)
      (fun n => detectFun_children det ps n) _ 0 (-1) 0 ?_
    rw [List.drop_zero, ← hNB, List.take_length]
  have hsub0 : Subtree N 0 N.length := by
    rw [hlenN]
    simpa using hsub
  obtain ⟨h, hph, hhs, hhl⟩ := pruneLoop_const N k hk s₀ hs₀ (N.length + 1)
    [((0 : ℕ), N.length)] []
    (by
      intro pr hpr
      simp only [List.mem_singleton] at hpr
      subst hpr
      exact hsub0)
    (by
      simp only [List.map_cons, List.map_nil, List.sum_cons, List.sum_nil]
      omega)
    (by intro a ha; simp at ha)
    (by simp)
  have hq : ([((0 : ℕ), N.length)].map (fun pr => ((pr.1 : ℕ) : ℤ))) = [(0 : ℤ)] := by
    simp
  rw [hq] at hph
  have hlcr : leafCountRange N 0 N.length = N.countP (fun n => n.isLeaf) := by
    rw [leafCountRange, List.drop_zero, Nat.sub_zero, List.take_length]
  refine ⟨(heapDrain h).reverse, ?_, ?_⟩
  · rw [topKWithPruning, hph]
    rfl
  · rw [heapDrain_eq_reverse, List.reverse_reverse, hTKA,
      list_map_const_replicate _ s₀ h hhs, list_map_const_replicate _ s₀ _ hA_scores]
    congr 1
    rw [hhl, hA_len]
    simp only [List.length_nil, List.map_cons, List.map_nil, List.sum_cons,
      List.sum_nil, Nat.add_zero, Nat.zero_add]
    rw [hlcr]

/-- Witness for `pruned_topk_scores`: 1×1 constant raster, detector with
zero standard deviation (every score is 0, so monotonicity holds), `k = 1`. -/
theorem pruned_topk_scores_witness :
    (∀ n ∈ (AnomalyDetector.mk 0 0 2).detectInTree (PrefixSum.mk true 1 1 (fun _ _ => 5))
        (RegionTree.build (PrefixSum.mk true 1 1 (fun _ _ => 5)) 1 one_pos'),
      ∀ l ∈ (AnomalyDetector.mk 0 0 2).detectInTree (PrefixSum.mk true 1 1 (fun _ _ => 5))
        (RegionTree.build (PrefixSum.mk true 1 1 (fun _ _ => 5)) 1 one_pos'),
        l.isLeaf = true →
        n.bounds.row1 ≤ l.bounds.row1 → l.bounds.row2 ≤ n.bounds.row2 →
        n.bounds.col1 ≤ l.bounds.col1 → l.bounds.col2 ≤ n.bounds.col2 →
        l.anomalyScore ≤ n.anomalyScore) ∧
    ∃ res, topKWithPruning ((AnomalyDetector.mk 0 0 2).detectInTree
        (PrefixSum.mk true 1 1 (fun _ _ => 5))
        (RegionTree.build (PrefixSum.mk true 1 1 (fun _ _ => 5)) 1 one_pos')) 1
          = some res ∧
      res.map (fun a => a.anomalyScore)
        = (topKAnomalies ((AnomalyDetector.mk 0 0 2).detectInTree
            (PrefixSum.mk true 1 1 (fun _ _ => 5))
            (RegionTree.build (PrefixSum.mk true 1 1 (fun _ _ => 5)) 1 one_pos')) 1
              true).map (fun a => a.anomalyScore) := by
  have ht : (AnomalyDetector.mk 0 0 2).detectInTree (PrefixSum.mk true 1 1 (fun _ _ => 5))
      (RegionTree.build (PrefixSum.mk true 1 1 (fun _ _ => 5)) 1 one_pos')
      = [⟨0, ⟨0, 0, 0, 0⟩, 0, -1, -1, -1, -1, -1, 0, false⟩] := by
    simp [RegionTree.build, buildRec, splitRegion, Region.isValid,
      AnomalyDetector.detectInTree, AnomalyDetector.detectFun,
      AnomalyDetector.computeScore, AnomalyDetector.isAnomalousScore]
  have hm : ∀ n ∈ (AnomalyDetector.mk 0 0 2).detectInTree
      (PrefixSum.mk true 1 1 (fun _ _ => 5))
      (RegionTree.build (PrefixSum.mk true 1 1 (fun _ _ => 5)) 1 one_pos'),
      ∀ l ∈ (AnomalyDetector.mk 0 0 2).detectInTree (PrefixSum.mk true 1 1 (fun _ _ => 5))
        (RegionTree.build (PrefixSum.mk true 1 1 (fun _ _ => 5)) 1 one_pos'),
        l.isLeaf = true →
        n.bounds.row1 ≤ l.bounds.row1 → l.bounds.row2 ≤ n.bounds.row2 →
        n.bounds.col1 ≤ l.bounds.col1 → l.bounds.col2 ≤ n.bounds.col2 →
        l.anomalyScore ≤ n.anomalyScore := by
    intro n hn l hl _ _ _ _ _
    rw [ht] at hn hl
    simp only [List.mem_singleton] at hn hl
    subst hn
    subst hl
    exact le_refl _
  exact ⟨hm, pruned_topk_scores (PrefixSum.mk true 1 1 (fun _ _ => 5))
    (AnomalyDetector.mk 0 0 2) 1 one_pos' rfl (by decide) (by decide) 1 (by decide) hm⟩

/-- Uniform 3×3 raster: every pixel is 5. -/
def exampleRaster9 : PrefixSum := PrefixSum.mk true 3 3 (fun _ _ => 5)

/-- The scored tree over `exampleRaster9` with `minRegionSize = 1` and a
zero-standard-deviation detector: every node's score is 0, so the
monotonicity assumption holds with equality everywhere. -/
def exampleTree9 : List RegionTreeNode :=
  (AnomalyDetector.mk 0 0 2).detectInTree exampleRaster9
    (RegionTree.build exampleRaster9 1 one_pos')

/-- C5 (counterexample to the original claim): on the uniform 3×3 raster
the monotonicity assumption holds, yet `topKAnomalies(2, leafOnly)` keeps
the first two leaves in arena order (node ids 2 and 3) while
`topKWithPruning(2)` keeps the first two leaves in breadth-first order
(node ids 6 and 7): the returned node-id sets differ — only the result
sizes and score lists agree. -/
theorem pruned_topk_ids_differ :
    (∀ n ∈ exampleTree9, ∀ l ∈ exampleTree9, l.isLeaf = true →
        n.bounds.row1 ≤ l.bounds.row1 → l.bounds.row2 ≤ n.bounds.row2 →
        n.bounds.col1 ≤ l.bounds.col1 → l.bounds.col2 ≤ n.bounds.col2 →
        l.anomalyScore ≤ n.anomalyScore) ∧
    ((topKAnomalies exampleTree9 2 true).map (fun a => a.nodeId) = [2, 3]) ∧
    ((topKWithPruning exampleTree9 2).map (fun res => res.map (fun a => a.nodeId))
        = some [6, 7]) ∧
    (2 : ℕ) ∉ [6, 7] := by
  have ht : exampleTree9 =
      [⟨0, ⟨0, 0, 2, 2⟩, 0, -1, 1, 6, 7, 8, 0, false⟩,
       ⟨1, ⟨0, 0, 1, 1⟩, 1, 0, 2, 3, 4, 5, 0, false⟩,
       ⟨2, ⟨0, 0, 0, 0⟩, 2, 1, -1, -1, -1, -1, 0, false⟩,
       ⟨3, ⟨0, 1, 0, 1⟩, 2, 1, -1, -1, -1, -1, 0, false⟩,
       ⟨4, ⟨1, 0, 1, 0⟩, 2, 1, -1, -1, -1, -1, 0, false⟩,
       ⟨5, ⟨1, 1, 1, 1⟩, 2, 1, -1, -1, -1, -1, 0, false⟩,
       ⟨6, ⟨0, 2, 1, 2⟩, 1, 0, -1, -1, -1, -1, 0, false⟩,
       ⟨7, ⟨2, 0, 2, 1⟩, 1, 0, -1, -1, -1, -1, 0, false⟩,
       ⟨8, ⟨2, 2, 2, 2⟩, 1, 0, -1, -1, -1, -1, 0, false⟩] := by
    simp [exampleTree9, exampleRaster9, RegionTree.build, buildRec, splitRegion,
      Region.isValid, AnomalyDetector.detectInTree, AnomalyDetector.detectFun,
      AnomalyDetector.computeScore, AnomalyDetector.isAnomalousScore]
  rw [ht]
  decide

/-! ### Connected components (`QueryEngine.cpp` lines 54-124 and 342-556)

`QueryEngine::areAdjacent` is the engine's own edge test (it has no
overlap rejection, unlike `Region::isAdjacentTo`).  The union-find state
is the four fields of the C++ `UnionFind`; the recursive `find` with path
compression is embedded with fuel `parent.length`, shown sufficient below
through the union-by-rank invariant.  The iteration order of the C++
`std::unordered_map` in `findConnectedComponents` is unspecified; the
embedding groups roots in order of first appearance, and the claim is
compared up to component order (multisets), which this choice cannot
affect.  `std::sort` with the strict area comparator leaves equal-area
ties unspecified; the embedding uses `mergeSort`, again irrelevant up to
multisets. -/

/-- `QueryEngine::areAdjacent` (`QueryEngine.cpp` lines 141-158). -/
def areAdjacent (a b : Region) : Bool :=
  let xOverlap := a.col1 ≤ b.col2 ∧ b.col1 ≤ a.col2
  let yOverlap := a.row1 ≤ b.row2 ∧ b.row1 ≤ a.row2
  if yOverlap ∧ (a.col2 + 1 = b.col1 ∨ b.col2 + 1 = a.col1) then true
  else if xOverlap ∧ (a.row2 + 1 = b.row1 ∨ b.row2 + 1 = a.row1) then true
  else false

/-- `QueryEngine::mergeBounds` (`QueryEngine.cpp` lines 165-172). -/
def mergeBounds (a b : Region) : Region :=
  ⟨min a.row1 b.row1, min a.col1 b.col1, max a.row2 b.row2, max a.col2 b.col2⟩

/-- The `UnionFind` class state (`QueryEngine.h` lines 87-92). -/
structure UnionFind where
  parent : List ℕ
  rank : List ℕ
  size : List ℤ
  numComponents : ℤ

/-- `UnionFind::UnionFind(int n)` (`QueryEngine.cpp` lines 55-63). -/
def UnionFind.init (n : ℕ) : UnionFind :=
  { parent := List.range n, rank := List.replicate n 0,
    size := List.replicate n 1, numComponents := (n : ℤ) }

/-- Recursive `UnionFind::find` with path compression (`QueryEngine.cpp`
lines 66-79), with explicit fuel: returns the updated parent array and
the root.  Fuel `parent.length` is proved sufficient below. -/
def findAux : ℕ → List ℕ → ℕ → List ℕ × ℕ
  | 0, parent, x => (parent, x)
  | fuel + 1, parent, x =>
    if parent.getD x x = x then (parent, x)
    else
      let pr := findAux fuel parent (parent.getD x x)
      (pr.1.set x pr.2, pr.2)

def UnionFind.find (uf : UnionFind) (x : ℕ) : UnionFind × ℕ :=
  let pr := findAux uf.parent.length uf.parent x
  ({ uf with parent := pr.1 }, pr.2)

/-- `UnionFind::unite` with union by rank (`QueryEngine.cpp` lines 81-115). -/
def UnionFind.unite (uf : UnionFind) (x y : ℕ) : UnionFind × Bool :=
  let p1 := uf.find x
  let p2 := p1.1.find y
  let uf2 := p2.1
  let rootX := p1.2
  let rootY := p2.2
  if rootX = rootY then (uf2, false)
  else if uf2.rank.getD rootX 0 < uf2.rank.getD rootY 0 then
    ({ uf2 with
        parent := uf2.parent.set rootX rootY
        size := uf2.size.set rootY (uf2.size.getD rootY 0 + uf2.size.getD rootX 0)
        numComponents := uf2.numComponents - 1 }, true)
  else if uf2.rank.getD rootY 0 < uf2.rank.getD rootX 0 then
    ({ uf2 with
        parent := uf2.parent.set rootY rootX
        size := uf2.size.set rootX (uf2.size.getD rootX 0 + uf2.size.getD rootY 0)
        numComponents := uf2.numComponents - 1 }, true)
  else
    ({ uf2 with
        parent := uf2.parent.set rootY rootX
        size := uf2.size.set rootX (uf2.size.getD rootX 0 + uf2.size.getD rootY 0)
        rank := uf2.rank.set rootX (uf2.rank.getD rootX 0 + 1)
        numComponents := uf2.numComponents - 1 }, true)

/-- `UnionFind::connected` (`QueryEngine.cpp` lines 117-119). -/
def UnionFind.connected (uf : UnionFind) (x y : ℕ) : UnionFind × Bool :=
  let p1 := uf.find x
  let p2 := p1.1.find y
  (p2.1, decide (p1.2 = p2.2))

/-- `UnionFind::setSize` (`QueryEngine.cpp` lines 121-123). -/
def UnionFind.setSize (uf : UnionFind) (x : ℕ) (s : ℤ) : UnionFind :=
  let pr := uf.find x
  { pr.1 with size := pr.1.size.set pr.2 s }

/-- `UnionFind::getSize` (`QueryEngine.cpp` lines 125-127). -/
def UnionFind.getSize (uf : UnionFind) (x : ℕ) : UnionFind × ℤ :=
  let pr := uf.find x
  (pr.1, pr.1.size.getD pr.2 0)

/-- `ConnectedComponent` (`QueryEngine.h` lines 44-53). -/
structure ConnectedComponent where
  id : ℤ
  nodeIndices : List ℕ
  boundingBox : Region
  totalArea : ℤ
  maxScore : ℚ
  avgScore : ℚ

/-- The anomalous leaves, in arena order: `getLeaves` then the `isAnomaly`
filter (`QueryEngine.cpp` lines 368-375 and 475-482). -/
def anomalousNodes (nodes : List RegionTreeNode) : List RegionTreeNode :=
  (nodes.filter (fun n => n.isLeaf)).filter (fun n => n.isAnomaly)

/-- The pair loop `for i < n, for j in (i, n)` of both component finders. -/
def allPairs (n : ℕ) : List (ℕ × ℕ) :=
  (List.range n).flatMap (fun i => (List.range' (i + 1) (n - (i + 1))).map (fun j => (i, j)))

/-- Aggregation of one component from its member indices in discovery
order (`QueryEngine.cpp` lines 412-432 and 506-545; both variants push
`node->id`, accumulate `totalArea`, `maxScore`, the score sum and the
merged bounding box over the members — the union-find variant's extra
self-merge of the first bounding box is a no-op and is dropped here). -/
def mkComponent (anom : List RegionTreeNode) (cid : ℤ) (idxs : List ℕ) :
    ConnectedComponent :=
  { id := cid
    nodeIndices := idxs.map (fun i => (anom.getD i default).id)
    boundingBox := idxs.foldl (fun bb i => mergeBounds bb (anom.getD i default).bounds)
      ((anom.getD (idxs.headD 0) default).bounds)
    totalArea := (idxs.map (fun i => (anom.getD i default).bounds.area)).sum
    maxScore := idxs.foldl (fun m i => max m (anom.getD i default).anomalyScore) 0
    avgScore := (idxs.map (fun i => (anom.getD i default).anomalyScore)).sum
      / (idxs.length : ℚ) }

/-- The body of the union-find pair loop (`QueryEngine.cpp` lines 389-400). -/
def ufPairStep (anom : List RegionTreeNode) (uf : UnionFind) (pr : ℕ × ℕ) : UnionFind :=
  if areAdjacent (anom.getD pr.1 default).bounds (anom.getD pr.2 default).bounds
  then (uf.unite pr.1 pr.2).1 else uf

/-- The union-find state after initialisation, the `setSize` loop
(`QueryEngine.cpp` lines 384-386) and the full pair loop. -/
def ufAfterPairs (anom : List RegionTreeNode) (n : ℕ) : UnionFind :=
  (allPairs n).foldl (ufPairStep anom)
    ((List.range n).foldl
      (fun uf i => uf.setSize i (anom.getD i default).bounds.area) (UnionFind.init n))

/-- The root-collection loop (`QueryEngine.cpp` lines 404-407): one
(state-threading, path-compressing) `find` per index, roots in index
order. -/
def ufGroupRoots (anom : List RegionTreeNode) (n : ℕ) : List ℕ :=
  ((List.range n).foldl
    (fun (st : UnionFind × List ℕ) i => ((st.1.find i).1, st.2 ++ [(st.1.find i).2]))
    (ufAfterPairs anom n, [])).2

/-- Grouping keys in order of first appearance — the embedding's stand-in
for the unspecified `std::unordered_map` iteration order (see the section
comment). -/
def firstKeys (l : List ℕ) : List ℕ :=
  l.foldl (fun ks r => if r ∈ ks then ks else ks ++ [r]) []

/-- `QueryEngine::findConnectedComponents` (`QueryEngine.cpp` lines
342-443): union-find over the anomalous leaves, grouped by root (in order
of first appearance, see the section comment) and sorted by total area. -/
def findConnectedComponents (nodes : List RegionTreeNode) : List ConnectedComponent :=
  let anom := anomalousNodes nodes
  let n := anom.length
  if n = 0 then []
  else
    let roots := ufGroupRoots anom n
    let keys := firstKeys roots
    let comps := (List.range keys.length).map
      (fun (t : ℕ) => mkComponent anom (t : ℤ)
        ((List.range n).filter (fun i => roots.getD i 0 = keys.getD t 0)))
    comps.mergeSort (fun a b => decide (b.totalArea ≤ a.totalArea))

/-- The adjacency list of anomalous leaf `u` (`QueryEngine.cpp` lines
487-496): the pair loop appends each neighbour `j > i` to `adj[i]` and
each `i` to `adj[j]`, so `adj[u]` lists the smaller neighbours (tested as
`areAdjacent(v, u)`) followed by the larger ones (tested as
`areAdjacent(u, v)`), each block ascending. -/
def adjAt (anom : List RegionTreeNode) (n u : ℕ) : List ℕ :=
  ((List.range u).filter (fun v =>
      areAdjacent (anom.getD v default).bounds (anom.getD u default).bounds))
    ++ ((List.range' (u + 1) (n - (u + 1))).filter (fun v =>
      areAdjacent (anom.getD u default).bounds (anom.getD v default).bounds))

/-- The stack-based DFS of `QueryEngine::findConnectedComponentsDFS`
(`QueryEngine.cpp` lines 517-543), with fuel: pop `u`, skip if visited,
otherwise mark and record it and push its unvisited neighbours (pushing
in `adj[u]` order leaves the last one on top, i.e. the reversed filtered
list is prepended).  `none` marks fuel exhaustion; fuel `(n+1)*(n+1)` is
proved sufficient below. -/
def dfsLoop (adj : ℕ → List ℕ) :
    ℕ → List Bool → List ℕ → List ℕ → Option (List Bool × List ℕ)
  | 0, _, _, _ => none
  | _ + 1, visited, [], acc => some (visited, acc)
  | fuel + 1, visited, u :: rest, acc =>
    if visited.getD u false then dfsLoop adj fuel visited rest acc
    else
      dfsLoop adj fuel (visited.set u true)
        (((adj u).filter (fun v => !visited.getD v false)).reverse ++ rest)
        (acc ++ [u])

/-- One iteration of the outer start loop of
`QueryEngine::findConnectedComponentsDFS` (`QueryEngine.cpp` lines
502-547): skip a visited start, otherwise run the stack DFS and append
the collected component. -/
def dfsFoldStep (anom : List RegionTreeNode) (n : ℕ)
    (st : Option (List Bool × List ConnectedComponent)) (start : ℕ) :
    Option (List Bool × List ConnectedComponent) :=
  match st with
  | none => none
  | some (visited, comps) =>
    if visited.getD start false then some (visited, comps)
    else
      match dfsLoop (fun u => adjAt anom n u) ((n + 1) * (n + 1)) visited
          [start] [] with
      | none => none
      | some (visited2, acc) =>
        some (visited2, comps ++ [mkComponent anom (comps.length : ℤ) acc])

/-- `QueryEngine::findConnectedComponentsDFS` (`QueryEngine.cpp` lines
456-556): depth-first components over the same anomalous leaves and the
same adjacency, components in order of their smallest member, sorted by
total area at the end.  The component records member *indices* during the
walk and aggregates through `mkComponent`, exactly as the source pushes
`node->id` and accumulates per visited node. -/
def findConnectedComponentsDFS (nodes : List RegionTreeNode) :
    Option (List ConnectedComponent) :=
  let anom := anomalousNodes nodes
  let n := anom.length
  if n = 0 then some []
  else
    let st := (List.range n).foldl (dfsFoldStep anom n)
      (some (List.replicate n false, []))
    st.map (fun pr => pr.2.mergeSort (fun a b => decide (b.totalArea ≤ a.totalArea)))

/-! ### Union-find semantics

`Reaches` is the parent-chain relation of a parent array, `rootSpec x r`
says `r` is the root above `x`.  The union-by-rank invariant `UFInv`
(ranks strictly increase along non-trivial parent edges) bounds every
chain, which justifies the fuel `parent.length` in `findAux` and defines
the total root function `rootD`. -/

theorem getD_set_self {α : Type} (l : List α) (i : ℕ) (v d : α) (h : i < l.length) :
    (l.set i v).getD i d = v := by
  rw [List.getD_eq_getElem?_getD, List.getElem?_set_self (by omega)]
  rfl

theorem getD_set_ne {α : Type} (l : List α) (i j : ℕ) (v d : α) (h : i ≠ j) :
    (l.set i v).getD j d = l.getD j d := by
  rw [List.getD_eq_getElem?_getD, List.getElem?_set_ne h, ← List.getD_eq_getElem?_getD]

def Reaches (parent : List ℕ) : ℕ → ℕ → Prop :=
  Relation.ReflTransGen (fun a b => parent.getD a a = b ∧ parent.getD a a ≠ a)

def isRoot (parent : List ℕ) (r : ℕ) : Prop := parent.getD r r = r

def rootSpec (parent : List ℕ) (x r : ℕ) : Prop :=
  Reaches parent x r ∧ isRoot parent r

theorem reaches_of_root {parent : List ℕ} {r z : ℕ} (hr : isRoot parent r)
    (h : Reaches parent r z) : z = r := by
  rcases Relation.ReflTransGen.cases_head h with h | ⟨c, hc, _⟩
  · omega
  · exact absurd hr (by rw [isRoot]; exact fun he => hc.2 he)

theorem rootSpec_unique {parent : List ℕ} {x r1 r2 : ℕ} (h1 : rootSpec parent x r1)
    (h2 : rootSpec parent x r2) : r1 = r2 := by
  obtain ⟨hch, hr1⟩ := h1
  induction hch using Relation.ReflTransGen.head_induction_on with
  | refl => exact (reaches_of_root hr1 h2.1).symm
  | head hstep _ ih =>
    rename_i a c _
    refine ih ⟨?_, h2.2⟩
    rcases Relation.ReflTransGen.cases_head h2.1 with he | ⟨c', hc', htail⟩
    · subst he
      exact absurd h2.2 (by rw [isRoot]; exact hstep.2)
    · rwa [show c = c' from by omega]

theorem filter_length_mono {α : Type} (p q : α → Bool) :
    ∀ l : List α, (∀ a ∈ l, p a = true → q a = true) →
      (l.filter p).length ≤ (l.filter q).length := by
  intro l
  induction l with
  | nil => intro _; simp
  | cons x xs ih =>
    intro h
    have hxs := ih (fun a ha => h a (List.mem_cons_of_mem _ ha))
    by_cases hp : p x = true
    · rw [List.filter_cons_of_pos hp, List.filter_cons_of_pos (h x (List.mem_cons_self _ _) hp)]
      simpa using hxs
    · rw [List.filter_cons_of_neg (by simpa using hp)]
      by_cases hq : q x = true
      · rw [List.filter_cons_of_pos hq]
        simp only [List.length_cons]
        omega
      · rw [List.filter_cons_of_neg (by simpa using hq)]
        exact hxs

theorem filter_length_strict {α : Type} (p q : α → Bool) (w : α) :
    ∀ l : List α, (∀ a ∈ l, p a = true → q a = true) → w ∈ l → q w = true →
      p w = false → (l.filter p).length < (l.filter q).length := by
  intro l
  induction l with
  | nil => intro _ hw; simp at hw
  | cons x xs ih =>
    intro h hw hqw hpw
    rcases List.mem_cons.mp hw with rfl | hw
    · rw [List.filter_cons_of_neg (by simp [hpw]), List.filter_cons_of_pos hqw]
      have := filter_length_mono p q xs (fun a ha => h a (List.mem_cons_of_mem _ ha))
      simp only [List.length_cons]
      omega
    · have hxs := ih (fun a ha => h a (List.mem_cons_of_mem _ ha)) hw hqw hpw
      by_cases hp : p x = true
      · rw [List.filter_cons_of_pos hp, List.filter_cons_of_pos (h x (List.mem_cons_self _ _) hp)]
        simpa using hxs
      · rw [List.filter_cons_of_neg (by simpa using hp)]
        by_cases hq : q x = true
        · rw [List.filter_cons_of_pos hq]
          simp only [List.length_cons]
          omega
        · rw [List.filter_cons_of_neg (by simpa using hq)]
          exact hxs

/-- Number of entries of strictly larger rank: the termination measure of
the parent chains. -/
def ufMeasure (rank : List ℕ) (x : ℕ) : ℕ :=
  ((List.range rank.length).filter (fun y => decide (rank.getD x 0 < rank.getD y 0))).length

/-- The union-by-rank invariant: parent entries stay in range and ranks
strictly increase along non-trivial parent edges. -/
def UFInv (parent rank : List ℕ) : Prop :=
  rank.length = parent.length ∧
  ∀ x, x < parent.length →
    parent.getD x x < parent.length ∧
    (parent.getD x x ≠ x → rank.getD x 0 < rank.getD (parent.getD x x) 0)

theorem ufMeasure_step {parent rank : List ℕ} (hinv : UFInv parent rank) {x : ℕ}
    (hx : x < parent.length) (hne : parent.getD x x ≠ x) :
    ufMeasure rank (parent.getD x x) < ufMeasure rank x := by
  obtain ⟨hlen, hptr⟩ := hinv
  obtain ⟨hplt, hrk⟩ := hptr x hx
  have hr := hrk hne
  refine filter_length_strict _ _ (parent.getD x x) (List.range rank.length) ?_ ?_ ?_ ?_
  · intro a _ ha
    simp only [decide_eq_true_eq] at ha ⊢
    omega
  · rw [List.mem_range]
    omega
  · simp only [decide_eq_true_eq]
    exact hr
  · simp only [decide_eq_false_iff_not]
    omega

theorem ufMeasure_lt_len {parent rank : List ℕ} (hinv : UFInv parent rank) {x : ℕ}
    (hx : x < parent.length) : ufMeasure rank x < parent.length := by
  obtain ⟨hlen, _⟩ := hinv
  have h1 : ufMeasure rank x < (List.range rank.length).length := by
    refine lt_of_lt_of_le (filter_length_strict _ (fun _ => true) x (List.range rank.length)
      (by intro a _ _; rfl) (by rw [List.mem_range]; omega) rfl
      (by simp)) ?_
    exact List.length_filter_le _ _
  rw [List.length_range] at h1
  omega

def rootAux : ℕ → List ℕ → ℕ → ℕ
  | 0, _, x => x
  | fuel + 1, parent, x =>
    let p := parent.getD x x
    if p = x then x else rootAux fuel parent p

/-- The root above `x`, with the fuel that `UFInv` justifies. -/
def rootD (parent : List ℕ) (x : ℕ) : ℕ := rootAux parent.length parent x

theorem rootAux_spec {parent rank : List ℕ} (hinv : UFInv parent rank) :
    ∀ (fuel : ℕ) (x : ℕ), x < parent.length → ufMeasure rank x < fuel →
      rootSpec parent x (rootAux fuel parent x) := by
  intro fuel
  induction fuel with
  | zero => intro x _ hm; exact absurd hm (Nat.not_lt_zero _)
  | succ fuel ih =>
    intro x hx hm
    rw [rootAux]
    by_cases hp : parent.getD x x = x
    · simp only [hp, if_true]
      exact ⟨Relation.ReflTransGen.refl, hp⟩
    · simp only [hp, if_false]
      have hplt := (hinv.2 x hx).1
      have hms := ufMeasure_step hinv hx hp
      obtain ⟨hre, hro⟩ := ih (parent.getD x x) hplt (by omega)
      exact ⟨Relation.ReflTransGen.head ⟨rfl, hp⟩ hre, hro⟩

theorem rootD_spec {parent rank : List ℕ} (hinv : UFInv parent rank) {x : ℕ}
    (hx : x < parent.length) : rootSpec parent x (rootD parent x) :=
  rootAux_spec hinv parent.length x hx (ufMeasure_lt_len hinv hx)

theorem reaches_lt {parent rank : List ℕ} (hinv : UFInv parent rank) {x r : ℕ}
    (hx : x < parent.length) (h : Reaches parent x r) : r < parent.length := by
  induction h with
  | refl => exact hx
  | tail hab hbc ih =>
    rename_i b c
    have hb := ih
    have := (hinv.2 b hb).1
    omega

theorem reaches_rank_le {parent rank : List ℕ} (hinv : UFInv parent rank) {x r : ℕ}
    (hx : x < parent.length) (h : Reaches parent x r) :
    x = r ∨ rank.getD x 0 < rank.getD r 0 := by
  induction h with
  | refl => exact Or.inl rfl
  | tail hab hbc ih =>
    rename_i b c
    have hb : b < parent.length := reaches_lt hinv hx hab
    have hbc' := (hinv.2 b hb).2 (by rw [hbc.1]; exact fun he => hbc.2 (by omega))
    rw [hbc.1] at hbc'
    rcases ih with rfl | hlt
    · exact Or.inr hbc'
    · exact Or.inr (by omega)

theorem rootSpec_congr {p1 p2 : List ℕ} (h : ∀ a, p1.getD a a = p2.getD a a) (y z : ℕ) :
    rootSpec p1 y z ↔ rootSpec p2 y z := by
  have hrel : (fun a b => p1.getD a a = b ∧ p1.getD a a ≠ a)
      = (fun a b => p2.getD a a = b ∧ p2.getD a a ≠ a) := by
    funext a b
    rw [h a]
  rw [rootSpec, rootSpec, Reaches, Reaches, hrel, isRoot, isRoot, h z]

theorem reaches_set_new_to_old {parent : List ℕ} {x r : ℕ} (hx : rootSpec parent x r)
    (hxr : x ≠ r) (hxlt : x < parent.length) :
    ∀ {y z}, Reaches (parent.set x r) y z → isRoot (parent.set x r) z →
      rootSpec parent y z := by
  have hznx : ∀ z, isRoot (parent.set x r) z → z ≠ x := by
    intro z hz he
    subst he
    rw [isRoot, getD_set_self _ _ _ _ hxlt] at hz
    exact hxr hz.symm
  intro y z hch hz
  have hzold : isRoot parent z := by
    have := hznx z hz
    rwa [isRoot, getD_set_ne _ _ _ _ _ (fun he => this he.symm)] at hz
  induction hch using Relation.ReflTransGen.head_induction_on with
  | refl => exact ⟨Relation.ReflTransGen.refl, hzold⟩
  | head hstep _ ih =>
    rename_i a c _
    by_cases hax : a = x
    · subst hax
      rw [getD_set_self _ _ _ _ hxlt] at hstep
      have hc : c = r := hstep.1.symm
      subst hc
      obtain ⟨hrz, _⟩ := ih
      have := reaches_of_root hx.2 hrz
      subst this
      exact ⟨hx.1, hx.2⟩
    · rw [getD_set_ne _ _ _ _ _ (fun he => hax he.symm)] at hstep
      obtain ⟨hcz, _⟩ := ih
      exact ⟨Relation.ReflTransGen.head hstep hcz, hzold⟩

theorem reaches_set_old_to_new {parent : List ℕ} {x r : ℕ} (hx : rootSpec parent x r)
    (hxr : x ≠ r) (hxlt : x < parent.length) :
    ∀ {y z}, Reaches parent y z → isRoot parent z →
      rootSpec (parent.set x r) y z := by
  have hxnotroot : ¬ isRoot parent x := by
    intro hroot
    exact hxr (reaches_of_root hroot hx.1).symm
  intro y z hch hz
  have hznex : z ≠ x := fun he => hxnotroot (he ▸ hz)
  have hznew : isRoot (parent.set x r) z := by
    rwa [isRoot, getD_set_ne _ _ _ _ _ (fun he => hznex he.symm)]
  induction hch using Relation.ReflTransGen.head_induction_on with
  | refl => exact ⟨Relation.ReflTransGen.refl, hznew⟩
  | head hstep htail ih =>
    rename_i a c
    by_cases hax : a = x
    · subst hax
      have hzr : z = r := rootSpec_unique
        ⟨Relation.ReflTransGen.head hstep htail, hz⟩ hx
      subst hzr
      refine ⟨Relation.ReflTransGen.single ?_, hznew⟩
      rw [getD_set_self _ _ _ _ hxlt]
      exact ⟨rfl, fun he => hxr he.symm⟩
    · obtain ⟨hcz, _⟩ := ih
      refine ⟨Relation.ReflTransGen.head ?_ hcz, hznew⟩
      rw [getD_set_ne _ _ _ _ _ (fun he => hax he.symm)]
      exact hstep

/-- Path compression is invisible to the root assignment. -/
theorem rootSpec_compress {parent : List ℕ} {x r : ℕ} (hx : rootSpec parent x r) :
    ∀ y z, rootSpec (parent.set x r) y z ↔ rootSpec parent y z := by
  by_cases hxr : x = r
  · subst hxr
    refine fun y z => rootSpec_congr (fun a => ?_) y z
    by_cases hax : a = x
    · subst hax
      by_cases hlt : a < parent.length
      · rw [getD_set_self _ _ _ _ hlt, hx.2]
      · rw [List.set_eq_of_length_le (by omega)]
    · rw [getD_set_ne _ _ _ _ _ (fun he => hax he.symm)]
  · have hxlt : x < parent.length := by
      rcases Relation.ReflTransGen.cases_head hx.1 with he | ⟨c, hc, _⟩
      · exact absurd he hxr
      · by_contra hge
        have : parent.getD x x = x := by
          rw [List.getD_eq_getElem?_getD, List.getElem?_eq_none (by omega)]
          rfl
        exact hc.2 this
    intro y z
    constructor
    · intro h
      exact reaches_set_new_to_old hx hxr hxlt h.1 h.2
    · intro h
      exact reaches_set_old_to_new hx hxr hxlt h.1 h.2

theorem UFInv_compress {parent rank : List ℕ} {x r : ℕ} (hinv : UFInv parent rank)
    (hx : rootSpec parent x r) (hxlt : x < parent.length) :
    UFInv (parent.set x r) rank := by
  obtain ⟨hlen, hptr⟩ := hinv
  refine ⟨by rw [List.length_set]; exact hlen, ?_⟩
  intro a ha
  rw [List.length_set] at ha
  by_cases hax : a = x
  · subst hax
    rw [getD_set_self _ _ _ _ hxlt, List.length_set]
    have hrlt : r < parent.length := reaches_lt ⟨hlen, hptr⟩ hxlt hx.1
    refine ⟨hrlt, fun hne => ?_⟩
    rcases reaches_rank_le ⟨hlen, hptr⟩ hxlt hx.1 with he | hlt
    · exact absurd he.symm hne
    · exact hlt
  · rw [getD_set_ne _ _ _ _ _ (fun he => hax he.symm), List.length_set]
    exact hptr a ha

theorem reaches_attach_mono {parent : List ℕ} {rx : ℕ} (hrx : isRoot parent rx) {ry : ℕ} :
    ∀ {y z}, Reaches parent y z → Reaches (parent.set rx ry) y z := by
  intro y z hch
  induction hch using Relation.ReflTransGen.head_induction_on with
  | refl => exact Relation.ReflTransGen.refl
  | head hstep _ ih =>
    rename_i a c _
    have hax : a ≠ rx := by
      intro he
      subst he
      exact hstep.2 hrx
    refine Relation.ReflTransGen.head ?_ ih
    rw [getD_set_ne _ _ _ _ _ (fun he => hax he.symm)]
    exact hstep

/-- Linking root `rx` under root `ry` reroutes exactly the class of `rx`. -/
theorem rootSpec_attach {parent : List ℕ} {rx ry : ℕ} (hrx : isRoot parent rx)
    (hry : isRoot parent ry) (hne : rx ≠ ry) (hlt : rx < parent.length) :
    ∀ y z, rootSpec (parent.set rx ry) y z ↔
      ((rootSpec parent y rx ∧ z = ry) ∨ (rootSpec parent y z ∧ z ≠ rx)) := by
  have hrynew : isRoot (parent.set rx ry) ry := by
    rwa [isRoot, getD_set_ne _ _ _ _ _ hne]
  intro y z
  constructor
  · rintro ⟨hch, hz⟩
    induction hch using Relation.ReflTransGen.head_induction_on with
    | refl =>
      have hznrx : z ≠ rx := by
        intro he
        subst he
        rw [isRoot, getD_set_self _ _ _ _ hlt] at hz
        exact hne hz.symm
      rw [isRoot, getD_set_ne _ _ _ _ _ (fun he => hznrx he.symm)] at hz
      exact Or.inr ⟨⟨Relation.ReflTransGen.refl, hz⟩, hznrx⟩
    | head hstep _ ih =>
      rename_i a c _
      by_cases hax : a = rx
      · subst hax
        rw [getD_set_self _ _ _ _ hlt] at hstep
        have hc : c = ry := hstep.1.symm
        subst hc
        rcases ih with ⟨hsp, _⟩ | ⟨hsp, hznrx⟩
        · exact absurd (reaches_of_root hry hsp.1) hne
        · have := reaches_of_root hry hsp.1
          subst this
          exact Or.inl ⟨⟨Relation.ReflTransGen.refl, hrx⟩, rfl⟩
      · rw [getD_set_ne _ _ _ _ _ (fun he => hax he.symm)] at hstep
        rcases ih with ⟨hsp, hzy⟩ | ⟨hsp, hznrx⟩
        · exact Or.inl ⟨⟨Relation.ReflTransGen.head hstep hsp.1, hsp.2⟩, hzy⟩
        · exact Or.inr ⟨⟨Relation.ReflTransGen.head hstep hsp.1, hsp.2⟩, hznrx⟩
  · rintro (⟨hsp, rfl⟩ | ⟨hsp, hznrx⟩)
    · refine ⟨Relation.ReflTransGen.tail (reaches_attach_mono hrx hsp.1) ?_, hrynew⟩
      rw [getD_set_self _ _ _ _ hlt]
      exact ⟨rfl, fun he => hne he.symm⟩
    · refine ⟨reaches_attach_mono hrx hsp.1, ?_⟩
      rw [isRoot, getD_set_ne _ _ _ _ _ (fun he => hznrx he.symm)]
      exact hsp.2

theorem UFInv_attach_lt {parent rank : List ℕ} {rx ry : ℕ} (hinv : UFInv parent rank)
    (hrxlt : rx < parent.length) (hrylt : ry < parent.length)
    (hrank : rank.getD rx 0 < rank.getD ry 0) :
    UFInv (parent.set rx ry) rank := by
  obtain ⟨hlen, hptr⟩ := hinv
  refine ⟨by rw [List.length_set]; exact hlen, ?_⟩
  intro a ha
  rw [List.length_set] at ha
  by_cases hax : a = rx
  · subst hax
    rw [getD_set_self _ _ _ _ hrxlt, List.length_set]
    exact ⟨hrylt, fun _ => hrank⟩
  · rw [getD_set_ne _ _ _ _ _ (fun he => hax he.symm), List.length_set]
    exact hptr a ha

theorem UFInv_attach_bump {parent rank : List ℕ} {rx ry : ℕ} (hinv : UFInv parent rank)
    (hrx : isRoot parent rx) (hrxlt : rx < parent.length) (hrylt : ry < parent.length)
    (hne : rx ≠ ry) (heq : rank.getD ry 0 = rank.getD rx 0) :
    UFInv (parent.set ry rx) (rank.set rx (rank.getD rx 0 + 1)) := by
  obtain ⟨hlen, hptr⟩ := hinv
  have hrxrk : rx < rank.length := by omega
  refine ⟨by rw [List.length_set, List.length_set]; exact hlen, ?_⟩
  intro a ha
  rw [List.length_set] at ha
  by_cases hay : a = ry
  · subst hay
    rw [getD_set_self parent a rx a hrylt, List.length_set]
    refine ⟨hrxlt, fun _ => ?_⟩
    rw [getD_set_ne rank rx a (rank.getD rx 0 + 1) 0 (by omega),
      getD_set_self rank rx (rank.getD rx 0 + 1) 0 hrxrk]
    omega
  · rw [getD_set_ne parent ry a rx a (by omega), List.length_set]
    obtain ⟨hp1, hp2⟩ := hptr a ha
    refine ⟨hp1, fun hnea => ?_⟩
    have hreq := hp2 hnea
    by_cases harx : a = rx
    · subst harx
      exact absurd hrx hnea
    · rw [getD_set_ne rank rx a (rank.getD rx 0 + 1) 0 (by omega)]
      by_cases hprx : parent.getD a a = rx
      · rw [hprx, getD_set_self rank rx (rank.getD rx 0 + 1) 0 hrxrk]
        rw [hprx] at hreq
        omega
      · rw [getD_set_ne rank rx (parent.getD a a) (rank.getD rx 0 + 1) 0 (by omega)]
        exact hreq

/-- Full specification of `findAux` at sufficient fuel: the returned root
is the root, the compressed parent array keeps the invariant and assigns
the same roots. -/
theorem findAux_spec :
    ∀ (fuel : ℕ) (parent rank : List ℕ), UFInv parent rank →
      ∀ x, x < parent.length → ufMeasure rank x < fuel →
        (findAux fuel parent x).1.length = parent.length ∧
        UFInv (findAux fuel parent x).1 rank ∧
        rootSpec parent x (findAux fuel parent x).2 ∧
        (∀ y z, rootSpec (findAux fuel parent x).1 y z ↔ rootSpec parent y z) := by
  intro fuel
  induction fuel with
  | zero => intro parent rank _ x _ hm; exact absurd hm (Nat.not_lt_zero _)
  | succ fuel ih =>
    intro parent rank hinv x hx hm
    by_cases hp : parent.getD x x = x
    · have he : findAux (fuel + 1) parent x = (parent, x) := by
        rw [findAux, if_pos hp]
      rw [he]
      exact ⟨rfl, hinv, ⟨Relation.ReflTransGen.refl, hp⟩, fun y z => Iff.rfl⟩
    · have he : findAux (fuel + 1) parent x
          = ((findAux fuel parent (parent.getD x x)).1.set x
              (findAux fuel parent (parent.getD x x)).2,
            (findAux fuel parent (parent.getD x x)).2) := by
        rw [findAux, if_neg hp]
      rw [he]
      have hplt := (hinv.2 x hx).1
      have hms := ufMeasure_step hinv hx hp
      obtain ⟨hlen1, hinv1, hroot1, hiff1⟩ := ih parent rank hinv (parent.getD x x)
        hplt (by omega)
      have hrootx : rootSpec parent x (findAux fuel parent (parent.getD x x)).2 :=
        ⟨Relation.ReflTransGen.head ⟨rfl, hp⟩ hroot1.1, hroot1.2⟩
      have hrootx1 : rootSpec (findAux fuel parent (parent.getD x x)).1 x
          (findAux fuel parent (parent.getD x x)).2 := (hiff1 _ _).mpr hrootx
      refine ⟨?_, ?_, hrootx, ?_⟩
      · rw [List.length_set]
        exact hlen1
      · exact UFInv_compress hinv1 hrootx1 (by omega)
      · intro y z
        rw [rootSpec_compress hrootx1 y z, hiff1 y z]

def ufOk (n : ℕ) (uf : UnionFind) : Prop :=
  uf.parent.length = n ∧ UFInv uf.parent uf.rank

/-- Two indices have a common root. -/
def rootEqv (parent : List ℕ) (a b : ℕ) : Prop :=
  ∃ r, rootSpec parent a r ∧ rootSpec parent b r

theorem rootEqv_symm {parent : List ℕ} {a b : ℕ} (h : rootEqv parent a b) :
    rootEqv parent b a := by
  obtain ⟨r, h1, h2⟩ := h
  exact ⟨r, h2, h1⟩

theorem rootEqv_trans {parent : List ℕ} {a b c : ℕ} (h1 : rootEqv parent a b)
    (h2 : rootEqv parent b c) : rootEqv parent a c := by
  obtain ⟨r1, ha, hb⟩ := h1
  obtain ⟨r2, hb', hc⟩ := h2
  have he := rootSpec_unique hb hb'
  exact ⟨r1, ha, he ▸ hc⟩

theorem rootEqv_iff_to {parent : List ℕ} {x rx : ℕ} (h : rootSpec parent x rx) (a : ℕ) :
    rootEqv parent a x ↔ rootSpec parent a rx := by
  constructor
  · rintro ⟨r, ha, hx⟩
    have he := rootSpec_unique hx h
    exact he ▸ ha
  · intro ha
    exact ⟨rx, ha, h⟩

/-- Effect of linking root `rx` beneath root `ry` on the common-root
relation: the classes of `rx` and `ry` merge, everything else persists. -/
theorem rootEqv_attach {parent : List ℕ} {rx ry : ℕ} (hrx : isRoot parent rx)
    (hry : isRoot parent ry) (hne : rx ≠ ry) (hlt : rx < parent.length) (a b : ℕ) :
    rootEqv (parent.set rx ry) a b ↔
      (rootEqv parent a b ∨
        (rootSpec parent a rx ∧ rootSpec parent b ry) ∨
        (rootSpec parent a ry ∧ rootSpec parent b rx)) := by
  constructor
  · rintro ⟨r, ha, hb⟩
    rw [rootSpec_attach hrx hry hne hlt] at ha hb
    rcases ha with ⟨ha, rfl⟩ | ⟨ha, hanrx⟩
    · rcases hb with ⟨hb, _⟩ | ⟨hb, hbnrx⟩
      · exact Or.inl ⟨rx, ha, hb⟩
      · exact Or.inr (Or.inl ⟨ha, hb⟩)
    · rcases hb with ⟨hb, he⟩ | ⟨hb, hbnrx⟩
      · subst he
        exact Or.inr (Or.inr ⟨ha, hb⟩)
      · exact Or.inl ⟨r, ha, hb⟩
  · rintro (⟨r, ha, hb⟩ | ⟨ha, hb⟩ | ⟨ha, hb⟩)
    · by_cases hr : r = rx
      · subst hr
        exact ⟨ry, (rootSpec_attach hrx hry hne hlt a ry).mpr (Or.inl ⟨ha, rfl⟩),
          (rootSpec_attach hrx hry hne hlt b ry).mpr (Or.inl ⟨hb, rfl⟩)⟩
      · exact ⟨r, (rootSpec_attach hrx hry hne hlt a r).mpr (Or.inr ⟨ha, hr⟩),
          (rootSpec_attach hrx hry hne hlt b r).mpr (Or.inr ⟨hb, hr⟩)⟩
    · exact ⟨ry, (rootSpec_attach hrx hry hne hlt a ry).mpr (Or.inl ⟨ha, rfl⟩),
        (rootSpec_attach hrx hry hne hlt b ry).mpr
          (Or.inr ⟨hb, fun he => hne he.symm⟩)⟩
    · exact ⟨ry, (rootSpec_attach hrx hry hne hlt a ry).mpr
          (Or.inr ⟨ha, fun he => hne he.symm⟩),
        (rootSpec_attach hrx hry hne hlt b ry).mpr (Or.inl ⟨hb, rfl⟩)⟩

theorem find_spec {n : ℕ} {uf : UnionFind} (hok : ufOk n uf) {x : ℕ} (hx : x < n) :
    ufOk n (uf.find x).1 ∧ (uf.find x).1.rank = uf.rank ∧
      (uf.find x).1.size = uf.size ∧
      (uf.find x).1.numComponents = uf.numComponents ∧
      rootSpec uf.parent x (uf.find x).2 ∧
      (∀ y z, rootSpec (uf.find x).1.parent y z ↔ rootSpec uf.parent y z) := by
  obtain ⟨hlen, hinv⟩ := hok
  have hx' : x < uf.parent.length := by omega
  obtain ⟨h1, h2, h3, h4⟩ := findAux_spec uf.parent.length uf.parent uf.rank hinv x hx'
    (ufMeasure_lt_len hinv hx')
  exact ⟨⟨by rw [show (uf.find x).1.parent = (findAux uf.parent.length uf.parent x).1
      from rfl, h1, hlen], h2⟩, rfl, rfl, rfl, h3, h4⟩

theorem unite_spec {n : ℕ} {uf : UnionFind} (hok : ufOk n uf) {x y : ℕ}
    (hx : x < n) (hy : y < n) :
    ufOk n (uf.unite x y).1 ∧
      ∀ a b, rootEqv (uf.unite x y).1.parent a b ↔
        (rootEqv uf.parent a b ∨
          (rootEqv uf.parent a x ∧ rootEqv uf.parent y b) ∨
          (rootEqv uf.parent a y ∧ rootEqv uf.parent x b)) := by
  obtain ⟨hok1, hrk1, _, _, hrsx, hiff1⟩ := find_spec hok hx
  obtain ⟨hok2, hrk2, _, _, hrsy1, hiff2⟩ := find_spec hok1 (show y < n from hy)
  set uf1 := (uf.find x).1 with huf1
  set rootX := (uf.find x).2 with hrootX
  set uf2 := (uf1.find y).1 with huf2
  set rootY := (uf1.find y).2 with hrootY
  have hlen0 : uf.parent.length = n := hok.1
  have hiff12 : ∀ a b, rootSpec uf2.parent a b ↔ rootSpec uf.parent a b := by
    intro a b
    rw [hiff2 a b, hiff1 a b]
  have hrsy : rootSpec uf.parent y rootY := (hiff1 _ _).mp hrsy1
  have hrsx2 : rootSpec uf2.parent x rootX := (hiff12 _ _).mpr hrsx
  have hrsy2 : rootSpec uf2.parent y rootY := (hiff12 _ _).mpr hrsy
  have hrootXroot : isRoot uf2.parent rootX := hrsx2.2
  have hrootYroot : isRoot uf2.parent rootY := hrsy2.2
  have hlen2 : uf2.parent.length = n := hok2.1
  have hrootXlt : rootX < n := by
    have := reaches_lt hok.2 (show x < uf.parent.length by omega) hrsx.1
    omega
  have hrootYlt : rootY < n := by
    have := reaches_lt hok.2 (show y < uf.parent.length by omega) hrsy.1
    omega
  -- translate the target relation through the two finds
  have htgt : ∀ a b, (rootEqv uf.parent a b ∨
      (rootEqv uf.parent a x ∧ rootEqv uf.parent y b) ∨
      (rootEqv uf.parent a y ∧ rootEqv uf.parent x b)) ↔
      (rootEqv uf2.parent a b ∨
        (rootSpec uf2.parent a rootX ∧ rootSpec uf2.parent b rootY) ∨
        (rootSpec uf2.parent a rootY ∧ rootSpec uf2.parent b rootX)) := by
    intro a b
    have e1 : rootEqv uf.parent a b ↔ rootEqv uf2.parent a b := by
      constructor
      · rintro ⟨r, h1', h2'⟩
        exact ⟨r, (hiff12 _ _).mpr h1', (hiff12 _ _).mpr h2'⟩
      · rintro ⟨r, h1', h2'⟩
        exact ⟨r, (hiff12 _ _).mp h1', (hiff12 _ _).mp h2'⟩
    have e2 : rootEqv uf.parent a x ↔ rootSpec uf2.parent a rootX := by
      rw [show rootEqv uf.parent a x ↔ rootSpec uf.parent a rootX from
        rootEqv_iff_to hrsx a]
      exact (hiff12 _ _).symm
    have e3 : rootEqv uf.parent y b ↔ rootSpec uf2.parent b rootY := by
      constructor
      · intro h
        exact (hiff12 _ _).mpr ((rootEqv_iff_to hrsy b).mp (rootEqv_symm h))
      · intro h
        exact rootEqv_symm ((rootEqv_iff_to hrsy b).mpr ((hiff12 _ _).mp h))
    have e4 : rootEqv uf.parent a y ↔ rootSpec uf2.parent a rootY := by
      rw [show rootEqv uf.parent a y ↔ rootSpec uf.parent a rootY from
        rootEqv_iff_to hrsy a]
      exact (hiff12 _ _).symm
    have e5 : rootEqv uf.parent x b ↔ rootSpec uf2.parent b rootX := by
      constructor
      · intro h
        exact (hiff12 _ _).mpr ((rootEqv_iff_to hrsx b).mp (rootEqv_symm h))
      · intro h
        exact rootEqv_symm ((rootEqv_iff_to hrsx b).mpr ((hiff12 _ _).mp h))
    rw [e1, e2, e3, e4, e5]
  by_cases heq : rootX = rootY
  · have hu : (uf.unite x y).1 = uf2 := by
      rw [UnionFind.unite]
      rw [← hrootX, ← huf1, ← hrootY, ← huf2, if_pos heq]
    rw [hu]
    refine ⟨hok2, fun a b => ?_⟩
    rw [htgt a b]
    constructor
    · exact Or.inl
    · rintro (h | ⟨h1', h2'⟩ | ⟨h1', h2'⟩)
      · exact h
      · exact ⟨rootY, heq ▸ h1', h2'⟩
      · exact ⟨rootY, h1', heq ▸ h2'⟩
  · by_cases hr1 : uf2.rank.getD rootX 0 < uf2.rank.getD rootY 0
    · have hu : (uf.unite x y).1 = { uf2 with
          parent := uf2.parent.set rootX rootY
          size := uf2.size.set rootY (uf2.size.getD rootY 0 + uf2.size.getD rootX 0)
          numComponents := uf2.numComponents - 1 } := by
        rw [UnionFind.unite]
        rw [← hrootX, ← huf1, ← hrootY, ← huf2, if_neg heq, if_pos hr1]
      rw [hu]
      constructor
      · exact ⟨by simp only [List.length_set]; exact hlen2,
          UFInv_attach_lt hok2.2 (by omega) (by omega) hr1⟩
      · intro a b
        rw [htgt a b]
        simp only
        rw [rootEqv_attach hrootXroot hrootYroot heq (by omega) a b]
    · have hne' : rootY ≠ rootX := fun he => heq he.symm
      by_cases hr2 : uf2.rank.getD rootY 0 < uf2.rank.getD rootX 0
      · have hu : (uf.unite x y).1 = { uf2 with
            parent := uf2.parent.set rootY rootX
            size := uf2.size.set rootX (uf2.size.getD rootX 0 + uf2.size.getD rootY 0)
            numComponents := uf2.numComponents - 1 } := by
          rw [UnionFind.unite]
          rw [← hrootX, ← huf1, ← hrootY, ← huf2, if_neg heq, if_neg hr1, if_pos hr2]
        rw [hu]
        constructor
        · exact ⟨by simp only [List.length_set]; exact hlen2,
            UFInv_attach_lt hok2.2 (by omega) (by omega) hr2⟩
        · intro a b
          rw [htgt a b]
          simp only
          rw [rootEqv_attach hrootYroot hrootXroot hne' (by omega) a b]
          constructor
          · rintro (h | ⟨h1', h2'⟩ | ⟨h1', h2'⟩)
            · exact Or.inl h
            · exact Or.inr (Or.inr ⟨h1', h2'⟩)
            · exact Or.inr (Or.inl ⟨h1', h2'⟩)
          · rintro (h | ⟨h1', h2'⟩ | ⟨h1', h2'⟩)
            · exact Or.inl h
            · exact Or.inr (Or.inr ⟨h1', h2'⟩)
            · exact Or.inr (Or.inl ⟨h1', h2'⟩)
      · have hu : (uf.unite x y).1 = { uf2 with
            parent := uf2.parent.set rootY rootX
            size := uf2.size.set rootX (uf2.size.getD rootX 0 + uf2.size.getD rootY 0)
            rank := uf2.rank.set rootX (uf2.rank.getD rootX 0 + 1)
            numComponents := uf2.numComponents - 1 } := by
          rw [UnionFind.unite]
          rw [← hrootX, ← huf1, ← hrootY, ← huf2, if_neg heq, if_neg hr1, if_neg hr2]
        rw [hu]
        constructor
        · refine ⟨by simp only [List.length_set]; exact hlen2, ?_⟩
          exact UFInv_attach_bump hok2.2 hrootXroot (by omega) (by omega) hne'.symm
            (by omega)
        · intro a b
          rw [htgt a b]
          simp only
          rw [rootEqv_attach hrootYroot hrootXroot hne' (by omega) a b]
          constructor
          · rintro (h | ⟨h1', h2'⟩ | ⟨h1', h2'⟩)
            · exact Or.inl h
            · exact Or.inr (Or.inr ⟨h1', h2'⟩)
            · exact Or.inr (Or.inl ⟨h1', h2'⟩)
          · rintro (h | ⟨h1', h2'⟩ | ⟨h1', h2'⟩)
            · exact Or.inl h
            · exact Or.inr (Or.inr ⟨h1', h2'⟩)
            · exact Or.inr (Or.inl ⟨h1', h2'⟩)

theorem rootEqv_refl {parent rank : List ℕ} (hinv : UFInv parent rank) (a : ℕ) :
    rootEqv parent a a := by
  by_cases ha : a < parent.length
  · exact ⟨rootD parent a, rootD_spec hinv ha, rootD_spec hinv ha⟩
  · have hroot : isRoot parent a := by
      rw [isRoot, List.getD_eq_getElem?_getD, List.getElem?_eq_none (by omega)]
      rfl
    exact ⟨a, ⟨Relation.ReflTransGen.refl, hroot⟩, ⟨Relation.ReflTransGen.refl, hroot⟩⟩

theorem getD_range {n a d : ℕ} (h : a < n) : (List.range n).getD a d = a := by
  rw [List.getD_eq_getElem?_getD, List.getElem?_range h]
  rfl

theorem ufOk_init (n : ℕ) : ufOk n (UnionFind.init n) := by
  refine ⟨by rw [UnionFind.init]; exact List.length_range n, ?_, ?_⟩
  · rw [UnionFind.init]
    simp
  · intro x hx
    rw [UnionFind.init] at hx ⊢
    simp only [List.length_range] at hx
    rw [getD_range hx]
    constructor
    · simpa using hx
    · intro h
      exact absurd rfl h

theorem rootEqv_init {n : ℕ} (a b : ℕ) :
    rootEqv (UnionFind.init n).parent a b ↔ a = b := by
  have hroot : ∀ c, isRoot (UnionFind.init n).parent c := by
    intro c
    rw [UnionFind.init, isRoot]
    by_cases hc : c < n
    · rw [getD_range hc]
    · rw [List.getD_eq_getElem?_getD, List.getElem?_eq_none]
      · rfl
      · rw [List.length_range]
        omega
  constructor
  · rintro ⟨r, ha, hb⟩
    have h1 := reaches_of_root (hroot a) ha.1
    have h2 := reaches_of_root (hroot b) hb.1
    omega
  · rintro rfl
    exact ⟨a, ⟨Relation.ReflTransGen.refl, hroot a⟩, ⟨Relation.ReflTransGen.refl, hroot a⟩⟩

theorem setSize_spec {n : ℕ} {uf : UnionFind} (hok : ufOk n uf) {x : ℕ} (hx : x < n)
    (s : ℤ) :
    ufOk n (uf.setSize x s) ∧ (uf.setSize x s).rank = uf.rank ∧
      (∀ a b, rootSpec (uf.setSize x s).parent a b ↔ rootSpec uf.parent a b) := by
  obtain ⟨hok1, hrk, _, _, _, hiff⟩ := find_spec hok hx
  have hparent : (uf.setSize x s).parent = (uf.find x).1.parent := rfl
  have hrank : (uf.setSize x s).rank = (uf.find x).1.rank := rfl
  refine ⟨⟨?_, ?_⟩, ?_, ?_⟩
  · rw [hparent]
    exact hok1.1
  · rw [hparent, hrank]
    exact hok1.2
  · rw [hrank, hrk]
  · intro a b
    rw [hparent]
    exact hiff a b

theorem setSizeFold_spec {n : ℕ} (f : ℕ → ℤ) :
    ∀ (l : List ℕ) (uf : UnionFind), ufOk n uf → (∀ i ∈ l, i < n) →
      ufOk n (l.foldl (fun uf i => uf.setSize i (f i)) uf) ∧
      ∀ a b, rootSpec (l.foldl (fun uf i => uf.setSize i (f i)) uf).parent a b ↔
        rootSpec uf.parent a b := by
  intro l
  induction l with
  | nil => intro uf hok _; exact ⟨hok, fun a b => Iff.rfl⟩
  | cons i l ih =>
    intro uf hok hmem
    obtain ⟨hok1, _, hiff1⟩ := setSize_spec hok (hmem i (List.mem_cons_self _ _)) (f i)
    obtain ⟨hok2, hiff2⟩ := ih _ hok1 (fun j hj => hmem j (List.mem_cons_of_mem _ hj))
    refine ⟨hok2, fun a b => ?_⟩
    rw [List.foldl_cons] at *
    rw [hiff2 a b, hiff1 a b]

/-- `c—d` is one of the (adjacency-passing) pairs of `L`, in either
orientation. -/
def EdgeIn (anom : List RegionTreeNode) (L : List (ℕ × ℕ)) (c d : ℕ) : Prop :=
  ∃ pr ∈ L,
    areAdjacent (anom.getD pr.1 default).bounds (anom.getD pr.2 default).bounds = true ∧
    ((c, d) = pr ∨ (d, c) = pr)

theorem rtg_lift {α : Type} {r s : α → α → Prop}
    (h : ∀ c d, r c d → Relation.ReflTransGen s c d) :
    ∀ {a b}, Relation.ReflTransGen r a b → Relation.ReflTransGen s a b := by
  intro a b hab
  induction hab with
  | refl => exact Relation.ReflTransGen.refl
  | tail _ hcd ih => exact Relation.ReflTransGen.trans ih (h _ _ hcd)

/-- Running the pair loop computes the equivalence generated by the
processed edges on top of the incoming root assignment. -/
theorem ufPairFold_spec (anom : List RegionTreeNode) (n : ℕ) :
    ∀ (L : List (ℕ × ℕ)) (uf : UnionFind), ufOk n uf →
      (∀ pr ∈ L, pr.1 < n ∧ pr.2 < n) →
      ufOk n (L.foldl (ufPairStep anom) uf) ∧
      ∀ a b, rootEqv (L.foldl (ufPairStep anom) uf).parent a b ↔
        Relation.ReflTransGen
          (fun c d => rootEqv uf.parent c d ∨ EdgeIn anom L c d) a b := by
  intro L
  induction L with
  | nil =>
    intro uf hok _
    refine ⟨hok, fun a b => ?_⟩
    rw [List.foldl_nil]
    constructor
    · intro h
      exact Relation.ReflTransGen.single (Or.inl h)
    · intro h
      induction h with
      | refl => exact rootEqv_refl hok.2 a
      | tail _ hcd ih =>
        rcases hcd with hcd | hcd
        · exact rootEqv_trans ih hcd
        · obtain ⟨q, hq, _⟩ := hcd
          simp at hq
  | cons pr L ih =>
    intro uf hok hmem
    obtain ⟨i, j⟩ := pr
    obtain ⟨hi, hj⟩ := hmem (i, j) (List.mem_cons_self _ _)
    rw [List.foldl_cons]
    by_cases hadj : areAdjacent (anom.getD i default).bounds (anom.getD j default).bounds
      = true
    · have hstep : ufPairStep anom uf (i, j) = (uf.unite i j).1 := by
        rw [ufPairStep, if_pos hadj]
      rw [hstep]
      obtain ⟨hok', hchar⟩ := unite_spec hok hi hj
      obtain ⟨hok'', hiff⟩ := ih _ hok' (fun q hq => hmem q (List.mem_cons_of_mem _ hq))
      refine ⟨hok'', fun a b => ?_⟩
      rw [hiff a b]
      constructor
      · refine rtg_lift ?_
        rintro c d (hcd | hcd)
        · rw [hchar c d] at hcd
          rcases hcd with h | ⟨h1, h2⟩ | ⟨h1, h2⟩
          · exact Relation.ReflTransGen.single (Or.inl h)
          · refine Relation.ReflTransGen.trans
              (Relation.ReflTransGen.single (Or.inl h1))
              (Relation.ReflTransGen.trans (Relation.ReflTransGen.single
                (Or.inr ⟨(i, j), List.mem_cons_self _ _, hadj, Or.inl rfl⟩))
                (Relation.ReflTransGen.single (Or.inl h2)))
          · refine Relation.ReflTransGen.trans
              (Relation.ReflTransGen.single (Or.inl h1))
              (Relation.ReflTransGen.trans (Relation.ReflTransGen.single
                (Or.inr ⟨(i, j), List.mem_cons_self _ _, hadj, Or.inr rfl⟩))
                (Relation.ReflTransGen.single (Or.inl h2)))
        · obtain ⟨q, hq, hqa, hqe⟩ := hcd
          exact Relation.ReflTransGen.single
            (Or.inr ⟨q, List.mem_cons_of_mem _ hq, hqa, hqe⟩)
      · refine rtg_lift ?_
        rintro c d (hcd | hcd)
        · refine Relation.ReflTransGen.single (Or.inl ?_)
          rw [hchar c d]
          exact Or.inl hcd
        · obtain ⟨q, hq, hqa, hqe⟩ := hcd
          rcases List.mem_cons.mp hq with rfl | hq
          · rcases hqe with he | he
            · rw [Prod.mk.injEq] at he
              obtain ⟨rfl, rfl⟩ := he
              refine Relation.ReflTransGen.single (Or.inl ?_)
              rw [hchar c d]
              exact Or.inr (Or.inl ⟨rootEqv_refl hok.2 c, rootEqv_refl hok.2 d⟩)
            · rw [Prod.mk.injEq] at he
              obtain ⟨rfl, rfl⟩ := he
              refine Relation.ReflTransGen.single (Or.inl ?_)
              rw [hchar c d]
              exact Or.inr (Or.inr ⟨rootEqv_refl hok.2 c, rootEqv_refl hok.2 d⟩)
          · exact Relation.ReflTransGen.single (Or.inr ⟨q, hq, hqa, hqe⟩)
    · have hstep : ufPairStep anom uf (i, j) = uf := by
        rw [ufPairStep, if_neg hadj]
      rw [hstep]
      obtain ⟨hok', hiff⟩ := ih uf hok (fun q hq => hmem q (List.mem_cons_of_mem _ hq))
      refine ⟨hok', fun a b => ?_⟩
      rw [hiff a b]
      constructor
      · refine rtg_lift ?_
        rintro c d (hcd | hcd)
        · exact Relation.ReflTransGen.single (Or.inl hcd)
        · obtain ⟨q, hq, hqa, hqe⟩ := hcd
          exact Relation.ReflTransGen.single
            (Or.inr ⟨q, List.mem_cons_of_mem _ hq, hqa, hqe⟩)
      · refine rtg_lift ?_
        rintro c d (hcd | hcd)
        · exact Relation.ReflTransGen.single (Or.inl hcd)
        · obtain ⟨q, hq, hqa, hqe⟩ := hcd
          rcases List.mem_cons.mp hq with rfl | hq
          · rcases hqe with he | he
            · rw [Prod.mk.injEq] at he
              obtain ⟨rfl, rfl⟩ := he
              exact absurd hqa hadj
            · rw [Prod.mk.injEq] at he
              obtain ⟨rfl, rfl⟩ := he
              exact absurd hqa hadj
          · exact Relation.ReflTransGen.single (Or.inr ⟨q, hq, hqa, hqe⟩)

/-- The connectivity relation both component finders compute: chains of
`adjAt` steps. -/
def Conn (anom : List RegionTreeNode) (n : ℕ) : ℕ → ℕ → Prop :=
  Relation.ReflTransGen (fun c d => d ∈ adjAt anom n c)

theorem mem_adjAt {anom : List RegionTreeNode} {n u v : ℕ} :
    v ∈ adjAt anom n u ↔
      ((v < u ∧ areAdjacent (anom.getD v default).bounds (anom.getD u default).bounds
          = true)
        ∨ (u < v ∧ v < n ∧
            areAdjacent (anom.getD u default).bounds (anom.getD v default).bounds
              = true)) := by
  rw [adjAt, List.mem_append]
  simp only [List.mem_filter, List.mem_range, List.mem_range'_1]
  constructor
  · rintro (⟨h1, h2⟩ | ⟨h1, h2⟩)
    · exact Or.inl ⟨h1, h2⟩
    · exact Or.inr ⟨by omega, by omega, h2⟩
  · rintro (⟨h1, h2⟩ | ⟨h1, h2, h3⟩)
    · exact Or.inl ⟨h1, h2⟩
    · exact Or.inr ⟨⟨by omega, by omega⟩, h3⟩

theorem adjAt_lt {anom : List RegionTreeNode} {n u v : ℕ} (hu : u < n)
    (h : v ∈ adjAt anom n u) : v < n := by
  rcases mem_adjAt.mp h with ⟨h1, _⟩ | ⟨_, h2, _⟩
  · omega
  · exact h2

theorem adjAt_symm {anom : List RegionTreeNode} {n u v : ℕ} (hu : u < n)
    (h : v ∈ adjAt anom n u) : u ∈ adjAt anom n v := by
  rcases mem_adjAt.mp h with ⟨h1, h2⟩ | ⟨h1, h2, h3⟩
  · exact mem_adjAt.mpr (Or.inr ⟨h1, hu, h2⟩)
  · exact mem_adjAt.mpr (Or.inl ⟨h1, h3⟩)

theorem adjAt_length_le {anom : List RegionTreeNode} {n u : ℕ} (hu : u < n) :
    (adjAt anom n u).length + 1 ≤ n := by
  rw [adjAt, List.length_append]
  have h1 := List.length_filter_le (fun v =>
    areAdjacent (anom.getD v default).bounds (anom.getD u default).bounds) (List.range u)
  have h2 := List.length_filter_le (fun v =>
    areAdjacent (anom.getD u default).bounds (anom.getD v default).bounds)
    (List.range' (u + 1) (n - (u + 1)))
  rw [List.length_range] at h1
  rw [List.length_range'] at h2
  omega

theorem conn_lt {anom : List RegionTreeNode} {n a b : ℕ} (ha : a < n)
    (h : Conn anom n a b) : b < n := by
  induction h with
  | refl => exact ha
  | tail _ hcd ih => exact adjAt_lt ih hcd

theorem conn_symm {anom : List RegionTreeNode} {n a b : ℕ} (ha : a < n)
    (h : Conn anom n a b) : Conn anom n b a := by
  induction h with
  | refl => exact Relation.ReflTransGen.refl
  | tail hac hcd ih =>
    rename_i c d
    exact Relation.ReflTransGen.head (adjAt_symm (conn_lt ha hac) hcd) ih

theorem mem_allPairs {n : ℕ} {pr : ℕ × ℕ} :
    pr ∈ allPairs n ↔ pr.1 < pr.2 ∧ pr.2 < n := by
  rw [allPairs, List.mem_flatMap]
  constructor
  · rintro ⟨i, hi, hpr⟩
    rw [List.mem_range] at hi
    obtain ⟨j, hj, rfl⟩ := List.mem_map.mp hpr
    rw [List.mem_range'_1] at hj
    exact ⟨by omega, by omega⟩
  · rintro ⟨h1, h2⟩
    refine ⟨pr.1, by rw [List.mem_range]; omega, ?_⟩
    rw [List.mem_map]
    refine ⟨pr.2, by rw [List.mem_range'_1]; omega, rfl⟩

theorem edgeIn_lt {anom : List RegionTreeNode} {n c d : ℕ}
    (h : EdgeIn anom (allPairs n) c d) : c < n ∧ d < n := by
  obtain ⟨pr, hpr, _, he⟩ := h
  obtain ⟨h1, h2⟩ := mem_allPairs.mp hpr
  rcases he with he | he
  · rw [Prod.ext_iff] at he
    obtain ⟨he1, he2⟩ := he
    simp only at he1 he2
    omega
  · rw [Prod.ext_iff] at he
    obtain ⟨he1, he2⟩ := he
    simp only at he1 he2
    omega

theorem edgeIn_allPairs {anom : List RegionTreeNode} {n c d : ℕ} (hc : c < n) :
    EdgeIn anom (allPairs n) c d ↔ d ∈ adjAt anom n c := by
  constructor
  · rintro ⟨pr, hpr, hadj, he | he⟩
    · obtain ⟨h1, h2⟩ := mem_allPairs.mp hpr
      rw [Prod.ext_iff] at he
      obtain ⟨he1, he2⟩ := he
      simp only at he1 he2
      subst he1
      subst he2
      exact mem_adjAt.mpr (Or.inr ⟨h1, h2, hadj⟩)
    · obtain ⟨h1, h2⟩ := mem_allPairs.mp hpr
      rw [Prod.ext_iff] at he
      obtain ⟨he1, he2⟩ := he
      simp only at he1 he2
      subst he1
      subst he2
      exact mem_adjAt.mpr (Or.inl ⟨h1, hadj⟩)
  · intro h
    rcases mem_adjAt.mp h with ⟨h1, h2⟩ | ⟨h1, h2, h3⟩
    · exact ⟨(d, c), mem_allPairs.mpr ⟨h1, hc⟩, h2, Or.inr rfl⟩
    · exact ⟨(c, d), mem_allPairs.mpr ⟨h1, h2⟩, h3, Or.inl rfl⟩

theorem rtg_collapse_eq {r : ℕ → ℕ → Prop} {a b : ℕ} :
    Relation.ReflTransGen (fun c d => c = d ∨ r c d) a b ↔
      Relation.ReflTransGen r a b := by
  constructor
  · refine rtg_lift ?_
    rintro c d (rfl | hcd)
    · exact Relation.ReflTransGen.refl
    · exact Relation.ReflTransGen.single hcd
  · refine rtg_lift ?_
    intro c d hcd
    exact Relation.ReflTransGen.single (Or.inr hcd)

theorem edge_rtg_conn {anom : List RegionTreeNode} {n a b : ℕ} :
    Relation.ReflTransGen (EdgeIn anom (allPairs n)) a b ↔
      (a = b ∨ (a < n ∧ Conn anom n a b)) := by
  constructor
  · intro h
    induction h with
    | refl => exact Or.inl rfl
    | tail hac hcd ih =>
      rename_i c d
      obtain ⟨hc, hd⟩ := edgeIn_lt hcd
      have hstep : d ∈ adjAt anom n c := (edgeIn_allPairs hc).mp hcd
      rcases ih with rfl | ⟨ha, hconn⟩
      · exact Or.inr ⟨hc, Relation.ReflTransGen.single hstep⟩
      · exact Or.inr ⟨ha, Relation.ReflTransGen.tail hconn hstep⟩
  · rintro (rfl | ⟨ha, hconn⟩)
    · exact Relation.ReflTransGen.refl
    · induction hconn with
      | refl => exact Relation.ReflTransGen.refl
      | tail hac hcd ih =>
        rename_i c d
        have hc : c < n := conn_lt ha hac
        exact Relation.ReflTransGen.tail ih ((edgeIn_allPairs hc).mpr hcd)

theorem perm_of_nodup_mem_iff {l1 l2 : List ℕ} (h1 : l1.Nodup) (h2 : l2.Nodup)
    (h : ∀ a, a ∈ l1 ↔ a ∈ l2) : l1.Perm l2 := by
  rw [List.perm_iff_count]
  intro a
  by_cases ha : a ∈ l1
  · rw [List.count_eq_one_of_mem h1 ha, List.count_eq_one_of_mem h2 ((h a).mp ha)]
  · rw [List.count_eq_zero_of_not_mem ha,
      List.count_eq_zero_of_not_mem (fun hb => ha ((h a).mpr hb))]

/-- Number of unvisited entries: the decreasing part of the DFS measure. -/
def countFalse (l : List Bool) : ℕ := l.countP (fun b => !b)

theorem countFalse_le (l : List Bool) : countFalse l ≤ l.length :=
  List.countP_le_length _

theorem countFalse_set (l : List Bool) : ∀ (u : ℕ), u < l.length →
    l.getD u false = false → countFalse (l.set u true) + 1 = countFalse l := by
  induction l with
  | nil => intro u hu _; simp at hu
  | cons x xs ih =>
    intro u hu hget
    cases u with
    | zero =>
      simp only [List.getD_cons_zero] at hget
      subst hget
      rw [show (false :: xs).set 0 true = true :: xs from rfl, countFalse, countFalse,
        List.countP_cons, List.countP_cons]
      simp
    | succ u =>
      simp only [List.getD_cons_succ] at hget
      rw [show (x :: xs).set (u + 1) true = x :: xs.set u true from rfl, countFalse,
        countFalse, List.countP_cons, List.countP_cons]
      have hlen : u < xs.length := by
        simp only [List.length_cons] at hu
        omega
      have := ih u hlen hget
      rw [countFalse, countFalse] at this
      omega

/-- Master lemma for the DFS stack loop: with enough fuel, the loop
terminates and collects exactly the unvisited part of `start`'s connected
component, marking it visited. -/
theorem dfsLoop_master (anom : List RegionTreeNode) (n : ℕ) (start : ℕ)
    (visited0 : List Bool) (hstart : start < n)
    (hs0 : visited0.getD start false = false) :
    ∀ (fuel : ℕ) (visited : List Bool) (stack acc : List ℕ),
      visited.length = n →
      (∀ v ∈ stack, v < n ∧ Conn anom n start v) →
      (∀ v ∈ acc, v < n ∧ Conn anom n start v) →
      acc.Nodup →
      (∀ v, v < n → (visited.getD v false = true ↔
        (visited0.getD v false = true ∨ v ∈ acc))) →
      (∀ a ∈ acc, ∀ b ∈ adjAt anom n a, visited.getD b false = true ∨ b ∈ stack) →
      (start ∈ acc ∨ start ∈ stack) →
      stack.length + countFalse visited * (n + 1) < fuel →
      ∃ visited2 acc2,
        dfsLoop (fun u => adjAt anom n u) fuel visited stack acc
            = some (visited2, acc2) ∧
        visited2.length = n ∧
        acc2.Nodup ∧
        (∀ v ∈ acc2, v < n ∧ Conn anom n start v) ∧
        (∀ v, v < n → (visited2.getD v false = true ↔
          (visited0.getD v false = true ∨ v ∈ acc2))) ∧
        (∀ a ∈ acc2, ∀ b ∈ adjAt anom n a, visited2.getD b false = true) ∧
        start ∈ acc2 ∧
        (∀ v ∈ acc, v ∈ acc2) := by
  intro fuel
  induction fuel with
  | zero => intro visited stack acc _ _ _ _ _ _ _ hm; exact absurd hm (Nat.not_lt_zero _)
  | succ fuel ih =>
    intro visited stack acc hlen hstack hacc hnd he hf hg hm
    match stack with
    | [] =>
      refine ⟨visited, acc, rfl, hlen, hnd, hacc, he, ?_, ?_, fun v hv => hv⟩
      · intro a ha b hb
        rcases hf a ha b hb with h | h
        · exact h
        · simp at h
      · rcases hg with h | h
        · exact h
        · simp at h
    | u :: rest =>
      obtain ⟨hu, hconnu⟩ := hstack u (List.mem_cons_self _ _)
      by_cases hvu : visited.getD u false = true
      · have heq : dfsLoop (fun u => adjAt anom n u) (fuel + 1) visited (u :: rest) acc
            = dfsLoop (fun u => adjAt anom n u) fuel visited rest acc := by
          rw [dfsLoop, if_pos hvu]
        rw [heq]
        refine ih visited rest acc hlen
          (fun v hv => hstack v (List.mem_cons_of_mem _ hv)) hacc hnd he ?_ ?_ ?_
        · intro a ha b hb
          rcases hf a ha b hb with h | h
          · exact Or.inl h
          · rcases List.mem_cons.mp h with rfl | h
            · exact Or.inl hvu
            · exact Or.inr h
        · rcases hg with h | h
          · exact Or.inl h
          · rcases List.mem_cons.mp h with rfl | h
            · rcases (he start hstart).mp hvu with h' | h'
              · rw [hs0] at h'
                simp at h'
              · exact Or.inl h'
            · exact Or.inr h
        · simp only [List.length_cons] at hm
          omega
      · have hvu' : visited.getD u false = false := by
          cases hb : visited.getD u false
          · rfl
          · exact absurd hb hvu
        have heq : dfsLoop (fun u => adjAt anom n u) (fuel + 1) visited (u :: rest) acc
            = dfsLoop (fun u => adjAt anom n u) fuel (visited.set u true)
              (((adjAt anom n u).filter
                (fun v => !visited.getD v false)).reverse ++ rest) (acc ++ [u]) := by
          rw [dfsLoop, if_neg (by rw [hvu']; simp)]
        rw [heq]
        have hunotacc : u ∉ acc := by
          intro hmem
          rw [(he u hu).mpr (Or.inr hmem)] at hvu'
          simp at hvu'
        have hcf := countFalse_set visited u (by omega) hvu'
        have hadjlen : (adjAt anom n u).length + 1 ≤ n := adjAt_length_le hu
        have hb' : ∀ v ∈ (((adjAt anom n u).filter
            (fun v => !visited.getD v false)).reverse ++ rest),
            v < n ∧ Conn anom n start v := by
          intro v hv
          rcases List.mem_append.mp hv with hv | hv
          · rw [List.mem_reverse, List.mem_filter] at hv
            exact ⟨adjAt_lt hu hv.1, Relation.ReflTransGen.tail hconnu hv.1⟩
          · exact hstack v (List.mem_cons_of_mem _ hv)
        have hc' : ∀ v ∈ acc ++ [u], v < n ∧ Conn anom n start v := by
          intro v hv
          rcases List.mem_append.mp hv with hv | hv
          · exact hacc v hv
          · rw [List.mem_singleton] at hv
            subst hv
            exact ⟨hu, hconnu⟩
        have hd' : (acc ++ [u]).Nodup := by
          rw [List.nodup_append]
          exact ⟨hnd, List.nodup_singleton u, by
            intro v hv hv'
            rw [List.mem_singleton] at hv'
            subst hv'
            exact hunotacc hv⟩
        have he' : ∀ v, v < n → ((visited.set u true).getD v false = true ↔
            (visited0.getD v false = true ∨ v ∈ acc ++ [u])) := by
          intro v hv
          by_cases hvequ : v = u
          · subst hvequ
            rw [getD_set_self visited v true false (by omega)]
            simp
          · rw [getD_set_ne visited u v true false (fun h => hvequ h.symm), he v hv]
            constructor
            · rintro (h | h)
              · exact Or.inl h
              · exact Or.inr (List.mem_append_left _ h)
            · rintro (h | h)
              · exact Or.inl h
              · rcases List.mem_append.mp h with h | h
                · exact Or.inr h
                · rw [List.mem_singleton] at h
                  exact absurd h hvequ
        have hf' : ∀ a ∈ acc ++ [u], ∀ b ∈ adjAt anom n a,
            (visited.set u true).getD b false = true ∨
            b ∈ (((adjAt anom n u).filter
              (fun v => !visited.getD v false)).reverse ++ rest) := by
          intro a ha b hb
          rcases List.mem_append.mp ha with ha | ha
          · rcases hf a ha b hb with h | h
            · left
              by_cases hbequ : b = u
              · subst hbequ
                rw [getD_set_self visited b true false (by omega)]
              · rw [getD_set_ne visited u b true false (fun h' => hbequ h'.symm)]
                exact h
            · rcases List.mem_cons.mp h with rfl | h
              · left
                rw [getD_set_self visited b true false (by omega)]
              · right
                exact List.mem_append_right _ h
          · rw [List.mem_singleton] at ha
            subst ha
            by_cases hbv : visited.getD b false = true
            · left
              by_cases hbequ : b = a
              · subst hbequ
                rw [getD_set_self visited b true false (by omega)]
              · rw [getD_set_ne visited a b true false (fun h' => hbequ h'.symm)]
                exact hbv
            · right
              refine List.mem_append_left _ ?_
              rw [List.mem_reverse, List.mem_filter]
              refine ⟨hb, ?_⟩
              cases hb' : visited.getD b false
              · rfl
              · exact absurd hb' hbv
        have hg' : start ∈ acc ++ [u] ∨ start ∈ (((adjAt anom n u).filter
            (fun v => !visited.getD v false)).reverse ++ rest) := by
          rcases hg with h | h
          · exact Or.inl (List.mem_append_left _ h)
          · rcases List.mem_cons.mp h with rfl | h
            · exact Or.inl (List.mem_append_right _ (List.mem_singleton_self _))
            · exact Or.inr (List.mem_append_right _ h)
        have hm' : (((adjAt anom n u).filter
            (fun v => !visited.getD v false)).reverse ++ rest).length
            + countFalse (visited.set u true) * (n + 1) < fuel := by
          have hst : (((adjAt anom n u).filter
              (fun v => !visited.getD v false)).reverse ++ rest).length
              ≤ (adjAt anom n u).length + rest.length := by
            rw [List.length_append, List.length_reverse]
            have := List.length_filter_le (fun v => !visited.getD v false)
              (adjAt anom n u)
            omega
          have hprod : countFalse (visited.set u true) * (n + 1) + (n + 1)
              = countFalse visited * (n + 1) := by
            rw [← hcf]
            ring
          simp only [List.length_cons] at hm
          omega
        obtain ⟨v2, a2, hrun, h1, h2, h3, h4, h5, h6, h7⟩ := ih (visited.set u true)
          (((adjAt anom n u).filter (fun v => !visited.getD v false)).reverse ++ rest)
          (acc ++ [u]) (by rw [List.length_set]; exact hlen) hb' hc' hd' he' hf' hg' hm'
        exact ⟨v2, a2, hrun, h1, h2, h3, h4, h5, h6,
          fun v hv => h7 v (List.mem_append_left _ hv)⟩

theorem visited_propagate (anom : List RegionTreeNode) (n : ℕ) (visited0 : List Bool)
    (hclosed : ∀ a, a < n → visited0.getD a false = true →
      ∀ b ∈ adjAt anom n a, visited0.getD b false = true) :
    ∀ a b, Conn anom n a b → a < n → visited0.getD a false = true →
      visited0.getD b false = true := by
  intro a b h ha hva
  induction h with
  | refl => exact hva
  | tail hac hcd ih =>
    rename_i c d
    exact hclosed c (conn_lt ha hac) ih d hcd

/-- A fresh DFS from an unvisited `start` over a visited set closed under
adjacency collects exactly `start`'s connected component. -/
theorem dfsRun_spec (anom : List RegionTreeNode) (n start : ℕ) (hstart : start < n)
    (visited0 : List Bool) (hv0len : visited0.length = n)
    (hclosed : ∀ a, a < n → visited0.getD a false = true →
      ∀ b ∈ adjAt anom n a, visited0.getD b false = true)
    (hs0 : visited0.getD start false = false) :
    ∃ visited2 acc2,
      dfsLoop (fun u => adjAt anom n u) ((n + 1) * (n + 1)) visited0 [start] []
          = some (visited2, acc2) ∧
      visited2.length = n ∧ acc2.Nodup ∧
      (∀ v, v ∈ acc2 ↔ (v < n ∧ Conn anom n start v)) ∧
      (∀ v, v < n → (visited2.getD v false = true ↔
        (visited0.getD v false = true ∨ v ∈ acc2))) := by
  obtain ⟨v2, a2, hrun, h1, h2, h3, h4, h5, h6, _⟩ := dfsLoop_master anom n start visited0
    hstart hs0 ((n + 1) * (n + 1)) visited0 [start] [] hv0len
    (by
      intro v hv
      rw [List.mem_singleton] at hv
      subst hv
      exact ⟨hstart, Relation.ReflTransGen.refl⟩)
    (by intro v hv; simp at hv)
    List.nodup_nil
    (by intro v _; simp)
    (by intro a ha; simp at ha)
    (Or.inr (List.mem_singleton_self _))
    (by
      have hcle : countFalse visited0 ≤ n := by
        rw [← hv0len]
        exact countFalse_le _
      have hmul : countFalse visited0 * (n + 1) ≤ n * (n + 1) :=
        Nat.mul_le_mul_right _ hcle
      have hexp : (n + 1) * (n + 1) = n * (n + 1) + (n + 1) := by ring
      simp only [List.length_cons, List.length_nil]
      omega)
  refine ⟨v2, a2, hrun, h1, h2, ?_, h4⟩
  intro v
  constructor
  · intro hv
    exact h3 v hv
  · rintro ⟨hvn, hconn⟩
    revert hvn
    induction hconn with
    | refl => intro _; exact h6
    | tail hac hcd ih =>
      rename_i c d
      intro hd
      have hc : c < n := conn_lt hstart hac
      have hvis2 := h5 c (ih hc) d hcd
      rcases (h4 d hd).mp hvis2 with hvis | hmem
      · exfalso
        have hds : Conn anom n d start :=
          conn_symm hstart (Relation.ReflTransGen.tail hac hcd)
        have := visited_propagate anom n visited0 hclosed d start hds hd hvis
        rw [hs0] at this
        simp at this
      · exact hmem

theorem rootD_eq_iff {n : ℕ} {uf : UnionFind} (hok : ufOk n uf) {a b : ℕ}
    (ha : a < n) (hb : b < n) :
    rootD uf.parent a = rootD uf.parent b ↔ rootEqv uf.parent a b := by
  have hlen := hok.1
  have hsa := rootD_spec hok.2 (show a < uf.parent.length by omega)
  have hsb := rootD_spec hok.2 (show b < uf.parent.length by omega)
  constructor
  · intro h
    exact ⟨rootD uf.parent b, h ▸ hsa, hsb⟩
  · rintro ⟨r, h1, h2⟩
    rw [rootSpec_unique hsa h1, rootSpec_unique hsb h2]

theorem rootD_congr {p1 p2 rank1 rank2 : List ℕ} (hinv1 : UFInv p1 rank1)
    (hinv2 : UFInv p2 rank2) (hlen : p1.length = p2.length)
    (hiff : ∀ a b, rootSpec p1 a b ↔ rootSpec p2 a b) {j : ℕ} (hj : j < p1.length) :
    rootD p1 j = rootD p2 j := by
  have h1 := rootD_spec hinv1 hj
  have h2 := rootD_spec hinv2 (show j < p2.length by omega)
  exact rootSpec_unique ((hiff _ _).mpr ((hiff _ _).mp h1)) ((hiff _ _).mpr h2)

theorem ufAfterPairs_spec (anom : List RegionTreeNode) (n : ℕ) :
    ufOk n (ufAfterPairs anom n) ∧
    ∀ a b, a < n → b < n →
      (rootEqv (ufAfterPairs anom n).parent a b ↔ (a = b ∨ Conn anom n a b)) := by
  obtain ⟨hok1, hiff1⟩ := setSizeFold_spec
    (fun i => (anom.getD i default).bounds.area) (List.range n) (UnionFind.init n)
    (ufOk_init n) (by intro i hi; rw [List.mem_range] at hi; exact hi)
  obtain ⟨hok2, hchar⟩ := ufPairFold_spec anom n (allPairs n) _ hok1
    (by
      intro pr hpr
      exact ⟨by have := mem_allPairs.mp hpr; omega, (mem_allPairs.mp hpr).2⟩)
  refine ⟨hok2, fun a b ha hb => ?_⟩
  rw [show rootEqv (ufAfterPairs anom n).parent a b
    ↔ rootEqv ((allPairs n).foldl (ufPairStep anom)
      ((List.range n).foldl (fun uf i => uf.setSize i (anom.getD i default).bounds.area)
        (UnionFind.init n))).parent a b from Iff.rfl]
  rw [hchar a b]
  have hbase : ∀ c d : ℕ, (rootEqv ((List.range n).foldl
      (fun uf i => uf.setSize i (anom.getD i default).bounds.area)
      (UnionFind.init n)).parent c d ∨ EdgeIn anom (allPairs n) c d)
      ↔ (c = d ∨ EdgeIn anom (allPairs n) c d) := by
    intro c d
    constructor
    · rintro (⟨r, h1, h2⟩ | h)
      · exact Or.inl ((rootEqv_init c d).mp ⟨r, (hiff1 _ _).mp h1, (hiff1 _ _).mp h2⟩)
      · exact Or.inr h
    · rintro (rfl | h)
      · obtain ⟨r, h1, h2⟩ := (rootEqv_init (n := n) c c).mpr rfl
        exact Or.inl ⟨r, (hiff1 _ _).mpr h1, (hiff1 _ _).mpr h2⟩
      · exact Or.inr h
  have hfeq : (fun c d => rootEqv ((List.range n).foldl
      (fun uf i => uf.setSize i (anom.getD i default).bounds.area)
      (UnionFind.init n)).parent c d ∨ EdgeIn anom (allPairs n) c d)
      = (fun c d => c = d ∨ EdgeIn anom (allPairs n) c d) := by
    funext c d
    exact propext (hbase c d)
  rw [hfeq, rtg_collapse_eq, edge_rtg_conn]
  constructor
  · rintro (rfl | ⟨_, h⟩)
    · exact Or.inl rfl
    · exact Or.inr h
  · rintro (rfl | h)
    · exact Or.inl rfl
    · exact Or.inr ⟨ha, h⟩

theorem rootsFold_spec {n : ℕ} :
    ∀ (l : List ℕ) (uf : UnionFind) (acc : List ℕ), ufOk n uf → (∀ i ∈ l, i < n) →
      ufOk n (l.foldl (fun (st : UnionFind × List ℕ) i =>
        ((st.1.find i).1, st.2 ++ [(st.1.find i).2])) (uf, acc)).1 ∧
      (∀ a b, rootSpec (l.foldl (fun (st : UnionFind × List ℕ) i =>
        ((st.1.find i).1, st.2 ++ [(st.1.find i).2])) (uf, acc)).1.parent a b ↔
        rootSpec uf.parent a b) ∧
      (l.foldl (fun (st : UnionFind × List ℕ) i =>
        ((st.1.find i).1, st.2 ++ [(st.1.find i).2])) (uf, acc)).2
        = acc ++ l.map (fun i => rootD uf.parent i) := by
  intro l
  induction l with
  | nil =>
    intro uf acc hok _
    exact ⟨hok, fun a b => Iff.rfl, by simp⟩
  | cons i l ih =>
    intro uf acc hok hmem
    have hi : i < n := hmem i (List.mem_cons_self _ _)
    obtain ⟨hok1, _, _, _, hrs, hiff⟩ := find_spec hok hi
    rw [List.foldl_cons]
    obtain ⟨ih1, ih2, ih3⟩ := ih (uf.find i).1 (acc ++ [(uf.find i).2]) hok1
      (fun j hj => hmem j (List.mem_cons_of_mem _ hj))
    refine ⟨ih1, ?_, ?_⟩
    · intro a b
      rw [ih2 a b, hiff a b]
    · rw [ih3, List.map_cons]
      have hroot : (uf.find i).2 = rootD uf.parent i := by
        exact rootSpec_unique hrs (rootD_spec hok.2 (show i < uf.parent.length by
          have := hok.1
          omega))
      have hmap : l.map (fun j => rootD (uf.find i).1.parent j)
          = l.map (fun j => rootD uf.parent j) := by
        refine List.map_congr_left ?_
        intro j hj
        exact rootD_congr hok1.2 hok.2 (by rw [hok1.1, hok.1])
          hiff (by rw [hok1.1]; exact hmem j (List.mem_cons_of_mem _ hj))
      rw [hmap, hroot]
      simp

theorem firstKeys_fold_mem (x : ℕ) :
    ∀ (l ks : List ℕ),
      (x ∈ l.foldl (fun ks r => if r ∈ ks then ks else ks ++ [r]) ks
        ↔ (x ∈ ks ∨ x ∈ l)) := by
  intro l
  induction l with
  | nil => intro ks; simp
  | cons r l ih =>
    intro ks
    rw [List.foldl_cons, ih]
    by_cases hr : r ∈ ks
    · rw [if_pos hr]
      constructor
      · rintro (h | h)
        · exact Or.inl h
        · exact Or.inr (List.mem_cons_of_mem _ h)
      · rintro (h | h)
        · exact Or.inl h
        · rcases List.mem_cons.mp h with rfl | h
          · exact Or.inl hr
          · exact Or.inr h
    · rw [if_neg hr]
      constructor
      · rintro (h | h)
        · rcases List.mem_append.mp h with h | h
          · exact Or.inl h
          · rw [List.mem_singleton] at h
            exact Or.inr (h ▸ List.mem_cons_self _ _)
        · exact Or.inr (List.mem_cons_of_mem _ h)
      · rintro (h | h)
        · exact Or.inl (List.mem_append_left _ h)
        · rcases List.mem_cons.mp h with rfl | h
          · exact Or.inl (List.mem_append_right _ (List.mem_singleton_self _))
          · exact Or.inr h

theorem firstKeys_mem (x : ℕ) (l : List ℕ) : x ∈ firstKeys l ↔ x ∈ l := by
  rw [firstKeys, firstKeys_fold_mem]
  simp

theorem firstKeys_snoc (l : List ℕ) (r : ℕ) :
    firstKeys (l ++ [r])
      = if r ∈ firstKeys l then firstKeys l else firstKeys l ++ [r] := by
  rw [firstKeys, List.foldl_append]
  rfl

theorem getD_map_range {f : ℕ → ℕ} {n i d : ℕ} (h : i < n) :
    ((List.range n).map f).getD i d = f i := by
  rw [List.getD_eq_getElem?_getD, List.getElem?_map, List.getElem?_range h]
  rfl

theorem getD_append_left {l l' : List ℕ} {i : ℕ} {d : ℕ} (h : i < l.length) :
    (l ++ l').getD i d = l.getD i d := by
  rw [List.getD_eq_getElem?_getD, List.getElem?_append_left h,
    ← List.getD_eq_getElem?_getD]

theorem getD_append_len {l : List ℕ} {x d : ℕ} :
    (l ++ [x]).getD l.length d = x := by
  rw [List.getD_eq_getElem?_getD, List.getElem?_append_right (le_refl _)]
  simp

theorem ufGroupRoots_eq (anom : List RegionTreeNode) (n : ℕ) :
    ufGroupRoots anom n
      = (List.range n).map (fun i => rootD (ufAfterPairs anom n).parent i) := by
  obtain ⟨_, _, h3⟩ := @rootsFold_spec n (List.range n) (ufAfterPairs anom n) []
    (ufAfterPairs_spec anom n).1 (by intro i hi; rwa [List.mem_range] at hi)
  rw [ufGroupRoots]
  simpa using h3

/-- The union-find component finder, characterised: up to the final sort,
its components are the `f`-classes (for `f` the final root assignment) in
order of first appearance, with members ascending. -/
theorem findConnectedComponents_char (nodes : List RegionTreeNode)
    (anom : List RegionTreeNode) (n : ℕ) (f : ℕ → ℕ)
    (hanom : anom = anomalousNodes nodes) (hn : n = anom.length) (h0 : ¬ n = 0)
    (hfdef : f = fun i => rootD (ufAfterPairs anom n).parent i) :
    ((findConnectedComponents nodes).map (fun c => (c.nodeIndices : Multiset ℕ))
        : Multiset (Multiset ℕ))
      = ↑((List.range (firstKeys ((List.range n).map f)).length).map
          (fun t => (↑(((List.range n).filter
              (fun i => f i = (firstKeys ((List.range n).map f)).getD t 0)).map
            (fun i => (anom.getD i default).id)) : Multiset ℕ))) := by
  subst hanom
  subst hn
  subst hfdef
  have hfc : findConnectedComponents nodes
      = if (anomalousNodes nodes).length = 0 then []
        else ((List.range (firstKeys (ufGroupRoots (anomalousNodes nodes)
            (anomalousNodes nodes).length)).length).map
          (fun (t : ℕ) => mkComponent (anomalousNodes nodes) (t : ℤ)
            ((List.range (anomalousNodes nodes).length).filter
              (fun i => (ufGroupRoots (anomalousNodes nodes)
                  (anomalousNodes nodes).length).getD i 0
                = (firstKeys (ufGroupRoots (anomalousNodes nodes)
                    (anomalousNodes nodes).length)).getD t 0)))).mergeSort
          (fun a b => decide (b.totalArea ≤ a.totalArea)) := rfl
  rw [hfc, if_neg h0]
  have hperm := List.mergeSort_perm ((List.range (firstKeys (ufGroupRoots
      (anomalousNodes nodes) (anomalousNodes nodes).length)).length).map
    (fun (t : ℕ) => mkComponent (anomalousNodes nodes) (t : ℤ)
      ((List.range (anomalousNodes nodes).length).filter
        (fun i => (ufGroupRoots (anomalousNodes nodes)
            (anomalousNodes nodes).length).getD i 0
          = (firstKeys (ufGroupRoots (anomalousNodes nodes)
              (anomalousNodes nodes).length)).getD t 0))))
    (fun a b => decide (b.totalArea ≤ a.totalArea))
  have hperm2 := hperm.map (fun c => (c.nodeIndices : Multiset ℕ))
  rw [Multiset.coe_eq_coe.mpr hperm2]
  rw [ufGroupRoots_eq, List.map_map]
  congr 1
  refine List.map_congr_left ?_
  intro t _
  simp only [Function.comp]
  have hfilter : (List.range (anomalousNodes nodes).length).filter
      (fun i => ((List.range (anomalousNodes nodes).length).map
          (fun i => rootD (ufAfterPairs (anomalousNodes nodes)
            (anomalousNodes nodes).length).parent i)).getD i 0
        = (firstKeys ((List.range (anomalousNodes nodes).length).map
            (fun i => rootD (ufAfterPairs (anomalousNodes nodes)
              (anomalousNodes nodes).length).parent i))).getD t 0)
      = (List.range (anomalousNodes nodes).length).filter
      (fun i => rootD (ufAfterPairs (anomalousNodes nodes)
          (anomalousNodes nodes).length).parent i
        = (firstKeys ((List.range (anomalousNodes nodes).length).map
            (fun i => rootD (ufAfterPairs (anomalousNodes nodes)
              (anomalousNodes nodes).length).parent i))).getD t 0) := by
    refine List.filter_congr ?_
    intro i hi
    rw [List.mem_range] at hi
    rw [getD_map_range hi]
  rw [hfilter]
  rfl

theorem getD_replicate_false (n i : ℕ) : (List.replicate n false).getD i false = false := by
  rw [List.getD_eq_getElem?_getD, List.getElem?_replicate]
  split <;> rfl

/-- The outer start loop of the DFS component finder, characterised: with
`f` any class function agreeing with connectivity, after the starts
`0..m-1` the visited set is the union of their `f`-classes, and the
collected components are those classes (members ascending), keyed in order
of first appearance of the `f`-values. -/
theorem dfsFold_char (anom : List RegionTreeNode) (n : ℕ) (f : ℕ → ℕ)
    (hf : ∀ i j, i < n → j < n → (f i = f j ↔ (i = j ∨ Conn anom n i j))) :
    ∀ m, m ≤ n →
      ∃ visited comps,
        (List.range m).foldl (dfsFoldStep anom n) (some (List.replicate n false, []))
            = some (visited, comps) ∧
        visited.length = n ∧
        (∀ v, v < n → (visited.getD v false = true ↔ ∃ i, i < m ∧ f i = f v)) ∧
        comps.map (fun c => (c.nodeIndices : Multiset ℕ))
          = (List.range (firstKeys ((List.range m).map f)).length).map
              (fun t => (↑(((List.range n).filter
                  (fun i => f i = (firstKeys ((List.range m).map f)).getD t 0)).map
                (fun i => (anom.getD i default).id)) : Multiset ℕ)) := by
  intro m
  induction m with
  | zero =>
    intro _
    refine ⟨List.replicate n false, [], rfl, List.length_replicate _ _, ?_, ?_⟩
    · intro v _
      rw [getD_replicate_false]
      constructor
      · intro h
        exact absurd h (by simp)
      · rintro ⟨i, hi, _⟩
        omega
    · simp [firstKeys]
  | succ m ih =>
    intro hmn
    have hm : m < n := hmn
    obtain ⟨visited, comps, hfold, hvlen, hvchar, hcomps⟩ := ih (le_of_lt hm)
    have hfold' : (List.range (m + 1)).foldl (dfsFoldStep anom n)
        (some (List.replicate n false, []))
        = dfsFoldStep anom n (some (visited, comps)) m := by
      rw [List.range_succ, List.foldl_append, hfold, List.foldl_cons, List.foldl_nil]
    rw [hfold']
    by_cases hvm : visited.getD m false = true
    · have hstep : dfsFoldStep anom n (some (visited, comps)) m = some (visited, comps) := by
        show (if visited.getD m false then some (visited, comps)
          else match dfsLoop (fun u => adjAt anom n u) ((n + 1) * (n + 1)) visited
              [m] [] with
            | none => none
            | some (visited2, acc) =>
              some (visited2, comps ++ [mkComponent anom (comps.length : ℤ) acc]))
          = some (visited, comps)
        rw [if_pos hvm]
      obtain ⟨i0, hi0, hfi0⟩ := (hvchar m hm).mp hvm
      refine ⟨visited, comps, hstep, hvlen, ?_, ?_⟩
      · intro v hv
        rw [hvchar v hv]
        constructor
        · rintro ⟨i, hi, hfi⟩
          exact ⟨i, Nat.lt_succ_of_lt hi, hfi⟩
        · rintro ⟨i, hi, hfi⟩
          rcases Nat.lt_succ_iff_lt_or_eq.mp hi with hi' | rfl
          · exact ⟨i, hi', hfi⟩
          · exact ⟨i0, hi0, hfi0.trans hfi⟩
      · have hmem : f m ∈ firstKeys ((List.range m).map f) := by
          rw [firstKeys_mem]
          exact List.mem_map.mpr ⟨i0, List.mem_range.mpr hi0, hfi0⟩
        have hkeys : firstKeys ((List.range (m + 1)).map f)
            = firstKeys ((List.range m).map f) := by
          rw [List.range_succ, List.map_append, List.map_cons, List.map_nil,
            firstKeys_snoc, if_pos hmem]
        rw [hkeys]
        exact hcomps
    · have hvm' : visited.getD m false = false := by
        cases h : visited.getD m false
        · rfl
        · exact absurd h hvm
      have hclosed : ∀ a, a < n → visited.getD a false = true →
          ∀ b ∈ adjAt anom n a, visited.getD b false = true := by
        intro a ha hva b hb
        have hb' : b < n := adjAt_lt ha hb
        obtain ⟨i, hi, hfi⟩ := (hvchar a ha).mp hva
        have hconn : Conn anom n a b := Relation.ReflTransGen.single hb
        have hfab : f a = f b := (hf a b ha hb').mpr (Or.inr hconn)
        exact (hvchar b hb').mpr ⟨i, hi, hfi.trans hfab⟩
      obtain ⟨visited2, acc2, hrun, hv2len, hnd, hacc, hv2⟩ :=
        dfsRun_spec anom n m hm visited hvlen hclosed hvm'
      have hstep : dfsFoldStep anom n (some (visited, comps)) m
          = some (visited2, comps ++ [mkComponent anom (comps.length : ℤ) acc2]) := by
        show (if visited.getD m false then some (visited, comps)
          else match dfsLoop (fun u => adjAt anom n u) ((n + 1) * (n + 1)) visited
              [m] [] with
            | none => none
            | some (visited2, acc) =>
              some (visited2, comps ++ [mkComponent anom (comps.length : ℤ) acc]))
          = some (visited2, comps ++ [mkComponent anom (comps.length : ℤ) acc2])
        rw [if_neg (by rw [hvm']; exact Bool.false_ne_true), hrun]
      refine ⟨visited2, comps ++ [mkComponent anom (comps.length : ℤ) acc2],
        hstep, hv2len, ?_, ?_⟩
      · intro v hv
        rw [hv2 v hv]
        constructor
        · rintro (hvis | hmemacc)
          · obtain ⟨i, hi, hfi⟩ := (hvchar v hv).mp hvis
            exact ⟨i, Nat.lt_succ_of_lt hi, hfi⟩
          · have hconn := (hacc v).mp hmemacc
            exact ⟨m, Nat.lt_succ_self m, (hf m v hm hv).mpr (Or.inr hconn.2)⟩
        · rintro ⟨i, hi, hfi⟩
          rcases Nat.lt_succ_iff_lt_or_eq.mp hi with hi' | heq
          · exact Or.inl ((hvchar v hv).mpr ⟨i, hi', hfi⟩)
          · right
            rw [heq] at hfi
            rw [hacc v]
            refine ⟨hv, ?_⟩
            rcases (hf m v hm hv).mp hfi with rfl | hconn
            · exact Relation.ReflTransGen.refl
            · exact hconn
      · have hnotmem : f m ∉ firstKeys ((List.range m).map f) := by
          rw [firstKeys_mem]
          intro hmem
          obtain ⟨i, hi, hfi⟩ := List.mem_map.mp hmem
          rw [List.mem_range] at hi
          have := (hvchar m hm).mpr ⟨i, hi, hfi⟩
          rw [hvm'] at this
          exact Bool.false_ne_true this
        have hK : firstKeys ((List.range (m + 1)).map f)
            = firstKeys ((List.range m).map f) ++ [f m] := by
          rw [List.range_succ, List.map_append, List.map_cons, List.map_nil,
            firstKeys_snoc, if_neg hnotmem]
        rw [hK, List.length_append, List.length_cons, List.length_nil,
          List.range_succ, List.map_append, List.map_append, List.map_cons,
          List.map_cons, List.map_nil, List.map_nil]
        have hpre : (List.range (firstKeys ((List.range m).map f)).length).map
            (fun t => (↑(((List.range n).filter
                (fun i => f i = (firstKeys ((List.range m).map f) ++ [f m]).getD t 0)).map
              (fun i => (anom.getD i default).id)) : Multiset ℕ))
            = (List.range (firstKeys ((List.range m).map f)).length).map
            (fun t => (↑(((List.range n).filter
                (fun i => f i = (firstKeys ((List.range m).map f)).getD t 0)).map
              (fun i => (anom.getD i default).id)) : Multiset ℕ)) := by
          refine List.map_congr_left ?_
          intro t ht
          rw [List.mem_range] at ht
          rw [getD_append_left ht]
        rw [hpre, ← hcomps]
        congr 1
        have hperm : acc2.Perm ((List.range n).filter (fun i =>
            f i = (firstKeys ((List.range m).map f) ++ [f m]).getD
              (firstKeys ((List.range m).map f)).length 0)) := by
          rw [getD_append_len]
          refine perm_of_nodup_mem_iff hnd (List.Nodup.filter _ (List.nodup_range n)) ?_
          intro v
          rw [List.mem_filter, List.mem_range, hacc v]
          constructor
          · rintro ⟨hv, hconn⟩
            refine ⟨hv, ?_⟩
            rw [decide_eq_true_iff]
            exact ((hf m v hm hv).mpr (Or.inr hconn)).symm
          · rintro ⟨hv, hdec⟩
            rw [decide_eq_true_iff] at hdec
            refine ⟨hv, ?_⟩
            rcases (hf m v hm hv).mp hdec.symm with rfl | hconn
            · exact Relation.ReflTransGen.refl
            · exact hconn
        have : (↑(acc2.map (fun i => (anom.getD i default).id)) : Multiset ℕ)
            = ↑(((List.range n).filter (fun i =>
                f i = (firstKeys ((List.range m).map f) ++ [f m]).getD
                  (firstKeys ((List.range m).map f)).length 0)).map
              (fun i => (anom.getD i default).id)) :=
          Multiset.coe_eq_coe.mpr (hperm.map _)
        exact congrArg (fun x => [x]) this

/-- C6: For every scored tree, `QueryEngine::findConnectedComponents`
(disjoint-set union) and `QueryEngine::findConnectedComponentsDFS`
(depth-first traversal) produce the same partition of the anomalous
leaves into components: the DFS variant terminates within its fuel, and
the multiset of components — each taken as the multiset of its member
node ids, so component id numbering and component order are ignored — is
the same for both algorithms. -/
theorem connected_components_equiv (nodes : List RegionTreeNode) :
    ∃ comps, findConnectedComponentsDFS nodes = some comps ∧
      ((comps.map (fun c => (c.nodeIndices : Multiset ℕ))) : Multiset (Multiset ℕ))
        = ↑((findConnectedComponents nodes).map
            (fun c => (c.nodeIndices : Multiset ℕ))) := by
  by_cases h0 : (anomalousNodes nodes).length = 0
  · refine ⟨[], ?_, ?_⟩
    · show (if (anomalousNodes nodes).length = 0 then some []
        else ((List.range (anomalousNodes nodes).length).foldl
          (dfsFoldStep (anomalousNodes nodes) (anomalousNodes nodes).length)
          (some (List.replicate (anomalousNodes nodes).length false, []))).map
            (fun pr => pr.2.mergeSort (fun a b => decide (b.totalArea ≤ a.totalArea))))
        = some []
      rw [if_pos h0]
    · have hfc : findConnectedComponents nodes = [] := by
        show (if (anomalousNodes nodes).length = 0 then []
          else ((List.range (firstKeys (ufGroupRoots (anomalousNodes nodes)
              (anomalousNodes nodes).length)).length).map
            (fun (t : ℕ) => mkComponent (anomalousNodes nodes) (t : ℤ)
              ((List.range (anomalousNodes nodes).length).filter
                (fun i => (ufGroupRoots (anomalousNodes nodes)
                    (anomalousNodes nodes).length).getD i 0
                  = (firstKeys (ufGroupRoots (anomalousNodes nodes)
                      (anomalousNodes nodes).length)).getD t 0)))).mergeSort
            (fun a b => decide (b.totalArea ≤ a.totalArea))) = []
        rw [if_pos h0]
      rw [hfc]
  · have hfprop : ∀ i j, i < (anomalousNodes nodes).length →
        j < (anomalousNodes nodes).length →
        (rootD (ufAfterPairs (anomalousNodes nodes)
            (anomalousNodes nodes).length).parent i
          = rootD (ufAfterPairs (anomalousNodes nodes)
            (anomalousNodes nodes).length).parent j
          ↔ (i = j ∨ Conn (anomalousNodes nodes)
              (anomalousNodes nodes).length i j)) := by
      intro i j hi hj
      obtain ⟨hok, hchar⟩ := ufAfterPairs_spec (anomalousNodes nodes)
        (anomalousNodes nodes).length
      rw [rootD_eq_iff hok hi hj, hchar i j hi hj]
    obtain ⟨visited, comps, hfold, hvlen, hvchar, hcomps⟩ :=
      dfsFold_char (anomalousNodes nodes) (anomalousNodes nodes).length
        (fun i => rootD (ufAfterPairs (anomalousNodes nodes)
          (anomalousNodes nodes).length).parent i)
        hfprop (anomalousNodes nodes).length (le_refl _)
    refine ⟨comps.mergeSort (fun a b => decide (b.totalArea ≤ a.totalArea)), ?_, ?_⟩
    · show (if (anomalousNodes nodes).length = 0 then some []
        else ((List.range (anomalousNodes nodes).length).foldl
          (dfsFoldStep (anomalousNodes nodes) (anomalousNodes nodes).length)
          (some (List.replicate (anomalousNodes nodes).length false, []))).map
            (fun pr => pr.2.mergeSort (fun a b => decide (b.totalArea ≤ a.totalArea))))
        = some (comps.mergeSort (fun a b => decide (b.totalArea ≤ a.totalArea)))
      rw [if_neg h0, hfold]
      rfl
    · have hsort := List.mergeSort_perm comps
        (fun a b => decide (b.totalArea ≤ a.totalArea))
      have hsort2 := hsort.map (fun c => (c.nodeIndices : Multiset ℕ))
      rw [Multiset.coe_eq_coe.mpr hsort2, hcomps,
        findConnectedComponents_char nodes (anomalousNodes nodes)
          (anomalousNodes nodes).length
          (fun i => rootD (ufAfterPairs (anomalousNodes nodes)
            (anomalousNodes nodes).length).parent i)
          rfl rfl h0 rfl]

end SatelliteAnalytics
